import Mathlib

/-
Verification development for the segregated-free-list memory allocator in
src/mm.c.

Modelling conventions (shallow embedding at block granularity):

* Addresses are byte offsets from the start of the heap region handed out by
  the growth primitive mem_sbrk (mm_init's first request).  mm_init consumes
  80 bytes: nine 8-byte bucket-head slots (offsets 0..71), the 4-byte
  prologue word at offset 72, and the 4-byte epilogue word at offset 76.
  Hence the first real block's header lives at offset 76 (extend_heap
  overwrites the old epilogue with the new block's header) and its payload
  at offset 80.

* A block is modelled as its decoded boundary tag: total size in bytes
  (header + payload + footer, as stored by PACK(size, alloc)) together with
  the allocation bit.  The code keeps header and footer of every block it
  writes in agreement (extend_heap, place, free and coalesce each write
  both words with the same PACK value), so a single decoded tag per block is
  an exact model of the tag state.

* The arena (the chain of blocks between the prologue and epilogue
  sentinels) is the ordered list `Heap.blocks`; the address of each block is
  recovered by accumulating sizes from offset 76.  The sentinels themselves
  are represented implicitly: any tag read outside the arena (the prologue
  word at 72, the epilogue word past the last block) decodes as
  size 0 / allocated, which is exactly what the code's sentinels hold.

* The nine segregated free lists (heads in heap_listp[0..8], next links in
  the first payload word of each free block) are modelled as the lists of
  header addresses reachable from each head, `Heap.buckets`.  Writing a
  block's next-link or a bucket head is modelled by the corresponding
  surgery on these lists.

* User-visible payload bytes are a separate map `Mem : Nat -> Nat` touched
  only by memcpy / memset (realloc, calloc); tag words and free-list links
  are tracked structurally as above.

* Pointer values returned to callers are `PtrV`: NULL, the (void * )-1
  sentinel produced by a failed mem_sbrk, or a real address.  mem_sbrk
  success/failure is an external event and is modelled by the `growOk`
  oracle argument.  Executions that the C code would perform on garbage
  pointers (dereferencing the -1 sentinel, or find_prev running off the end
  of a list, which loops with no null check and dereferences a null next
  pointer) are modelled as `none` (a crash); all total results are `some`.
-/

namespace MM

/-- Decoded boundary tag of one block: total size (multiple of 8 in all
states the allocator produces) and the allocation bit, as packed by
PACK(size, alloc) in src/mm.c. -/
structure Block where
  bsize : Nat
  balloc : Bool
deriving DecidableEq, Repr

/-- Allocator state: the nine segregated free lists (heap_listp[0..8],
each the chain of header addresses reachable through NEXT_FREE) and the
arena block sequence between the prologue and epilogue sentinels. -/
structure Heap where
  buckets : List (List Nat)
  blocks : List Block
deriving DecidableEq, Repr

/-- A pointer value as seen by callers: NULL, the (void * )-1 value that a
failed mem_sbrk returns and extend_heap/malloc pass through, or an actual
payload/header address (an offset into the heap). -/
inductive PtrV where
  | null
  | sbrkFail
  | addr (a : Nat)
deriving DecidableEq, Repr

/-- Header address of the first arena block: mm_init lays out 72 bytes of
bucket heads, the prologue word at 72 and the epilogue word at 76; the
first extend_heap turns the epilogue word at 76 into a block header. -/
def heapBase : Nat := 76

/-- Total number of arena bytes, i.e. how far the break has moved past the
initial epilogue; block i's header sits at 76 + (sizes of blocks before i). -/
def sumSizes : List Block → Nat
  | [] => 0
  | b :: bs => b.bsize + sumSizes bs

/-- The arena annotated with each block's header address. -/
def withAddrs : List Block → Nat → List (Nat × Block)
  | [], _ => []
  | b :: bs, base => (base, b) :: withAddrs bs (base + b.bsize)

/-- Decode the tag at header address `a` (GET_SIZE / GET_ALLOC on a header
word): `none` when `a` is not a block header in the arena. -/
def blockAt : List Block → Nat → Nat → Option Block
  | [], _, _ => none
  | b :: bs, base, a => if base = a then some b else blockAt bs (base + b.bsize) a

/-- GET_SIZE at header address `a`; reads outside the arena (the sentinels)
decode as size 0. -/
def sizeAt (h : Heap) (a : Nat) : Nat :=
  (blockAt h.blocks heapBase a).elim 0 Block.bsize

/-- GET_ALLOC at header address `a`; reads outside the arena (the
sentinels, PACK(0,1)) decode as allocated. -/
def allocAt (h : Heap) (a : Nat) : Bool :=
  (blockAt h.blocks heapBase a).elim true Block.balloc

/-- The block whose footer word sits immediately before address `a`
(the left physical neighbour, reached via GET_SIZE/GET_ALLOC on `a - 4`),
together with its header address; `none` when `a` is the first block, in
which case the word before `a` is the allocated prologue sentinel. -/
def leftOf : List Block → Nat → Nat → Option (Nat × Block)
  | [], _, _ => none
  | b :: bs, base, a => if base + b.bsize = a then some (base, b) else leftOf bs (base + b.bsize) a

/-- GET_ALLOC of the word before header `bp` (the left neighbour's footer,
or the prologue sentinel which is allocated). -/
def leftAllocOf (h : Heap) (bp : Nat) : Bool :=
  (leftOf h.blocks heapBase bp).elim true (fun p => p.2.balloc)

/-- getIndex from src/mm.c lines 136-165: the bucket index for a block
size, thresholds 32, 64, 128, 256, 512, 1024, 2048, 4096. -/
def getIndex (asize : Nat) : Nat :=
  if asize ≤ 32 then 0
  else if asize ≤ 64 then 1
  else if asize ≤ 128 then 2
  else if asize ≤ 256 then 3
  else if asize ≤ 512 then 4
  else if asize ≤ 1024 then 5
  else if asize ≤ 2048 then 6
  else if asize ≤ 4096 then 7
  else 8

/-- Read bucket head `i` (heap_listp[i] and the chain hanging off it). -/
def bucketGet (h : Heap) (i : Nat) : List Nat := h.buckets.getD i []

/-- Overwrite bucket `i`'s chain. -/
def bucketSet (h : Heap) (i : Nat) (l : List Nat) : Heap :=
  { h with buckets := h.buckets.set i l }

/-- The chain hanging off NEXT_FREE(bp): the part of a free-list chain
strictly after the first occurrence of `bp`. -/
def suffixAfter : List Nat → Nat → List Nat
  | [], _ => []
  | x :: xs, bp => if x = bp then xs else suffixAfter xs bp

/-- Overwrite NEXT_FREE(p) with the chain `t`: the chain reachable from the
head keeps everything up to and including the first occurrence of `p` and
continues with `t`. -/
def setNext : List Nat → Nat → List Nat → List Nat
  | [], _, _ => []
  | x :: xs, p, t => if x = p then x :: t else x :: setNext xs p t

/-- relink from src/mm.c lines 203-213: unlink `bp` from the free list of
bucket getIndex(GET_SIZE(bp)).  With prev = NULL the bucket head is set to
NEXT_FREE(bp); otherwise NEXT_FREE(prev) is set to NEXT_FREE(bp). -/
def relink (h : Heap) (bp : Nat) (prev : Option Nat) : Heap :=
  let index := getIndex (sizeAt h bp)
  match prev with
  | none => bucketSet h index (suffixAfter (bucketGet h index) bp)
  | some p => bucketSet h index (setNext (bucketGet h index) p (suffixAfter (bucketGet h index) bp))

/-- The first while loop of first_fit (src/mm.c lines 177-185): walk one
bucket's chain, returning the first block with GET_SIZE >= asize together
with the prevPtr tracked along the way. -/
def ffScan (h : Heap) (asize : Nat) : List Nat → Option Nat → Option (Nat × Option Nat)
  | [], _ => none
  | p :: rest, prev =>
    if asize ≤ sizeAt h p then some (p, prev) else ffScan h asize rest (some p)

/-- The escalation loop of first_fit (src/mm.c lines 186-195): the head of
the first non-empty bucket in the given tail of the bucket array. -/
def firstNonEmptyHead : List (List Nat) → Option Nat
  | [] => none
  | l :: rest =>
    match l with
    | [] => firstNonEmptyHead rest
    | p :: _ => some p

/-- first_fit from src/mm.c lines 174-197: first-fit scan of the natural
bucket (tracking prevPtr), then unconditional head-take from the next
non-empty bucket up to index 8; NULL (`none`) when both fail.  The global
prevPtr is returned as the second component (NULL after escalation). -/
def first_fit (h : Heap) (asize : Nat) (index : Nat) : Option (Nat × Option Nat) :=
  match ffScan h asize (bucketGet h index) none with
  | some r => some r
  | none =>
    (firstNonEmptyHead ((h.buckets.drop (index + 1)).take (8 - index))).map (fun p => (p, none))

/-- The while loop of find_prev (src/mm.c lines 277-280): walk a chain
until `p` is found, tracking prevPtr.  The C loop has no null check, so
running off the end of the chain dereferences a null next pointer; that
outcome is modelled as `none`. -/
def fpScan (p : Nat) : Option Nat → List Nat → Option (Option Nat)
  | _, [] => none
  | prev, x :: xs => if x = p then some prev else fpScan p (some x) xs

/-- find_prev from src/mm.c lines 273-282: scan the bucket indexed by
GET_SIZE(p) for `p`, returning its list predecessor (NULL when `p` is the
bucket head). -/
def find_prev (h : Heap) (p : Nat) : Option (Option Nat) :=
  fpScan p none (bucketGet h (getIndex (sizeAt h p)))

/-- Rewrite the tag (header and footer) of the block at header address `a`
with the same size and the given allocation bit (the PUT pairs in free and
in place's no-split branch). -/
def setTagAt : List Block → Nat → Nat → Bool → List Block
  | [], _, _, _ => []
  | b :: bs, base, a, fl =>
    if base = a then { bsize := b.bsize, balloc := fl } :: bs
    else b :: setTagAt bs (base + b.bsize) a fl

/-- Writing a merged header/footer of size `n` at address `a` swallows the
following block(s) whose bytes now lie inside [a, a+n): they stop being
blocks of the arena. -/
def dropCovered : List Block → Nat → Nat → List Block
  | [], _, _ => []
  | b :: bs, base, e => if base < e then dropCovered bs (base + b.bsize) e else b :: bs

/-- The PUT(header)/PUT(footer) pair of coalesce that writes a merged free
block of size `n` at header address `a` (src/mm.c lines 305-306, 317-318,
330-331). -/
def writeMerged : List Block → Nat → Nat → Nat → List Block
  | [], _, _, _ => []
  | b :: bs, base, a, n =>
    if base = a then { bsize := n, balloc := false } :: dropCovered bs (base + b.bsize) (a + n)
    else b :: writeMerged bs (base + b.bsize) a n

/-- Insert `a` at the head of bucket `i` (the nextFreeBlock / head-swap
triple used by free and by coalesce's reinsertion). -/
def pushBucket (h : Heap) (i : Nat) (a : Nat) : Heap :=
  bucketSet h i (a :: bucketGet h i)

/-- coalesce from src/mm.c lines 292-337.  `bp` is a header address.  The
left neighbour's allocation bit is read from its footer (the word before
`bp`), the right neighbour's from its header (the word at bp + size); the
four cases unlink the participating free blocks (bp with prev NULL since
free just pushed it; neighbours via find_prev), write the merged tag at the
leftmost participant, and push the result onto the bucket of the merged
size.  find_prev running off a chain is a crash (`none`). -/
def coalesce (h : Heap) (bp : Nat) : Option Heap :=
  let leftAlloc := leftAllocOf h bp
  let rightAlloc := allocAt h (bp + sizeAt h bp)
  if leftAlloc && rightAlloc then some h
  else if !leftAlloc && rightAlloc then
    match leftOf h.blocks heapBase bp with
    | none => none
    | some (la, _) =>
      let h1 := relink h bp none
      match find_prev h1 la with
      | none => none
      | some pr =>
        let h2 := relink h1 la pr
        let newSize := sizeAt h2 la + sizeAt h2 bp
        let h3 : Heap := { h2 with blocks := writeMerged h2.blocks heapBase la newSize }
        some (pushBucket h3 (getIndex (sizeAt h3 la)) la)
  else if leftAlloc && !rightAlloc then
    let rb := bp + sizeAt h bp
    let h1 := relink h bp none
    match find_prev h1 rb with
    | none => none
    | some pr =>
      let h2 := relink h1 rb pr
      let newSize := sizeAt h2 rb + sizeAt h2 bp
      let h3 : Heap := { h2 with blocks := writeMerged h2.blocks heapBase bp newSize }
      some (pushBucket h3 (getIndex (sizeAt h3 bp)) bp)
  else
    match leftOf h.blocks heapBase bp with
    | none => none
    | some (la, _) =>
      let rb := bp + sizeAt h bp
      let h1 := relink h bp none
      match find_prev h1 rb with
      | none => none
      | some pr1 =>
        let h2 := relink h1 rb pr1
        match find_prev h2 la with
        | none => none
        | some pr2 =>
          let h3 := relink h2 la pr2
          let newSize := sizeAt h3 rb + sizeAt h3 bp + sizeAt h3 la
          let h4 : Heap := { h3 with blocks := writeMerged h3.blocks heapBase la newSize }
          some (pushBucket h4 (getIndex (sizeAt h4 la)) la)

/-- free from src/mm.c lines 343-357: NULL is a no-op; otherwise step back
to the header, rewrite header and footer with the allocation bit cleared,
push the block onto the bucket of its size, and coalesce.  Passing the
mem_sbrk failure sentinel would dereference (void * )-1: a crash. -/
def mm_free (h : Heap) (p : PtrV) : Option Heap :=
  match p with
  | .null => some h
  | .sbrkFail => none
  | .addr pv =>
    let bp := pv - 4
    let h1 : Heap := { h with blocks := setTagAt h.blocks heapBase bp false }
    let size := sizeAt h1 bp
    let h2 := pushBucket h1 (getIndex size) bp
    coalesce h2 bp

/-- extend_heap from src/mm.c lines 121-129 in the success case: mem_sbrk
returns the old break (the byte right after the old epilogue, i.e. payload
address 80 + total arena bytes), the old epilogue becomes the new block's
header (PACK(size,1)), its footer is written, and a fresh epilogue follows.
In block terms: one allocated block of the given size is appended. -/
def extend_heap (h : Heap) (size : Nat) : Nat × Heap :=
  (80 + sumSizes h.blocks, { h with blocks := h.blocks ++ [{ bsize := size, balloc := true }] })

/-- The split branch of place: write an allocated head of size `asz` at
header `a` and a fresh free tag for the remainder right after it. -/
def splitBlockAt : List Block → Nat → Nat → Nat → List Block
  | [], _, _, _ => []
  | b :: bs, base, a, asz =>
    if base = a then
      { bsize := asz, balloc := true } :: { bsize := b.bsize - asz, balloc := false } :: bs
    else b :: splitBlockAt bs (base + b.bsize) a asz

/-- place from src/mm.c lines 221-240: if the leftover csize - asize
(computed in C ints) exceeds 2*DSIZE = 16, unlink bp (relink indexes by the
pre-split size), write the allocated head and the free remainder, and hand
the remainder to free (which free-lists and possibly coalesces it);
otherwise tag the whole block allocated and unlink it.  Returns bp + 4,
the payload address. -/
def place (h : Heap) (asize : Nat) (bp : Nat) (prev : Option Nat) : Option (Nat × Heap) :=
  let csize := sizeAt h bp
  if (16 : Int) < (csize : Int) - (asize : Int) then
    let h1 := relink h bp prev
    let h2 : Heap := { h1 with blocks := splitBlockAt h1.blocks heapBase bp asize }
    (mm_free h2 (.addr (bp + asize + 4))).map (fun h3 => (bp + 4, h3))
  else
    let h1 : Heap := { h with blocks := setTagAt h.blocks heapBase bp true }
    some (bp + 4, relink h1 bp prev)

/-- The adjusted size computed by malloc (src/mm.c lines 253-257):
size += 8, then round up to a multiple of 8. -/
def asizeOf (sz : Nat) : Nat :=
  let s := sz + 8
  if s % 8 = 0 then s else (s / 8 + 1) * 8

/-- malloc from src/mm.c lines 247-268.  Zero size returns NULL.  Otherwise
compute asize and its bucket, run first_fit; on a miss call extend_heap and
return its result directly (which is the mem_sbrk failure sentinel when the
growth primitive fails, modelled by growOk = false); on a hit delegate to
place with the tracked prevPtr. -/
def mm_malloc (growOk : Bool) (h : Heap) (sz : Nat) : Option (PtrV × Heap) :=
  if sz = 0 then some (.null, h)
  else
    let asize := asizeOf sz
    let index := getIndex asize
    match first_fit h asize index with
    | none =>
      if growOk then
        let r := extend_heap h asize
        some (.addr r.1, r.2)
      else some (.sbrkFail, h)
    | some r => (place h asize r.1 r.2).map (fun q => (.addr q.1, q.2))

/-- User-visible payload bytes, addressed by heap offset. -/
def Mem : Type := Nat → Nat

/-- memcpy(dst, src, n) as a transformation of the byte map. -/
def memcpy (m : Mem) (dst src n : Nat) : Mem :=
  fun a => if dst ≤ a ∧ a < dst + n then m (src + (a - dst)) else m a

/-- memset(dst, v, n) as a transformation of the byte map. -/
def memset (m : Mem) (dst v n : Nat) : Mem :=
  fun a => if dst ≤ a ∧ a < dst + n then v else m a

/-- realloc from src/mm.c lines 362-385: NULL pointer behaves as malloc;
size 0 frees and returns NULL; otherwise malloc a new block, copy
min(GET_SIZE(old header), size) bytes -- note GET_SIZE is the old block's
TOTAL size including the 8 header/footer bytes -- free the old block and
return the new pointer.  If malloc yielded the mem_sbrk sentinel, the
NULL check misses it and memcpy writes through (void * )-1: a crash. -/
def mm_realloc (growOk : Bool) (h : Heap) (m : Mem) (oldptr : PtrV) (sz : Nat) :
    Option (PtrV × Heap × Mem) :=
  if oldptr = .null then (mm_malloc growOk h sz).map (fun r => (r.1, r.2, m))
  else if sz = 0 then (mm_free h oldptr).map (fun h2 => (.null, h2, m))
  else
    match oldptr with
    | .addr op =>
      (mm_malloc growOk h sz).bind (fun r =>
        if r.1 = .null then some (.null, r.2, m)
        else
          match r.1 with
          | .addr bp =>
            let oldsize := sizeAt r.2 (op - 4)
            let copyLen := if oldsize > sz then sz else oldsize
            let m1 := memcpy m bp op copyLen
            (mm_free r.2 (.addr op)).map (fun h2 => (.addr bp, h2, m1))
          | _ => none)
    | _ => none

/-- calloc from src/mm.c lines 392-399: total bytes are nmemb * size in
size_t arithmetic (wrapping at 2^64, no overflow check), malloc'd, then
memset to zero with no NULL check in between.  When malloc propagates the
mem_sbrk failure sentinel, memset writes through (void * )-1: a crash.
(memset(NULL, 0, 0), which arises only for bytes = 0, touches nothing.) -/
def mm_calloc (growOk : Bool) (h : Heap) (m : Mem) (nmemb sz : Nat) :
    Option (PtrV × Heap × Mem) :=
  let bytes := (nmemb * sz) % (2 ^ 64)
  (mm_malloc growOk h bytes).bind (fun r =>
    match r.1 with
    | .addr a => some (.addr a, r.2, memset m a 0 bytes)
    | .null => some (.null, r.2, m)
    | .sbrkFail => none)

/-- The state right after a successful mm_init (src/mm.c lines 95-115):
nine empty buckets, empty arena between the fresh sentinels. -/
def initHeap : Heap := { buckets := List.replicate 9 [], blocks := [] }

/-- Scanning the arena from prologue to epilogue never meets two directly
adjacent free blocks. -/
def noAdjacentFree : List Block → Bool
  | [] => true
  | [_] => true
  | a :: b :: rest => (a.balloc || b.balloc) && noAdjacentFree (b :: rest)

/-- Re-tag the block at header `a` as allocated (used to state the
generalized free precondition). -/
def markAlloc (h : Heap) (a : Nat) : Heap :=
  { h with blocks := setTagAt h.blocks heapBase a true }

/-- The allocator's global invariant, holding at every quiescent point:
nine buckets; every block's size is a positive multiple of 8 of at least
the minimum block size 16; a block is free exactly when its header address
is on the free list of the bucket its size indexes to; every free-list
entry is a free arena block of the bucket's size class; free lists have no
duplicates; and no two adjacent arena blocks are both free. -/
def Inv (h : Heap) : Prop :=
  h.buckets.length = 9 ∧
  (∀ p ∈ withAddrs h.blocks heapBase, p.2.bsize % 8 = 0 ∧ 16 ≤ p.2.bsize) ∧
  (∀ p ∈ withAddrs h.blocks heapBase,
    p.2.balloc = false → p.1 ∈ bucketGet h (getIndex p.2.bsize)) ∧
  (∀ i < 9, ∀ a ∈ bucketGet h i,
    ∃ p ∈ withAddrs h.blocks heapBase,
      p.1 = a ∧ p.2.balloc = false ∧ getIndex p.2.bsize = i) ∧
  (∀ i < 9, (bucketGet h i).Nodup) ∧
  noAdjacentFree h.blocks = true

instance (h : Heap) : Decidable (Inv h) := by
  unfold Inv
  infer_instance

/-- A legitimate argument to free: NULL, or the payload pointer of a
currently allocated arena block. -/
def ValidFreeArg (h : Heap) (p : PtrV) : Prop :=
  p = .null ∨ ∃ a s, p = .addr (a + 4) ∧ blockAt h.blocks heapBase a = some ⟨s, true⟩

/-- The usable (payload) capacity of a block in the specification's sense:
its total size minus the 8 bytes of header/footer overhead.  Kept separate
from the code's own quantities: realloc in src/mm.c uses GET_SIZE, the
total size, where the specification speaks of the usable size. -/
def specUsableSize (blockSize : Nat) : Nat := blockSize - 8

/-- Allocation bit of the last block of a segment, `true` for the empty
segment (the neighbouring sentinel is allocated). -/
def lastAlloc (bs : List Block) : Bool :=
  match bs.getLast? with
  | none => true
  | some c => c.balloc

/-- Allocation bit of the first block of a segment, `true` for the empty
segment (the neighbouring sentinel is allocated). -/
def headAlloc (bs : List Block) : Bool :=
  match bs.head? with
  | none => true
  | some d => d.balloc

/-- The accumulator run of the predecessor-tracking loops: the last element
of the list, or the starting accumulator for an empty list. -/
def lastOr (d : Option Nat) : List Nat → Option Nat
  | [] => d
  | x :: xs => lastOr (some x) xs

/-- Whether the junction between two arena segments is free-free clash
free. -/
def boundaryOk (A B : List Block) : Bool :=
  match A.getLast?, B.head? with
  | some x, some y => x.balloc || y.balloc
  | _, _ => true

/-! ### Basic list and bucket lemmas -/

theorem heapEq {h1 h2 : Heap} (hb : h1.buckets = h2.buckets)
    (hk : h1.blocks = h2.blocks) : h1 = h2 := by
  cases h1; cases h2; simp_all

theorem getD_set_self {α : Type} (l : List α) (i : Nat) (x d : α) (hi : i < l.length) :
    (l.set i x).getD i d = x := by
  induction l generalizing i with
  | nil => simp at hi
  | cons a t ih =>
    cases i with
    | zero => simp [List.set, List.getD]
    | succ j => simpa [List.set, List.getD] using ih j (by simpa using hi)

theorem getD_set_ne {α : Type} (l : List α) (i j : Nat) (x d : α) (hij : j ≠ i) :
    (l.set i x).getD j d = l.getD j d := by
  induction l generalizing i j with
  | nil => simp [List.set]
  | cons a t ih =>
    cases i with
    | zero =>
      cases j with
      | zero => exact absurd rfl hij
      | succ k => simp [List.set, List.getD]
    | succ i' =>
      cases j with
      | zero => simp [List.set, List.getD]
      | succ k => simpa [List.set, List.getD] using ih i' k (fun hh => hij (by omega))

theorem set_getD_self {α : Type} (l : List α) (i : Nat) (d : α) :
    l.set i (l.getD i d) = l := by
  induction l generalizing i with
  | nil => simp
  | cons a t ih =>
    cases i with
    | zero => simp [List.getD]
    | succ j => simpa [List.getD] using ih j

theorem bucketGet_set_self {h : Heap} {i : Nat} {l : List Nat} (hi : i < h.buckets.length) :
    bucketGet (bucketSet h i l) i = l :=
  getD_set_self _ _ _ _ hi

theorem bucketGet_set_ne {h : Heap} {i j : Nat} {l : List Nat} (hij : j ≠ i) :
    bucketGet (bucketSet h i l) j = bucketGet h j :=
  getD_set_ne _ _ _ _ _ hij

theorem bucketSet_blocks (h : Heap) (i : Nat) (l : List Nat) :
    (bucketSet h i l).blocks = h.blocks := rfl

theorem bucketSet_length (h : Heap) (i : Nat) (l : List Nat) :
    (bucketSet h i l).buckets.length = h.buckets.length := by
  simp [bucketSet]

theorem bucketSet_bucketSet (h : Heap) (i : Nat) (l l' : List Nat) :
    bucketSet (bucketSet h i l) i l' = bucketSet h i l' := by
  refine heapEq ?_ rfl
  simp [bucketSet, List.set_set]

theorem bucketSet_self (h : Heap) (i : Nat) : bucketSet h i (bucketGet h i) = h := by
  refine heapEq ?_ rfl
  exact set_getD_self _ _ _

theorem pushBucket_blocks (h : Heap) (i : Nat) (a : Nat) :
    (pushBucket h i a).blocks = h.blocks := rfl

/-! ### suffixAfter / setNext / scan lemmas -/

theorem suffixAfter_head (x : Nat) (xs : List Nat) : suffixAfter (x :: xs) x = xs := by
  simp [suffixAfter]

theorem suffixAfter_eq {L1 L2 : List Nat} {bp : Nat} (h : bp ∉ L1) :
    suffixAfter (L1 ++ bp :: L2) bp = L2 := by
  induction L1 with
  | nil => simp [suffixAfter]
  | cons x xs ih =>
    have hx : x ≠ bp := fun hh => h (hh ▸ List.mem_cons_self x xs)
    simp only [List.cons_append, suffixAfter, if_neg hx]
    exact ih (fun hh => h (List.mem_cons_of_mem _ hh))

theorem setNext_eq {L1 L2 : List Nat} {p : Nat} (t : List Nat) (h : p ∉ L1) :
    setNext (L1 ++ p :: L2) p t = L1 ++ p :: t := by
  induction L1 with
  | nil => simp [setNext]
  | cons x xs ih =>
    have hx : x ≠ p := fun hh => h (hh ▸ List.mem_cons_self x xs)
    simp only [List.cons_append, setNext, if_neg hx]
    exact congrArg (x :: ·) (ih (fun hh => h (List.mem_cons_of_mem _ hh)))

theorem fpScan_eq {L1 L2 : List Nat} {x : Nat} (pr : Option Nat) (h : x ∉ L1) :
    fpScan x pr (L1 ++ x :: L2) = some (lastOr pr L1) := by
  induction L1 generalizing pr with
  | nil => simp [fpScan, lastOr]
  | cons y ys ih =>
    have hy : y ≠ x := fun hh => h (hh ▸ List.mem_cons_self y ys)
    simp only [List.cons_append, fpScan, if_neg hy, lastOr]
    exact ih _ (fun hh => h (List.mem_cons_of_mem _ hh))

theorem lastOr_concat (d : Option Nat) (l : List Nat) (x : Nat) :
    lastOr d (l ++ [x]) = some x := by
  induction l generalizing d with
  | nil => simp [lastOr]
  | cons y ys ih => simpa [lastOr] using ih (some y)

/-- Removing a node from a chain via the pointer writes of relink: with the
predecessor produced by the tracking scan, the reachable chain loses
exactly that node. -/
theorem chain_remove {L1 : List Nat} (L2 : List Nat) {bp : Nat} (h1 : bp ∉ L1) (hnd : L1.Nodup) :
    (match lastOr none L1 with
     | none => suffixAfter (L1 ++ bp :: L2) bp
     | some p => setNext (L1 ++ bp :: L2) p (suffixAfter (L1 ++ bp :: L2) bp)) = L1 ++ L2 := by
  rcases List.eq_nil_or_concat L1 with rfl | ⟨L1', p, rfl⟩
  · simp [lastOr, suffixAfter]
  · simp only [List.concat_eq_append] at h1 hnd ⊢
    rw [lastOr_concat, suffixAfter_eq h1]
    have hp : p ∉ L1' := by
      rw [List.nodup_append] at hnd
      intro hmem
      exact hnd.2.2 hmem (List.mem_singleton_self p)
    have hdec : (L1' ++ [p]) ++ bp :: L2 = L1' ++ p :: (bp :: L2) := by simp
    show setNext ((L1' ++ [p]) ++ bp :: L2) p L2 = (L1' ++ [p]) ++ L2
    rw [hdec, setNext_eq _ hp]
    simp

/-! ### sumSizes / withAddrs machinery -/

theorem sumSizes_append (A B : List Block) :
    sumSizes (A ++ B) = sumSizes A + sumSizes B := by
  induction A with
  | nil => simp [sumSizes]
  | cons b bs ih => simp [sumSizes, ih]; omega

theorem withAddrs_append (A B : List Block) (base : Nat) :
    withAddrs (A ++ B) base = withAddrs A base ++ withAddrs B (base + sumSizes A) := by
  induction A generalizing base with
  | nil => simp [withAddrs, sumSizes]
  | cons b bs ih =>
    simp only [List.cons_append, withAddrs, sumSizes, List.append_eq]
    rw [ih, Nat.add_assoc]

theorem mem_withAddrs_snd {bs : List Block} {base : Nat} {p : Nat × Block}
    (h : p ∈ withAddrs bs base) : p.2 ∈ bs := by
  induction bs generalizing base with
  | nil => simp [withAddrs] at h
  | cons b t ih =>
    simp only [withAddrs, List.mem_cons] at h
    rcases h with rfl | h
    · simp
    · exact List.mem_cons_of_mem _ (ih h)

theorem withAddrs_base_le {bs : List Block} {base : Nat} {p : Nat × Block}
    (h : p ∈ withAddrs bs base) : base ≤ p.1 := by
  induction bs generalizing base with
  | nil => simp [withAddrs] at h
  | cons b t ih =>
    simp only [withAddrs, List.mem_cons] at h
    rcases h with rfl | h
    · exact le_refl _
    · exact le_trans (Nat.le_add_right _ _) (ih h)

theorem withAddrs_bound {bs : List Block} {base : Nat} {p : Nat × Block}
    (h : p ∈ withAddrs bs base) : p.1 + p.2.bsize ≤ base + sumSizes bs := by
  induction bs generalizing base with
  | nil => simp [withAddrs] at h
  | cons b t ih =>
    simp only [withAddrs, List.mem_cons] at h
    rcases h with rfl | h
    · simp only [sumSizes]
      omega
    · have := ih h
      simp only [sumSizes]
      omega

theorem withAddrs_addr_inj {bs : List Block} {base : Nat}
    (hpos : ∀ x ∈ bs, 0 < x.bsize) {p q : Nat × Block}
    (hp : p ∈ withAddrs bs base) (hq : q ∈ withAddrs bs base) (hpq : p.1 = q.1) : p = q := by
  induction bs generalizing base with
  | nil => simp [withAddrs] at hp
  | cons b t ih =>
    have hbpos : 0 < b.bsize := hpos b (List.mem_cons_self _ _)
    have hpos' : ∀ x ∈ t, 0 < x.bsize := fun x hx => hpos x (List.mem_cons_of_mem _ hx)
    simp only [withAddrs, List.mem_cons] at hp hq
    rcases hp with rfl | hp <;> rcases hq with rfl | hq
    · rfl
    · have := withAddrs_base_le hq
      omega
    · have := withAddrs_base_le hp
      omega
    · exact ih hpos' hp hq

/-- A decomposition of the address-annotated arena comes from a
decomposition of the block list itself. -/
theorem withAddrs_decomp {bs : List Block} {base : Nat} {W1 W2 : List (Nat × Block)}
    {a : Nat} {b : Block} (h : withAddrs bs base = W1 ++ (a, b) :: W2) :
    ∃ bs1 bs2, bs = bs1 ++ b :: bs2 ∧ W1 = withAddrs bs1 base ∧
      a = base + sumSizes bs1 ∧ W2 = withAddrs bs2 (a + b.bsize) := by
  induction bs generalizing base W1 with
  | nil => simp [withAddrs] at h
  | cons c cs ih =>
    simp only [withAddrs] at h
    cases W1 with
    | nil =>
      simp only [List.nil_append, List.cons.injEq] at h
      obtain ⟨h1, h2⟩ := h
      obtain ⟨rfl, rfl⟩ := Prod.mk.injEq .. ▸ h1
      refine ⟨[], cs, by simp, by simp [withAddrs], by simp [sumSizes], ?_⟩
      rw [← h2]
    | cons w W1' =>
      simp only [List.cons_append, List.cons.injEq] at h
      obtain ⟨rfl, h2⟩ := h
      obtain ⟨bs1, bs2, rfl, hW1, ha, hW2⟩ := ih h2
      exact ⟨c :: bs1, bs2, rfl, by simp [withAddrs, hW1],
        by simp only [sumSizes] ; omega, hW2⟩

theorem mem_of_withAddrs_eq {bs bs1 bs2 : List Block} (h : bs = bs1 ++ bs2) :
    ∀ x ∈ bs1, x ∈ bs := by
  intro x hx
  rw [h]
  exact List.mem_append_left _ hx

/-! ### blockAt lemmas -/

theorem blockAt_decomp {bs1 : List Block} (hpos : ∀ x ∈ bs1, 0 < x.bsize)
    (b : Block) (bs2 : List Block) (base : Nat) :
    blockAt (bs1 ++ b :: bs2) base (base + sumSizes bs1) = some b := by
  induction bs1 generalizing base with
  | nil => simp [blockAt, sumSizes]
  | cons c cs ih =>
    have hc : 0 < c.bsize := hpos c (List.mem_cons_self _ _)
    have hne : base ≠ base + sumSizes (c :: cs) := by
      simp only [sumSizes]; omega
    simp only [List.cons_append, blockAt, if_neg hne]
    have := ih (fun x hx => hpos x (List.mem_cons_of_mem _ hx)) (base + c.bsize)
    rw [this.symm.trans rfl] <;> try rfl
    congr 1
    simp only [sumSizes]
    omega

theorem blockAt_lt_none {bs : List Block} {base a : Nat} (ha : a < base) :
    blockAt bs base a = none := by
  induction bs generalizing base with
  | nil => rfl
  | cons b t ih =>
    have : base ≠ a := by omega
    simp only [blockAt, if_neg this]
    exact ih (by omega)

theorem blockAt_ge_none {bs : List Block} {base a : Nat}
    (hpos : ∀ x ∈ bs, 0 < x.bsize) (ha : base + sumSizes bs ≤ a) :
    blockAt bs base a = none := by
  induction bs generalizing base with
  | nil => rfl
  | cons b t ih =>
    have hb : 0 < b.bsize := hpos b (List.mem_cons_self _ _)
    simp only [sumSizes] at ha
    have : base ≠ a := by omega
    simp only [blockAt, if_neg this]
    exact ih (fun x hx => hpos x (List.mem_cons_of_mem _ hx)) (by omega)

theorem blockAt_mem_withAddrs {bs : List Block} {base a : Nat} {b : Block}
    (h : blockAt bs base a = some b) : (a, b) ∈ withAddrs bs base := by
  induction bs generalizing base with
  | nil => simp [blockAt] at h
  | cons c t ih =>
    simp only [blockAt] at h
    simp only [withAddrs, List.mem_cons]
    by_cases hba : base = a
    · subst hba
      simp at h
      subst h
      exact Or.inl rfl
    · rw [if_neg hba] at h
      exact Or.inr (ih h)

theorem withAddrs_mem_blockAt {bs : List Block} {base a : Nat} {b : Block}
    (hpos : ∀ x ∈ bs, 0 < x.bsize) (h : (a, b) ∈ withAddrs bs base) :
    blockAt bs base a = some b := by
  induction bs generalizing base with
  | nil => simp [withAddrs] at h
  | cons c t ih =>
    have hc : 0 < c.bsize := hpos c (List.mem_cons_self _ _)
    simp only [withAddrs, List.mem_cons] at h
    rcases h with heq | h
    · obtain ⟨rfl, rfl⟩ := Prod.mk.injEq .. ▸ heq
      simp [blockAt]
    · have := withAddrs_base_le h
      have hba : base ≠ a := by omega
      simp only [blockAt, if_neg hba]
      exact ih (fun x hx => hpos x (List.mem_cons_of_mem _ hx)) h

/-! ### Arena surgery lemmas -/

theorem setTagAt_decomp {bs1 : List Block} (hpos : ∀ x ∈ bs1, 0 < x.bsize)
    (b : Block) (bs2 : List Block) (base : Nat) (fl : Bool) :
    setTagAt (bs1 ++ b :: bs2) base (base + sumSizes bs1) fl
      = bs1 ++ { bsize := b.bsize, balloc := fl } :: bs2 := by
  induction bs1 generalizing base with
  | nil => simp [setTagAt, sumSizes]
  | cons c cs ih =>
    have hc : 0 < c.bsize := hpos c (List.mem_cons_self _ _)
    have hne : base ≠ base + sumSizes (c :: cs) := by
      simp only [sumSizes]; omega
    simp only [List.cons_append, setTagAt, if_neg hne, List.append_eq]
    have heq : base + sumSizes (c :: cs) = base + c.bsize + sumSizes cs := by
      simp only [sumSizes]; omega
    rw [heq, ih (fun x hx => hpos x (List.mem_cons_of_mem _ hx))]

theorem splitBlockAt_decomp {bs1 : List Block} (hpos : ∀ x ∈ bs1, 0 < x.bsize)
    (b : Block) (bs2 : List Block) (base asz : Nat) :
    splitBlockAt (bs1 ++ b :: bs2) base (base + sumSizes bs1) asz
      = bs1 ++ { bsize := asz, balloc := true } ::
          { bsize := b.bsize - asz, balloc := false } :: bs2 := by
  induction bs1 generalizing base with
  | nil => simp [splitBlockAt, sumSizes]
  | cons c cs ih =>
    have hc : 0 < c.bsize := hpos c (List.mem_cons_self _ _)
    have hne : base ≠ base + sumSizes (c :: cs) := by
      simp only [sumSizes]; omega
    simp only [List.cons_append, splitBlockAt, if_neg hne, List.append_eq]
    have heq : base + sumSizes (c :: cs) = base + c.bsize + sumSizes cs := by
      simp only [sumSizes]; omega
    rw [heq, ih (fun x hx => hpos x (List.mem_cons_of_mem _ hx))]

theorem dropCovered_stop {bs : List Block} {base e : Nat} (h : e ≤ base) :
    dropCovered bs base e = bs := by
  cases bs with
  | nil => rfl
  | cons b t =>
    have : ¬ base < e := by omega
    simp [dropCovered, this]

theorem writeMerged_here (c : Block) (rest : List Block) (base n : Nat) :
    writeMerged (c :: rest) base base n
      = { bsize := n, balloc := false } :: dropCovered rest (base + c.bsize) (base + n) := by
  simp [writeMerged]

theorem dropCovered_cons_lt {b : Block} {bs : List Block} {base e : Nat} (h : base < e) :
    dropCovered (b :: bs) base e = dropCovered bs (base + b.bsize) e := by
  simp [dropCovered, h]

theorem writeMerged_two {bs1 : List Block} (hpos : ∀ x ∈ bs1, 0 < x.bsize)
    (c b : Block) (bs2 : List Block) (base : Nat) (hb : 0 < b.bsize) :
    writeMerged (bs1 ++ c :: b :: bs2) base (base + sumSizes bs1) (c.bsize + b.bsize)
      = bs1 ++ { bsize := c.bsize + b.bsize, balloc := false } :: bs2 := by
  induction bs1 generalizing base with
  | nil =>
    simp only [List.nil_append, sumSizes, Nat.add_zero]
    rw [writeMerged_here, dropCovered_cons_lt (by omega), dropCovered_stop (by omega)]
  | cons d ds ih =>
    have hd : 0 < d.bsize := hpos d (List.mem_cons_self _ _)
    have hne : base ≠ base + sumSizes (d :: ds) := by
      simp only [sumSizes]; omega
    simp only [List.cons_append, writeMerged, if_neg hne, List.append_eq]
    have heq : base + sumSizes (d :: ds) = base + d.bsize + sumSizes ds := by
      simp only [sumSizes]; omega
    rw [heq, ih (fun x hx => hpos x (List.mem_cons_of_mem _ hx))]

theorem writeMerged_three {bs1 : List Block} (hpos : ∀ x ∈ bs1, 0 < x.bsize)
    (c b d : Block) (bs2 : List Block) (base : Nat) (hb : 0 < b.bsize) (hd : 0 < d.bsize) :
    writeMerged (bs1 ++ c :: b :: d :: bs2) base (base + sumSizes bs1)
        (c.bsize + b.bsize + d.bsize)
      = bs1 ++ { bsize := c.bsize + b.bsize + d.bsize, balloc := false } :: bs2 := by
  induction bs1 generalizing base with
  | nil =>
    simp only [List.nil_append, sumSizes, Nat.add_zero]
    rw [writeMerged_here, dropCovered_cons_lt (by omega), dropCovered_cons_lt (by omega),
      dropCovered_stop (by omega)]
  | cons e es ih =>
    have he : 0 < e.bsize := hpos e (List.mem_cons_self _ _)
    have hne : base ≠ base + sumSizes (e :: es) := by
      simp only [sumSizes]; omega
    simp only [List.cons_append, writeMerged, if_neg hne, List.append_eq]
    have heq : base + sumSizes (e :: es) = base + e.bsize + sumSizes es := by
      simp only [sumSizes]; omega
    rw [heq, ih (fun x hx => hpos x (List.mem_cons_of_mem _ hx))]

/-! ### leftOf lemmas -/

theorem leftOf_le_none {bs : List Block} {base a : Nat}
    (hpos : ∀ x ∈ bs, 0 < x.bsize) (h : a ≤ base) : leftOf bs base a = none := by
  induction bs generalizing base with
  | nil => rfl
  | cons b t ih =>
    have hb : 0 < b.bsize := hpos b (List.mem_cons_self _ _)
    have : base + b.bsize ≠ a := by omega
    simp only [leftOf, if_neg this]
    exact ih (fun x hx => hpos x (List.mem_cons_of_mem _ hx)) (by omega)

theorem leftOf_first {bs : List Block} {base : Nat}
    (hpos : ∀ x ∈ bs, 0 < x.bsize) : leftOf bs base base = none :=
  leftOf_le_none hpos (le_refl _)

theorem leftOf_decomp (bs1 : List Block) (c : Block) (bs2 : List Block) (base : Nat)
    (hpos : ∀ x ∈ bs1 ++ [c], 0 < x.bsize) :
    leftOf (bs1 ++ c :: bs2) base (base + sumSizes bs1 + c.bsize)
      = some (base + sumSizes bs1, c) := by
  induction bs1 generalizing base with
  | nil => simp [leftOf, sumSizes]
  | cons d ds ih =>
    have hc : 0 < c.bsize := hpos c (by simp)
    have hne : base + d.bsize ≠ base + sumSizes (d :: ds) + c.bsize := by
      simp only [sumSizes]
      omega
    simp only [List.cons_append, leftOf, if_neg hne, List.append_eq]
    have heq : base + sumSizes (d :: ds) + c.bsize = base + d.bsize + sumSizes ds + c.bsize := by
      simp only [sumSizes]
      omega
    rw [heq, ih (base + d.bsize) (fun x hx => hpos x (List.mem_cons_of_mem _ hx))]
    have heq2 : base + d.bsize + sumSizes ds = base + sumSizes (d :: ds) := by
      simp only [sumSizes]
      omega
    rw [heq2]

/-! ### noAdjacentFree algebra -/

theorem naf_append (A B : List Block) :
    noAdjacentFree (A ++ B) = (noAdjacentFree A && noAdjacentFree B && boundaryOk A B) := by
  induction A with
  | nil => simp [noAdjacentFree, boundaryOk]
  | cons a A' ih =>
    cases A' with
    | nil =>
      cases B with
      | nil => simp [noAdjacentFree, boundaryOk]
      | cons b B' =>
        simp only [List.singleton_append, noAdjacentFree, boundaryOk, List.getLast?_singleton,
          List.head?_cons]
        cases a.balloc <;> cases b.balloc <;> simp
    | cons a2 A'' =>
      have hL : noAdjacentFree ((a :: a2 :: A'') ++ B)
          = ((a.balloc || a2.balloc) && noAdjacentFree ((a2 :: A'') ++ B)) := by
        simp only [List.cons_append]
        rfl
      have hB : boundaryOk (a :: a2 :: A'') B = boundaryOk (a2 :: A'') B := by
        simp [boundaryOk, List.getLast?_cons_cons]
      have hR : noAdjacentFree (a :: a2 :: A'')
          = ((a.balloc || a2.balloc) && noAdjacentFree (a2 :: A'')) := rfl
      rw [hL, ih, hB, hR]
      cases (a.balloc || a2.balloc) <;> simp [Bool.and_assoc]

theorem boundaryOk_cons (B1 : List Block) (x : Block) (B2 : List Block) :
    boundaryOk B1 (x :: B2) = boundaryOk B1 [x] := by
  simp [boundaryOk]

theorem boundaryOk_last (B : List Block) (x : Block) :
    boundaryOk B [x] = (lastAlloc B || x.balloc) := by
  simp only [boundaryOk, lastAlloc, List.head?_cons]
  cases B.getLast? with
  | none => simp
  | some c => simp

theorem boundaryOk_head (x : Block) (B : List Block) :
    boundaryOk [x] B = (x.balloc || headAlloc B) := by
  simp only [boundaryOk, headAlloc, List.getLast?_singleton]
  cases B.head? with
  | none => simp
  | some c => simp

theorem naf_decomp (B1 B2 : List Block) (x : Block) :
    noAdjacentFree (B1 ++ x :: B2)
      = (noAdjacentFree B1 && noAdjacentFree B2 &&
          (lastAlloc B1 || x.balloc) && (x.balloc || headAlloc B2)) := by
  have h1 : B1 ++ x :: B2 = B1 ++ ([x] ++ B2) := by simp
  rw [h1, naf_append, naf_append, boundaryOk_head]
  simp only [List.singleton_append]
  rw [boundaryOk_cons, boundaryOk_last]
  simp only [noAdjacentFree]
  cases noAdjacentFree B1 <;> cases noAdjacentFree B2 <;>
    cases lastAlloc B1 <;> cases x.balloc <;> cases headAlloc B2 <;> rfl

theorem lastAlloc_concat (B : List Block) (c : Block) :
    lastAlloc (B ++ [c]) = c.balloc := by
  simp [lastAlloc]

theorem headAlloc_cons (d : Block) (B : List Block) : headAlloc (d :: B) = d.balloc := by
  simp [headAlloc]

theorem withAddrs_middle (bs1 : List Block) (x : Block) (bs2 : List Block) (base : Nat) :
    withAddrs (bs1 ++ x :: bs2) base
      = withAddrs bs1 base ++ (base + sumSizes bs1, x)
          :: withAddrs bs2 (base + sumSizes bs1 + x.bsize) := by
  rw [withAddrs_append]
  simp [withAddrs]

/-! ### Arithmetic facts about the size computations -/

theorem getIndex_le_eight (n : Nat) : getIndex n ≤ 8 := by
  unfold getIndex
  repeat' split
  all_goals omega

theorem asizeOf_mod (sz : Nat) : asizeOf sz % 8 = 0 := by
  simp only [asizeOf]
  split <;> omega

theorem asizeOf_ge (sz : Nat) : sz + 8 ≤ asizeOf sz := by
  simp only [asizeOf]
  split <;> omega

theorem asizeOf_round (sz : Nat) : asizeOf sz = ((sz + 8 + 7) / 8) * 8 := by
  simp only [asizeOf]
  split <;> omega

theorem asizeOf_min (sz : Nat) (h : 1 ≤ sz) : 16 ≤ asizeOf sz := by
  simp only [asizeOf]
  split <;> omega

/-! ### Facts derived from the invariant -/

theorem mem_withAddrs_of_mem {bs : List Block} (base : Nat) {x : Block} (h : x ∈ bs) :
    ∃ a, (a, x) ∈ withAddrs bs base := by
  induction bs generalizing base with
  | nil => simp at h
  | cons b t ih =>
    rcases List.mem_cons.mp h with rfl | h
    · exact ⟨base, by simp [withAddrs]⟩
    · obtain ⟨a, ha⟩ := ih (base + b.bsize) h
      exact ⟨a, by simp [withAddrs, ha]⟩

theorem inv_pos_sizes {h : Heap} (hI : Inv h) : ∀ x ∈ h.blocks, 0 < x.bsize := by
  intro x hx
  obtain ⟨a, ha⟩ := mem_withAddrs_of_mem heapBase hx
  have h16 : (16 : Nat) ≤ x.bsize := (hI.2.1 (a, x) ha).2
  omega

theorem withAddrs_addr_mod (bs : List Block) (base : Nat)
    (hsz : ∀ x ∈ bs, x.bsize % 8 = 0) :
    ∀ p ∈ withAddrs bs base, p.1 % 8 = base % 8 := by
  induction bs generalizing base with
  | nil => simp [withAddrs]
  | cons b t ih =>
    intro p hp
    simp only [withAddrs, List.mem_cons] at hp
    rcases hp with rfl | hp
    · rfl
    · have hb := hsz b (List.mem_cons_self _ _)
      have := ih (base + b.bsize) (fun x hx => hsz x (List.mem_cons_of_mem _ hx)) p hp
      omega

theorem inv_addr_mod {h : Heap} (hI : Inv h) :
    ∀ p ∈ withAddrs h.blocks heapBase, p.1 % 8 = 4 := by
  intro p hp
  have := withAddrs_addr_mod h.blocks heapBase
    (fun x hx => by
      obtain ⟨a, ha⟩ := mem_withAddrs_of_mem heapBase hx
      exact (hI.2.1 (a, x) ha).1) p hp
  simpa [heapBase] using this

/-- A free-list entry is never listed in a bucket other than the one its
size indexes to. -/
theorem inv_bucket_unique {h : Heap} (hI : Inv h) {i : Nat} (hilt : i < 9) {a : Nat}
    (ha : a ∈ bucketGet h i) {b : Block}
    (hb : (a, b) ∈ withAddrs h.blocks heapBase) : b.balloc = false ∧ getIndex b.bsize = i := by
  obtain ⟨q, hq, hq1, hq2, hq3⟩ := hI.2.2.2.1 i hilt a ha
  have hpos : ∀ x ∈ h.blocks, 0 < x.bsize := inv_pos_sizes hI
  have : q = (a, b) := by
    apply withAddrs_addr_inj (fun x hx => hpos x hx) hq hb
    rw [hq1]
  subst this
  exact ⟨hq2, hq3⟩

/-! ### Heap-level unlink (find_prev + relink) -/

theorem unlink_step (h : Heap) (x j : Nat) (hj : getIndex (sizeAt h x) = j)
    (hx : x ∈ bucketGet h j) (nd : (bucketGet h j).Nodup) :
    ∃ pr L1 L2, bucketGet h j = L1 ++ x :: L2 ∧ x ∉ L1 ∧ x ∉ L2 ∧ L1.Nodup ∧
      find_prev h x = some pr ∧ relink h x pr = bucketSet h j (L1 ++ L2) ∧
      pr = lastOr none L1 := by
  obtain ⟨L1, L2, hdec⟩ := List.append_of_mem hx
  rw [hdec] at nd
  rw [List.nodup_append] at nd
  obtain ⟨hnd1, hnd2, hdisj⟩ := nd
  have hx1 : x ∉ L1 := fun hmem => hdisj hmem (List.mem_cons_self _ _)
  have hx2 : x ∉ L2 := (List.nodup_cons.mp hnd2).1
  refine ⟨lastOr none L1, L1, L2, hdec, hx1, hx2, hnd1, ?_, ?_, rfl⟩
  · rw [find_prev, hj, hdec]
    exact fpScan_eq none hx1
  · have hcr := chain_remove L2 hx1 hnd1
    cases hpr : lastOr none L1 with
    | none =>
      rw [hpr] at hcr
      simp only [relink, hj, hdec]
      exact congrArg (bucketSet h j) hcr
    | some p =>
      rw [hpr] at hcr
      simp only [relink, hj, hdec]
      exact congrArg (bucketSet h j) hcr

/-! ### Bucket push helpers -/

theorem bucketGet_push_self {h : Heap} {k : Nat} (a : Nat) (hk : k < h.buckets.length) :
    bucketGet (pushBucket h k a) k = a :: bucketGet h k :=
  bucketGet_set_self hk

theorem bucketGet_push_ne {h : Heap} {k i : Nat} (a : Nat) (hik : i ≠ k) :
    bucketGet (pushBucket h k a) i = bucketGet h i :=
  bucketGet_set_ne hik

theorem mem_push {h : Heap} {k a i x : Nat} (hk : k < h.buckets.length)
    (hx : x ∈ bucketGet h i) : x ∈ bucketGet (pushBucket h k a) i := by
  by_cases hik : i = k
  · subst hik
    rw [bucketGet_push_self a hk]
    exact List.mem_cons_of_mem _ hx
  · rwa [bucketGet_push_ne a hik]

theorem pushBucket_length (h : Heap) (k a : Nat) :
    (pushBucket h k a).buckets.length = h.buckets.length := by
  simp [pushBucket, bucketSet]

theorem nodup_middle_removed {L1 L2 : List Nat} {x : Nat}
    (h : (L1 ++ x :: L2).Nodup) : (L1 ++ L2).Nodup := by
  have hsub : (L1 ++ L2).Sublist (L1 ++ x :: L2) :=
    List.Sublist.append_left (List.sublist_cons_self x L2) L1
  exact h.sublist hsub

theorem mem_middle_removed {L1 L2 : List Nat} {x y : Nat}
    (hy : y ∈ L1 ++ x :: L2) (hne : y ≠ x) : y ∈ L1 ++ L2 := by
  rcases List.mem_append.mp hy with hy | hy
  · exact List.mem_append_left _ hy
  · rcases List.mem_cons.mp hy with rfl | hy
    · exact absurd rfl hne
    · exact List.mem_append_right _ hy

/-- Unlinking with prev = NULL right after pushing at the head undoes the
push: free pushes bp onto its bucket and coalesce's relink(bp, NULL) pops
it again. -/
theorem relink_after_push (hF : Heap) (k a : Nat) (hk : k < hF.buckets.length)
    (hsz : getIndex (sizeAt (pushBucket hF k a) a) = k) :
    relink (pushBucket hF k a) a none = hF := by
  simp only [relink, hsz]
  rw [bucketGet_push_self a hk, suffixAfter_head]
  show bucketSet (bucketSet hF k (a :: bucketGet hF k)) k (bucketGet hF k) = hF
  rw [bucketSet_bucketSet, bucketSet_self]

/-! ### Coalesce case 1: both neighbours allocated -/

theorem coalesce_case1 (g : Heap) (hI : Inv g) (bs1 bs2 : List Block) (s : Nat)
    (hdec : g.blocks = bs1 ++ { bsize := s, balloc := true } :: bs2)
    (hl : lastAlloc bs1 = true) (hr : headAlloc bs2 = true) :
    coalesce
        (pushBucket { g with blocks := bs1 ++ { bsize := s, balloc := false } :: bs2 }
          (getIndex s) (heapBase + sumSizes bs1)) (heapBase + sumSizes bs1)
      = some (pushBucket { g with blocks := bs1 ++ { bsize := s, balloc := false } :: bs2 }
          (getIndex s) (heapBase + sumSizes bs1)) ∧
    Inv (pushBucket { g with blocks := bs1 ++ { bsize := s, balloc := false } :: bs2 }
          (getIndex s) (heapBase + sumSizes bs1)) ∧
    (∀ x t, blockAt (bs1 ++ { bsize := s, balloc := false } :: bs2) heapBase x
        = some { bsize := t, balloc := true } →
      blockAt (pushBucket { g with blocks := bs1 ++ { bsize := s, balloc := false } :: bs2 }
          (getIndex s) (heapBase + sumSizes bs1)).blocks heapBase x
        = some { bsize := t, balloc := true }) ∧
    (∀ t, blockAt (pushBucket { g with blocks := bs1 ++ { bsize := s, balloc := false } :: bs2 }
          (getIndex s) (heapBase + sumSizes bs1)).blocks heapBase (heapBase + sumSizes bs1)
        ≠ some { bsize := t, balloc := true }) := by
  obtain ⟨hlen, hszs, hmemF, hbok, hnd, hnaf⟩ := hI
  have posG : ∀ x ∈ g.blocks, 0 < x.bsize :=
    inv_pos_sizes ⟨hlen, hszs, hmemF, hbok, hnd, hnaf⟩
  have pos1 : ∀ x ∈ bs1, 0 < x.bsize := by
    intro x hx
    exact posG x (by rw [hdec]; exact List.mem_append_left _ hx)
  have pos2 : ∀ x ∈ bs2, 0 < x.bsize := by
    intro x hx
    exact posG x (by rw [hdec]; exact List.mem_append_right _ (List.mem_cons_of_mem _ hx))
  have waG : withAddrs g.blocks heapBase
      = withAddrs bs1 heapBase ++ (heapBase + sumSizes bs1, ({ bsize := s, balloc := true } : Block))
          :: withAddrs bs2 (heapBase + sumSizes bs1 + s) := by
    rw [hdec, withAddrs_middle]
  have hsfacts := hszs (heapBase + sumSizes bs1, ({ bsize := s, balloc := true } : Block))
    (by rw [waG]; exact List.mem_append_right _ (List.mem_cons_self _ _))
  have hspos : 0 < s := by
    have := hsfacts.2
    simp only at this
    omega
  have waBF : withAddrs (bs1 ++ { bsize := s, balloc := false } :: bs2) heapBase
      = withAddrs bs1 heapBase
          ++ (heapBase + sumSizes bs1, ({ bsize := s, balloc := false } : Block))
          :: withAddrs bs2 (heapBase + sumSizes bs1 + s) := by
    rw [withAddrs_middle]
  have hklt : getIndex s < g.buckets.length := by
    rw [hlen]
    have := getIndex_le_eight s
    omega
  -- the pushed heap
  set h2 := pushBucket { g with blocks := bs1 ++ { bsize := s, balloc := false } :: bs2 }
      (getIndex s) (heapBase + sumSizes bs1) with hh2
  have h2blocks : h2.blocks = bs1 ++ { bsize := s, balloc := false } :: bs2 := rfl
  have h2get_self : bucketGet h2 (getIndex s)
      = (heapBase + sumSizes bs1) :: bucketGet g (getIndex s) :=
    bucketGet_push_self _ hklt
  have h2get_ne : ∀ i, i ≠ getIndex s → bucketGet h2 i = bucketGet g i :=
    fun i hik => bucketGet_push_ne _ hik
  have posBF : ∀ x ∈ bs1 ++ { bsize := s, balloc := false } :: bs2, 0 < x.bsize := by
    intro x hx
    rcases List.mem_append.mp hx with hx | hx
    · exact pos1 x hx
    · rcases List.mem_cons.mp hx with rfl | hx
      · exact hspos
      · exact pos2 x hx
  have hkA : blockAt h2.blocks heapBase (heapBase + sumSizes bs1)
      = some { bsize := s, balloc := false } := by
    rw [h2blocks]
    exact blockAt_decomp pos1 _ bs2 heapBase
  have hsize : sizeAt h2 (heapBase + sumSizes bs1) = s := by
    simp [sizeAt, hkA]
  -- left neighbour read
  have hLA : leftAllocOf h2 (heapBase + sumSizes bs1) = true := by
    rcases List.eq_nil_or_concat bs1 with rfl | ⟨bs1', c, rfl⟩
    · have : leftOf h2.blocks heapBase (heapBase + sumSizes ([] : List Block)) = none := by
        simp only [sumSizes, Nat.add_zero]
        exact leftOf_first posBF
      simp [leftAllocOf, this]
    · simp only [List.concat_eq_append] at hl pos1 h2blocks ⊢
      have hc : c.balloc = true := by
        rw [lastAlloc_concat] at hl
        exact hl
      have hrw : (bs1' ++ [c]) ++ { bsize := s, balloc := false } :: bs2
          = bs1' ++ c :: ({ bsize := s, balloc := false } :: bs2) := by simp
      have hlo := leftOf_decomp bs1' c ({ bsize := s, balloc := false } :: bs2)
        heapBase (by
          intro x hx
          apply pos1
          simpa using hx)
      have haddr : heapBase + sumSizes (bs1' ++ [c]) = heapBase + sumSizes bs1' + c.bsize := by
        rw [sumSizes_append]
        simp only [sumSizes]
        omega
      rw [haddr]
      have : leftOf h2.blocks heapBase (heapBase + sumSizes bs1' + c.bsize)
          = some (heapBase + sumSizes bs1', c) := by
        rw [h2blocks, hrw]
        exact hlo
      simp [leftAllocOf, this, hc]
  -- right neighbour read
  have hRA : allocAt h2 (heapBase + sumSizes bs1 + s) = true := by
    cases bs2 with
    | nil =>
      have hend : heapBase + sumSizes (bs1 ++ [{ bsize := s, balloc := false }])
          ≤ heapBase + sumSizes bs1 + s := by
        rw [sumSizes_append]
        simp only [sumSizes]
        omega
      have : blockAt h2.blocks heapBase (heapBase + sumSizes bs1 + s) = none := by
        rw [h2blocks]
        exact blockAt_ge_none posBF hend
      simp [allocAt, this]
    | cons d bs2' =>
      have hd : d.balloc = true := by
        rw [headAlloc_cons] at hr
        exact hr
      have hrw : bs1 ++ { bsize := s, balloc := false } :: d :: bs2'
          = (bs1 ++ [{ bsize := s, balloc := false }]) ++ d :: bs2' := by simp
      have haddr : heapBase + sumSizes (bs1 ++ [{ bsize := s, balloc := false }])
          = heapBase + sumSizes bs1 + s := by
        rw [sumSizes_append]
        simp only [sumSizes]
        omega
      have : blockAt h2.blocks heapBase (heapBase + sumSizes bs1 + s) = some d := by
        rw [h2blocks, hrw, ← haddr]
        apply blockAt_decomp
        intro x hx
        rcases List.mem_append.mp hx with hx | hx
        · exact pos1 x hx
        · rcases List.mem_cons.mp hx with rfl | hx
          · exact hspos
          · simp at hx
      simp [allocAt, this, hd]
  refine ⟨?_, ?_, ?_, ?_⟩
  · -- evaluation: both neighbours allocated, case 1, no merge
    unfold coalesce
    rw [hsize, hLA, hRA]
    simp
  · -- the invariant survives
    refine ⟨?_, ?_, ?_, ?_, ?_, ?_⟩
    · rw [pushBucket_length]
      exact hlen
    · intro p hp
      rw [h2blocks, waBF] at hp
      rcases List.mem_append.mp hp with hp | hp
      · exact hszs p (by rw [waG]; exact List.mem_append_left _ hp)
      · rcases List.mem_cons.mp hp with rfl | hp
        · exact hsfacts
        · exact hszs p
            (by rw [waG]; exact List.mem_append_right _ (List.mem_cons_of_mem _ hp))
    · intro p hp hpfree
      rw [h2blocks, waBF] at hp
      rcases List.mem_append.mp hp with hp | hp
      · exact mem_push hklt (hmemF p (by rw [waG]; exact List.mem_append_left _ hp) hpfree)
      · rcases List.mem_cons.mp hp with rfl | hp
        · simp only [h2get_self]
          exact List.mem_cons_self _ _
        · exact mem_push hklt (hmemF p
            (by rw [waG]; exact List.mem_append_right _ (List.mem_cons_of_mem _ hp)) hpfree)
    · intro i hi x hx
      by_cases hik : i = getIndex s
      · subst hik
        rw [h2get_self] at hx
        rcases List.mem_cons.mp hx with rfl | hx
        · refine ⟨(heapBase + sumSizes bs1, { bsize := s, balloc := false }), ?_, rfl, rfl, rfl⟩
          rw [h2blocks, waBF]
          exact List.mem_append_right _ (List.mem_cons_self _ _)
        · obtain ⟨q, hq, hq1, hq2, hq3⟩ := hbok _ hi x hx
          refine ⟨q, ?_, hq1, hq2, hq3⟩
          rw [waG] at hq
          rw [h2blocks, waBF]
          rcases List.mem_append.mp hq with hq | hq
          · exact List.mem_append_left _ hq
          · rcases List.mem_cons.mp hq with rfl | hq
            · simp at hq2
            · exact List.mem_append_right _ (List.mem_cons_of_mem _ hq)
      · rw [h2get_ne i hik] at hx
        obtain ⟨q, hq, hq1, hq2, hq3⟩ := hbok _ hi x hx
        refine ⟨q, ?_, hq1, hq2, hq3⟩
        rw [waG] at hq
        rw [h2blocks, waBF]
        rcases List.mem_append.mp hq with hq | hq
        · exact List.mem_append_left _ hq
        · rcases List.mem_cons.mp hq with rfl | hq
          · simp at hq2
          · exact List.mem_append_right _ (List.mem_cons_of_mem _ hq)
    · intro i hi
      by_cases hik : i = getIndex s
      · subst hik
        rw [h2get_self]
        refine List.nodup_cons.mpr ⟨?_, hnd _ hi⟩
        intro hmem
        obtain ⟨q, hq, hq1, hq2, _⟩ := hbok _ hi _ hmem
        have : q = (heapBase + sumSizes bs1, ({ bsize := s, balloc := true } : Block)) := by
          apply withAddrs_addr_inj posG hq
          · rw [waG]
            exact List.mem_append_right _ (List.mem_cons_self _ _)
          · rw [hq1]
        rw [this] at hq2
        simp at hq2
      · rw [h2get_ne i hik]
        exact hnd i hi
    · rw [h2blocks, naf_decomp]
      rw [hdec, naf_decomp] at hnaf
      simp only [Bool.and_eq_true, Bool.or_eq_true] at hnaf ⊢
      refine ⟨⟨⟨hnaf.1.1.1, hnaf.1.1.2⟩, Or.inl hl⟩, Or.inr hr⟩
  · intro x t hx
    exact hx
  · intro t heq
    rw [hkA] at heq
    simp at heq

/-! ### Coalesce case 3: right neighbour free, left allocated -/

theorem coalesce_case3 (g : Heap) (hI : Inv g) (bs1 : List Block) (s : Nat) (d : Block)
    (bs2' : List Block)
    (hdec : g.blocks = bs1 ++ { bsize := s, balloc := true } :: d :: bs2')
    (hl : lastAlloc bs1 = true) (hdfree : d.balloc = false) :
    ∃ h', coalesce
        (pushBucket { g with blocks := bs1 ++ { bsize := s, balloc := false } :: d :: bs2' }
          (getIndex s) (heapBase + sumSizes bs1)) (heapBase + sumSizes bs1)
      = some h' ∧ Inv h' ∧
      h'.blocks = bs1 ++ { bsize := s + d.bsize, balloc := false } :: bs2' ∧
      (∀ x t, blockAt (bs1 ++ { bsize := s, balloc := false } :: d :: bs2') heapBase x
          = some { bsize := t, balloc := true } →
        blockAt h'.blocks heapBase x = some { bsize := t, balloc := true }) ∧
      (∀ t, blockAt h'.blocks heapBase (heapBase + sumSizes bs1)
          ≠ some { bsize := t, balloc := true }) := by
  obtain ⟨hlen, hszs, hmemF, hbok, hnd, hnaf⟩ := hI
  have posG : ∀ x ∈ g.blocks, 0 < x.bsize :=
    inv_pos_sizes ⟨hlen, hszs, hmemF, hbok, hnd, hnaf⟩
  have pos1 : ∀ x ∈ bs1, 0 < x.bsize := by
    intro x hx
    exact posG x (by rw [hdec]; exact List.mem_append_left _ hx)
  have pos2 : ∀ x ∈ bs2', 0 < x.bsize := by
    intro x hx
    exact posG x
      (by rw [hdec]
          exact List.mem_append_right _ (List.mem_cons_of_mem _ (List.mem_cons_of_mem _ hx)))
  have waG : withAddrs g.blocks heapBase
      = withAddrs bs1 heapBase
          ++ (heapBase + sumSizes bs1, ({ bsize := s, balloc := true } : Block))
          :: (heapBase + sumSizes bs1 + s, d)
          :: withAddrs bs2' (heapBase + sumSizes bs1 + s + d.bsize) := by
    rw [hdec, withAddrs_middle]
    simp [withAddrs]
  have hsfacts := hszs (heapBase + sumSizes bs1, ({ bsize := s, balloc := true } : Block))
    (by rw [waG]; exact List.mem_append_right _ (List.mem_cons_self _ _))
  have hspos : 0 < s := by
    have := hsfacts.2
    simp only at this
    omega
  have hdfacts := hszs (heapBase + sumSizes bs1 + s, d)
    (by rw [waG]
        exact List.mem_append_right _ (List.mem_cons_of_mem _ (List.mem_cons_self _ _)))
  have hdpos : 0 < d.bsize := by
    have := hdfacts.2
    simp only at this
    omega
  have waBF : withAddrs (bs1 ++ { bsize := s, balloc := false } :: d :: bs2') heapBase
      = withAddrs bs1 heapBase
          ++ (heapBase + sumSizes bs1, ({ bsize := s, balloc := false } : Block))
          :: (heapBase + sumSizes bs1 + s, d)
          :: withAddrs bs2' (heapBase + sumSizes bs1 + s + d.bsize) := by
    rw [withAddrs_middle]
    simp [withAddrs]
  have hklt : getIndex s < g.buckets.length := by
    rw [hlen]
    have := getIndex_le_eight s
    omega
  set hF : Heap := { g with blocks := bs1 ++ { bsize := s, balloc := false } :: d :: bs2' }
    with hhF
  have hFblocks : hF.blocks = bs1 ++ { bsize := s, balloc := false } :: d :: bs2' := rfl
  have hFget : ∀ i, bucketGet hF i = bucketGet g i := fun i => rfl
  have hFlen : hF.buckets.length = g.buckets.length := rfl
  set h2 := pushBucket hF (getIndex s) (heapBase + sumSizes bs1) with hh2
  have h2blocks : h2.blocks = bs1 ++ { bsize := s, balloc := false } :: d :: bs2' := rfl
  have posBF : ∀ x ∈ bs1 ++ { bsize := s, balloc := false } :: d :: bs2', 0 < x.bsize := by
    intro x hx
    rcases List.mem_append.mp hx with hx | hx
    · exact pos1 x hx
    · rcases List.mem_cons.mp hx with rfl | hx
      · exact hspos
      · rcases List.mem_cons.mp hx with rfl | hx
        · exact hdpos
        · exact pos2 x hx
  have hkA : blockAt h2.blocks heapBase (heapBase + sumSizes bs1)
      = some { bsize := s, balloc := false } := by
    rw [h2blocks]
    exact blockAt_decomp pos1 _ _ heapBase
  have hsize : sizeAt h2 (heapBase + sumSizes bs1) = s := by
    simp [sizeAt, hkA]
  have hLA : leftAllocOf h2 (heapBase + sumSizes bs1) = true := by
    rcases List.eq_nil_or_concat bs1 with rfl | ⟨bs1', c, rfl⟩
    · have : leftOf h2.blocks heapBase (heapBase + sumSizes ([] : List Block)) = none := by
        simp only [sumSizes, Nat.add_zero]
        exact leftOf_first posBF
      simp [leftAllocOf, this]
    · simp only [List.concat_eq_append] at hl pos1 h2blocks ⊢
      have hc : c.balloc = true := by
        rw [lastAlloc_concat] at hl
        exact hl
      have hrw : (bs1' ++ [c]) ++ { bsize := s, balloc := false } :: d :: bs2'
          = bs1' ++ c :: ({ bsize := s, balloc := false } :: d :: bs2') := by simp
      have hlo := leftOf_decomp bs1' c ({ bsize := s, balloc := false } :: d :: bs2')
        heapBase (by
          intro x hx
          apply pos1
          simpa using hx)
      have haddr : heapBase + sumSizes (bs1' ++ [c]) = heapBase + sumSizes bs1' + c.bsize := by
        rw [sumSizes_append]
        simp only [sumSizes]
        omega
      rw [haddr]
      have : leftOf h2.blocks heapBase (heapBase + sumSizes bs1' + c.bsize)
          = some (heapBase + sumSizes bs1', c) := by
        rw [h2blocks, hrw]
        exact hlo
      simp [leftAllocOf, this, hc]
  have hdAt : blockAt h2.blocks heapBase (heapBase + sumSizes bs1 + s) = some d := by
    have hrw : bs1 ++ { bsize := s, balloc := false } :: d :: bs2'
        = (bs1 ++ [{ bsize := s, balloc := false }]) ++ d :: bs2' := by simp
    have haddr : heapBase + sumSizes (bs1 ++ [{ bsize := s, balloc := false }])
        = heapBase + sumSizes bs1 + s := by
      rw [sumSizes_append]
      simp only [sumSizes]
      omega
    rw [h2blocks, hrw, ← haddr]
    apply blockAt_decomp
    intro x hx
    rcases List.mem_append.mp hx with hx | hx
    · exact pos1 x hx
    · rcases List.mem_cons.mp hx with rfl | hx
      · exact hspos
      · simp at hx
  have hRA : allocAt h2 (heapBase + sumSizes bs1 + s) = false := by
    simp [allocAt, hdAt, hdfree]
  -- unlink the right neighbour from its bucket
  have hdsz : sizeAt hF (heapBase + sumSizes bs1 + s) = d.bsize := by
    have : blockAt hF.blocks heapBase (heapBase + sumSizes bs1 + s) = some d := hdAt
    simp [sizeAt, this]
  have hdmem : (heapBase + sumSizes bs1 + s) ∈ bucketGet hF (getIndex d.bsize) := by
    rw [hFget]
    exact hmemF (heapBase + sumSizes bs1 + s, d)
      (by rw [waG]
          exact List.mem_append_right _ (List.mem_cons_of_mem _ (List.mem_cons_self _ _)))
      hdfree
  have hjdlt : getIndex d.bsize < 9 := by
    have := getIndex_le_eight d.bsize
    omega
  obtain ⟨pr, L1, L2, hbdec, hnotin1, hnotin2, hndL1, hfp, hrel, hprlast⟩ :=
    unlink_step hF (heapBase + sumSizes bs1 + s) (getIndex d.bsize)
      (by rw [hdsz]) hdmem (by rw [hFget]; exact hnd _ hjdlt)
  rw [hFget] at hbdec
  set hB := bucketSet hF (getIndex d.bsize) (L1 ++ L2) with hhB
  have hBblocks : hB.blocks = bs1 ++ { bsize := s, balloc := false } :: d :: bs2' := rfl
  have hBlen : hB.buckets.length = g.buckets.length := by
    simp [hhB, bucketSet_length, hFlen]
  have hBget_jd : bucketGet hB (getIndex d.bsize) = L1 ++ L2 := by
    apply bucketGet_set_self
    rw [hFlen, hlen]
    exact hjdlt
  have hBget_ne : ∀ i, i ≠ getIndex d.bsize → bucketGet hB i = bucketGet g i := by
    intro i hi
    rw [hhB, bucketGet_set_ne hi, hFget]
  have hBsz_rb : sizeAt hB (heapBase + sumSizes bs1 + s) = d.bsize := hdsz
  have hBsz_a : sizeAt hB (heapBase + sumSizes bs1) = s := by
    have : blockAt hB.blocks heapBase (heapBase + sumSizes bs1)
        = some { bsize := s, balloc := false } := hkA
    simp [sizeAt, this]
  -- the merged arena
  have hmerge : writeMerged hB.blocks heapBase (heapBase + sumSizes bs1) (d.bsize + s)
      = bs1 ++ { bsize := s + d.bsize, balloc := false } :: bs2' := by
    rw [hBblocks]
    have hcomm : d.bsize + s = s + d.bsize := by omega
    rw [hcomm]
    have := writeMerged_two pos1 ({ bsize := s, balloc := false } : Block) d bs2' heapBase hdpos
    simpa using this
  set h3 : Heap := { hB with
    blocks := bs1 ++ { bsize := s + d.bsize, balloc := false } :: bs2' } with hh3
  have h3sz : sizeAt h3 (heapBase + sumSizes bs1) = s + d.bsize := by
    have : blockAt h3.blocks heapBase (heapBase + sumSizes bs1)
        = some { bsize := s + d.bsize, balloc := false } := blockAt_decomp pos1 _ _ heapBase
    simp [sizeAt, this]
  have hmlt : getIndex (s + d.bsize) < 9 := by
    have := getIndex_le_eight (s + d.bsize)
    omega
  refine ⟨pushBucket h3 (getIndex (s + d.bsize)) (heapBase + sumSizes bs1),
    ?_, ?_, rfl, ?_, ?_⟩
  · -- evaluation of coalesce
    have hrelink1 : relink h2 (heapBase + sumSizes bs1) none = hF := by
      apply relink_after_push
      · rw [hFlen]
        exact hklt
      · rw [← hh2, hsize]
    unfold coalesce
    rw [hsize, hLA, hRA]
    simp only [Bool.true_and, Bool.not_true, Bool.false_and, Bool.and_false, Bool.not_false,
      Bool.and_true, if_false, if_true, Bool.false_eq_true, reduceIte]
    rw [hrelink1, hfp]
    simp only [hrel, ← hhB, hBsz_rb, hBsz_a, hmerge, ← hh3, h3sz]
  · -- the invariant
    have hW1lt : ∀ p ∈ withAddrs bs1 heapBase, p.1 < heapBase + sumSizes bs1 := by
      intro p hp
      have h1 := withAddrs_bound hp
      have h2 := mem_withAddrs_snd hp
      have := pos1 p.2 h2
      omega
    have hW2ge : ∀ p ∈ withAddrs bs2' (heapBase + sumSizes bs1 + s + d.bsize),
        heapBase + sumSizes bs1 + s + d.bsize ≤ p.1 := fun p hp => withAddrs_base_le hp
    have waA : withAddrs h3.blocks heapBase
        = withAddrs bs1 heapBase
            ++ (heapBase + sumSizes bs1, ({ bsize := s + d.bsize, balloc := false } : Block))
            :: withAddrs bs2' (heapBase + sumSizes bs1 + s + d.bsize) := by
      show withAddrs (bs1 ++ { bsize := s + d.bsize, balloc := false } :: bs2') heapBase = _
      rw [withAddrs_middle]
      have : heapBase + sumSizes bs1 + (s + d.bsize)
          = heapBase + sumSizes bs1 + s + d.bsize := by omega
      rw [this]
    have hfreeG : ∀ p, p ∈ withAddrs bs1 heapBase ∨
        p ∈ withAddrs bs2' (heapBase + sumSizes bs1 + s + d.bsize) →
        p ∈ withAddrs g.blocks heapBase := by
      rintro p (hp | hp)
      · rw [waG]
        exact List.mem_append_left _ hp
      · rw [waG]
        exact List.mem_append_right _ (List.mem_cons_of_mem _ (List.mem_cons_of_mem _ hp))
    -- a free q-entry of g with q.1 mentioned in any bucket is never the two
    -- merged blocks unless its address says so
    have hq_cases : ∀ q ∈ withAddrs g.blocks heapBase, q.2.balloc = false →
        q.1 ≠ heapBase + sumSizes bs1 + s →
        (q ∈ withAddrs bs1 heapBase ∨
          q ∈ withAddrs bs2' (heapBase + sumSizes bs1 + s + d.bsize)) := by
      intro q hq hqfree hqne
      rw [waG] at hq
      rcases List.mem_append.mp hq with hq | hq
      · exact Or.inl hq
      · rcases List.mem_cons.mp hq with rfl | hq
        · simp at hqfree
        · rcases List.mem_cons.mp hq with rfl | hq
          · exact absurd rfl hqne
          · exact Or.inr hq
    have hmem_hB_of_g : ∀ i x, x ∈ bucketGet g i → x ≠ heapBase + sumSizes bs1 + s →
        x ∈ bucketGet hB i := by
      intro i x hx hne
      by_cases hij : i = getIndex d.bsize
      · subst hij
        rw [hBget_jd]
        rw [hbdec] at hx
        exact mem_middle_removed hx hne
      · rwa [hBget_ne i hij]
    have hBnodup : ∀ i < 9, (bucketGet hB i).Nodup := by
      intro i hi
      by_cases hij : i = getIndex d.bsize
      · subst hij
        rw [hBget_jd]
        apply nodup_middle_removed (x := heapBase + sumSizes bs1 + s)
        rw [← hbdec]
        exact hnd _ hi
      · rw [hBget_ne i hij]
        exact hnd i hi
    have hmem_g_of_hB : ∀ i x, x ∈ bucketGet hB i → x ∈ bucketGet g i := by
      intro i x hx
      by_cases hij : i = getIndex d.bsize
      · subst hij
        rw [hBget_jd] at hx
        rw [hbdec]
        rcases List.mem_append.mp hx with hx | hx
        · exact List.mem_append_left _ hx
        · exact List.mem_append_right _ (List.mem_cons_of_mem _ hx)
      · rwa [hBget_ne i hij] at hx
    have hne_rb_of_hB : ∀ i < 9, ∀ x ∈ bucketGet hB i, x ≠ heapBase + sumSizes bs1 + s := by
      intro i hi x hx hxeq
      subst hxeq
      by_cases hij : i = getIndex d.bsize
      · subst hij
        rw [hBget_jd] at hx
        rcases List.mem_append.mp hx with hx | hx
        · exact hnotin1 hx
        · exact hnotin2 hx
      · have hxg := hmem_g_of_hB _ _ hx
        obtain ⟨q, hq, hq1, hq2, hq3⟩ := hbok _ hi _ hxg
        have : q = (heapBase + sumSizes bs1 + s, d) := by
          apply withAddrs_addr_inj posG hq
          · rw [waG]
            exact List.mem_append_right _ (List.mem_cons_of_mem _ (List.mem_cons_self _ _))
          · rw [hq1]
        rw [this] at hq3
        exact hij hq3.symm
    have hne_a_of_hB : ∀ i < 9, ∀ x ∈ bucketGet hB i, x ≠ heapBase + sumSizes bs1 := by
      intro i hi x hx hxeq
      subst hxeq
      have hxg := hmem_g_of_hB _ _ hx
      obtain ⟨q, hq, hq1, hq2, hq3⟩ := hbok _ hi _ hxg
      have : q = (heapBase + sumSizes bs1, ({ bsize := s, balloc := true } : Block)) := by
        apply withAddrs_addr_inj posG hq
        · rw [waG]
          exact List.mem_append_right _ (List.mem_cons_self _ _)
        · rw [hq1]
      rw [this] at hq2
      simp at hq2
    have h'get_m : bucketGet (pushBucket h3 (getIndex (s + d.bsize)) (heapBase + sumSizes bs1))
        (getIndex (s + d.bsize)) = (heapBase + sumSizes bs1) :: bucketGet hB (getIndex (s + d.bsize)) := by
      apply bucketGet_push_self
      rw [show h3.buckets = hB.buckets from rfl] at *
      rw [hBlen, hlen]
      exact hmlt
    have h'get_ne : ∀ i, i ≠ getIndex (s + d.bsize) →
        bucketGet (pushBucket h3 (getIndex (s + d.bsize)) (heapBase + sumSizes bs1)) i
          = bucketGet hB i := by
      intro i hi
      exact bucketGet_push_ne _ hi
    have h3lt : getIndex (s + d.bsize) < h3.buckets.length := by
      rw [show h3.buckets = hB.buckets from rfl, hBlen, hlen]
      exact hmlt
    refine ⟨?_, ?_, ?_, ?_, ?_, ?_⟩
    · rw [pushBucket_length]
      rw [show h3.buckets = hB.buckets from rfl, hBlen, hlen]
    · intro p hp
      rw [show (pushBucket h3 (getIndex (s + d.bsize)) (heapBase + sumSizes bs1)).blocks
          = h3.blocks from rfl, waA] at hp
      rcases List.mem_append.mp hp with hp | hp
      · exact hszs p (hfreeG p (Or.inl hp))
      · rcases List.mem_cons.mp hp with rfl | hp
        · constructor
          · have h1 := hsfacts.1
            have h2 := hdfacts.1
            simp only at h1 h2 ⊢
            omega
          · have := hsfacts.2
            simp only at this ⊢
            omega
        · exact hszs p (hfreeG p (Or.inr hp))
    · intro p hp hpfree
      rw [show (pushBucket h3 (getIndex (s + d.bsize)) (heapBase + sumSizes bs1)).blocks
          = h3.blocks from rfl, waA] at hp
      rcases List.mem_append.mp hp with hp | hp
      · have hmemg := hmemF p (hfreeG p (Or.inl hp)) hpfree
        have hne : p.1 ≠ heapBase + sumSizes bs1 + s := by
          have := hW1lt p hp
          omega
        exact mem_push h3lt (hmem_hB_of_g _ _ hmemg hne)
      · rcases List.mem_cons.mp hp with rfl | hp
        · rw [h'get_m]
          exact List.mem_cons_self _ _
        · have hmemg := hmemF p (hfreeG p (Or.inr hp)) hpfree
          have hne : p.1 ≠ heapBase + sumSizes bs1 + s := by
            have := hW2ge p hp
            omega
          exact mem_push h3lt (hmem_hB_of_g _ _ hmemg hne)
    · intro i hi x hx
      by_cases him : i = getIndex (s + d.bsize)
      · subst him
        rw [h'get_m] at hx
        rcases List.mem_cons.mp hx with rfl | hx
        · refine ⟨(heapBase + sumSizes bs1,
            ({ bsize := s + d.bsize, balloc := false } : Block)), ?_, rfl, rfl, rfl⟩
          rw [show (pushBucket h3 (getIndex (s + d.bsize)) (heapBase + sumSizes bs1)).blocks
              = h3.blocks from rfl, waA]
          exact List.mem_append_right _ (List.mem_cons_self _ _)
        · have hxg := hmem_g_of_hB _ _ hx
          obtain ⟨q, hq, hq1, hq2, hq3⟩ := hbok _ hi _ hxg
          have hqcase := hq_cases q hq hq2 (by
            rw [hq1]
            exact hne_rb_of_hB _ hi _ hx)
          refine ⟨q, ?_, hq1, hq2, hq3⟩
          rw [show (pushBucket h3 (getIndex (s + d.bsize)) (heapBase + sumSizes bs1)).blocks
              = h3.blocks from rfl, waA]
          rcases hqcase with hq' | hq'
          · exact List.mem_append_left _ hq'
          · exact List.mem_append_right _ (List.mem_cons_of_mem _ hq')
      · rw [h'get_ne i him] at hx
        have hxg := hmem_g_of_hB _ _ hx
        obtain ⟨q, hq, hq1, hq2, hq3⟩ := hbok _ hi _ hxg
        have hqcase := hq_cases q hq hq2 (by
          rw [hq1]
          exact hne_rb_of_hB _ hi _ hx)
        refine ⟨q, ?_, hq1, hq2, hq3⟩
        rw [show (pushBucket h3 (getIndex (s + d.bsize)) (heapBase + sumSizes bs1)).blocks
            = h3.blocks from rfl, waA]
        rcases hqcase with hq' | hq'
        · exact List.mem_append_left _ hq'
        · exact List.mem_append_right _ (List.mem_cons_of_mem _ hq')
    · intro i hi
      by_cases him : i = getIndex (s + d.bsize)
      · subst him
        rw [h'get_m]
        refine List.nodup_cons.mpr ⟨?_, hBnodup _ hi⟩
        intro hmem
        exact hne_a_of_hB _ hi _ hmem rfl
      · rw [h'get_ne i him]
        exact hBnodup i hi
    · show noAdjacentFree h3.blocks = true
      show noAdjacentFree (bs1 ++ { bsize := s + d.bsize, balloc := false } :: bs2') = true
      rw [hdec] at hnaf
      rw [naf_decomp] at hnaf ⊢
      simp only [Bool.and_eq_true, Bool.or_eq_true] at hnaf ⊢
      obtain ⟨⟨⟨hnaf1, hnafd⟩, hbl⟩, hbr⟩ := hnaf
      have hnafd' : noAdjacentFree (([] : List Block) ++ d :: bs2') = true := by
        simpa using hnafd
      rw [naf_decomp] at hnafd'
      simp only [Bool.and_eq_true, Bool.or_eq_true] at hnafd'
      obtain ⟨⟨⟨-, hnaf2⟩, -⟩, hdb⟩ := hnafd'
      refine ⟨⟨⟨hnaf1, hnaf2⟩, Or.inl hl⟩, ?_⟩
      rcases hdb with hdb | hdb
      · rw [hdfree] at hdb
        simp at hdb
      · exact Or.inr hdb
  · intro x t hx
    have hxm := blockAt_mem_withAddrs hx
    rw [waBF] at hxm
    have posA : ∀ y ∈ bs1 ++ { bsize := s + d.bsize, balloc := false } :: bs2',
        0 < y.bsize := by
      intro y hy
      rcases List.mem_append.mp hy with hy | hy
      · exact pos1 y hy
      · rcases List.mem_cons.mp hy with rfl | hy
        · simp only
          omega
        · exact pos2 y hy
    have waA2 : withAddrs (bs1 ++ { bsize := s + d.bsize, balloc := false } :: bs2') heapBase
        = withAddrs bs1 heapBase
            ++ (heapBase + sumSizes bs1, ({ bsize := s + d.bsize, balloc := false } : Block))
            :: withAddrs bs2' (heapBase + sumSizes bs1 + s + d.bsize) := by
      rw [withAddrs_middle]
      have : heapBase + sumSizes bs1 + (s + d.bsize)
          = heapBase + sumSizes bs1 + s + d.bsize := by omega
      rw [this]
    show blockAt (bs1 ++ { bsize := s + d.bsize, balloc := false } :: bs2') heapBase x
        = some { bsize := t, balloc := true }
    apply withAddrs_mem_blockAt posA
    rw [waA2]
    rcases List.mem_append.mp hxm with hxm | hxm
    · exact List.mem_append_left _ hxm
    · rcases List.mem_cons.mp hxm with heq | hxm
      · exfalso
        have := congrArg Prod.snd heq
        simp at this
      · rcases List.mem_cons.mp hxm with heq | hxm
        · exfalso
          have h1 := congrArg Prod.snd heq
          simp only at h1
          rw [← h1] at hdfree
          simp at hdfree
        · exact List.mem_append_right _ (List.mem_cons_of_mem _ hxm)
  · intro t heq
    have hval : blockAt
        (pushBucket h3 (getIndex (s + d.bsize)) (heapBase + sumSizes bs1)).blocks
        heapBase (heapBase + sumSizes bs1)
        = some { bsize := s + d.bsize, balloc := false } := by
      show blockAt (bs1 ++ { bsize := s + d.bsize, balloc := false } :: bs2') heapBase _ = _
      exact blockAt_decomp pos1 _ _ heapBase
    rw [hval] at heq
    simp at heq

/-! ### Coalesce case 2: left neighbour free, right allocated -/

theorem coalesce_case2 (g : Heap) (hI : Inv g) (bs1' : List Block) (c : Block) (s : Nat)
    (bs2 : List Block)
    (hdec : g.blocks = bs1' ++ c :: { bsize := s, balloc := true } :: bs2)
    (hcfree : c.balloc = false) (hr : headAlloc bs2 = true) :
    ∃ h', coalesce
        (pushBucket { g with blocks := bs1' ++ c :: { bsize := s, balloc := false } :: bs2 }
          (getIndex s) (heapBase + sumSizes bs1' + c.bsize))
        (heapBase + sumSizes bs1' + c.bsize)
      = some h' ∧ Inv h' ∧
      h'.blocks = bs1' ++ { bsize := c.bsize + s, balloc := false } :: bs2 ∧
      (∀ x t, blockAt (bs1' ++ c :: { bsize := s, balloc := false } :: bs2) heapBase x
          = some { bsize := t, balloc := true } →
        blockAt h'.blocks heapBase x = some { bsize := t, balloc := true }) ∧
      (∀ t, blockAt h'.blocks heapBase (heapBase + sumSizes bs1' + c.bsize)
          ≠ some { bsize := t, balloc := true }) := by
  obtain ⟨hlen, hszs, hmemF, hbok, hnd, hnaf⟩ := hI
  have posG : ∀ x ∈ g.blocks, 0 < x.bsize :=
    inv_pos_sizes ⟨hlen, hszs, hmemF, hbok, hnd, hnaf⟩
  have pos1 : ∀ x ∈ bs1', 0 < x.bsize := by
    intro x hx
    exact posG x (by rw [hdec]; exact List.mem_append_left _ hx)
  have pos2 : ∀ x ∈ bs2, 0 < x.bsize := by
    intro x hx
    exact posG x
      (by rw [hdec]
          exact List.mem_append_right _ (List.mem_cons_of_mem _ (List.mem_cons_of_mem _ hx)))
  have waG : withAddrs g.blocks heapBase
      = withAddrs bs1' heapBase
          ++ (heapBase + sumSizes bs1', c)
          :: (heapBase + sumSizes bs1' + c.bsize, ({ bsize := s, balloc := true } : Block))
          :: withAddrs bs2 (heapBase + sumSizes bs1' + c.bsize + s) := by
    rw [hdec, withAddrs_middle]
    simp [withAddrs]
  have hcfacts := hszs (heapBase + sumSizes bs1', c)
    (by rw [waG]; exact List.mem_append_right _ (List.mem_cons_self _ _))
  have hcpos : 0 < c.bsize := by
    have := hcfacts.2
    simp only at this
    omega
  have hsfacts := hszs
    (heapBase + sumSizes bs1' + c.bsize, ({ bsize := s, balloc := true } : Block))
    (by rw [waG]
        exact List.mem_append_right _ (List.mem_cons_of_mem _ (List.mem_cons_self _ _)))
  have hspos : 0 < s := by
    have := hsfacts.2
    simp only at this
    omega
  have pos1c : ∀ x ∈ bs1' ++ [c], 0 < x.bsize := by
    intro x hx
    rcases List.mem_append.mp hx with hx | hx
    · exact pos1 x hx
    · rcases List.mem_cons.mp hx with rfl | hx
      · exact hcpos
      · simp at hx
  have hklt : getIndex s < g.buckets.length := by
    rw [hlen]
    have := getIndex_le_eight s
    omega
  set hF : Heap := { g with blocks := bs1' ++ c :: { bsize := s, balloc := false } :: bs2 }
    with hhF
  have hFblocks : hF.blocks = bs1' ++ c :: { bsize := s, balloc := false } :: bs2 := rfl
  have hFget : ∀ i, bucketGet hF i = bucketGet g i := fun i => rfl
  have hFlen : hF.buckets.length = g.buckets.length := rfl
  set h2 := pushBucket hF (getIndex s) (heapBase + sumSizes bs1' + c.bsize) with hh2
  have h2blocks : h2.blocks = bs1' ++ c :: { bsize := s, balloc := false } :: bs2 := rfl
  have hmidrw : bs1' ++ c :: { bsize := s, balloc := false } :: bs2
      = (bs1' ++ [c]) ++ { bsize := s, balloc := false } :: bs2 := by simp
  have haddr1 : heapBase + sumSizes (bs1' ++ [c]) = heapBase + sumSizes bs1' + c.bsize := by
    rw [sumSizes_append]
    simp only [sumSizes]
    omega
  have hkA : blockAt h2.blocks heapBase (heapBase + sumSizes bs1' + c.bsize)
      = some { bsize := s, balloc := false } := by
    rw [h2blocks, hmidrw, ← haddr1]
    exact blockAt_decomp pos1c _ _ heapBase
  have hsize : sizeAt h2 (heapBase + sumSizes bs1' + c.bsize) = s := by
    simp [sizeAt, hkA]
  have hleftOf : leftOf h2.blocks heapBase (heapBase + sumSizes bs1' + c.bsize)
      = some (heapBase + sumSizes bs1', c) := by
    rw [h2blocks]
    exact leftOf_decomp _ c _ heapBase pos1c
  have hLA : leftAllocOf h2 (heapBase + sumSizes bs1' + c.bsize) = false := by
    simp [leftAllocOf, hleftOf, hcfree]
  have hRA : allocAt h2 (heapBase + sumSizes bs1' + c.bsize + s) = true := by
    cases hbs2 : bs2 with
    | nil =>
      subst hbs2
      have hend : heapBase + sumSizes (bs1' ++ c :: [{ bsize := s, balloc := false }])
          ≤ heapBase + sumSizes bs1' + c.bsize + s := by
        rw [sumSizes_append]
        simp only [sumSizes]
        omega
      have posBF : ∀ x ∈ bs1' ++ c :: [{ bsize := s, balloc := false }], 0 < x.bsize := by
        intro x hx
        rcases List.mem_append.mp hx with hx | hx
        · exact pos1 x hx
        · rcases List.mem_cons.mp hx with rfl | hx
          · exact hcpos
          · rcases List.mem_cons.mp hx with rfl | hx
            · exact hspos
            · simp at hx
      have : blockAt h2.blocks heapBase (heapBase + sumSizes bs1' + c.bsize + s) = none := by
        rw [h2blocks]
        exact blockAt_ge_none posBF hend
      simp [allocAt, this]
    | cons d bs2'' =>
      subst hbs2
      have hd : d.balloc = true := by
        rw [headAlloc_cons] at hr
        exact hr
      have hrw : bs1' ++ c :: { bsize := s, balloc := false } :: d :: bs2''
          = (bs1' ++ c :: [{ bsize := s, balloc := false }]) ++ d :: bs2'' := by simp
      have haddr : heapBase + sumSizes (bs1' ++ c :: [{ bsize := s, balloc := false }])
          = heapBase + sumSizes bs1' + c.bsize + s := by
        rw [sumSizes_append]
        simp only [sumSizes]
        omega
      have : blockAt h2.blocks heapBase (heapBase + sumSizes bs1' + c.bsize + s)
          = some d := by
        rw [h2blocks, hrw, ← haddr]
        apply blockAt_decomp
        intro x hx
        rcases List.mem_append.mp hx with hx | hx
        · exact pos1 x hx
        · rcases List.mem_cons.mp hx with rfl | hx
          · exact hcpos
          · rcases List.mem_cons.mp hx with rfl | hx
            · exact hspos
            · simp at hx
      simp [allocAt, this, hd]
  -- unlink the left neighbour from its bucket
  have hcsz : sizeAt hF (heapBase + sumSizes bs1') = c.bsize := by
    have : blockAt hF.blocks heapBase (heapBase + sumSizes bs1') = some c := by
      rw [hFblocks]
      exact blockAt_decomp pos1 _ _ heapBase
    simp [sizeAt, this]
  have hcmem : (heapBase + sumSizes bs1') ∈ bucketGet hF (getIndex c.bsize) := by
    rw [hFget]
    exact hmemF (heapBase + sumSizes bs1', c)
      (by rw [waG]; exact List.mem_append_right _ (List.mem_cons_self _ _)) hcfree
  have hjclt : getIndex c.bsize < 9 := by
    have := getIndex_le_eight c.bsize
    omega
  obtain ⟨pr, L1, L2, hbdec, hnotin1, hnotin2, hndL1, hfp, hrel, hprlast⟩ :=
    unlink_step hF (heapBase + sumSizes bs1') (getIndex c.bsize)
      (by rw [hcsz]) hcmem (by rw [hFget]; exact hnd _ hjclt)
  rw [hFget] at hbdec
  set hB := bucketSet hF (getIndex c.bsize) (L1 ++ L2) with hhB
  have hBblocks : hB.blocks = bs1' ++ c :: { bsize := s, balloc := false } :: bs2 := rfl
  have hBlen : hB.buckets.length = g.buckets.length := by
    simp [hhB, bucketSet_length, hFlen]
  have hBget_jc : bucketGet hB (getIndex c.bsize) = L1 ++ L2 := by
    apply bucketGet_set_self
    rw [hFlen, hlen]
    exact hjclt
  have hBget_ne : ∀ i, i ≠ getIndex c.bsize → bucketGet hB i = bucketGet g i := by
    intro i hi
    rw [hhB, bucketGet_set_ne hi, hFget]
  have hBsz_la : sizeAt hB (heapBase + sumSizes bs1') = c.bsize := hcsz
  have hBsz_a : sizeAt hB (heapBase + sumSizes bs1' + c.bsize) = s := by
    have : blockAt hB.blocks heapBase (heapBase + sumSizes bs1' + c.bsize)
        = some { bsize := s, balloc := false } := hkA
    simp [sizeAt, this]
  have hmerge : writeMerged hB.blocks heapBase (heapBase + sumSizes bs1') (c.bsize + s)
      = bs1' ++ { bsize := c.bsize + s, balloc := false } :: bs2 := by
    rw [hBblocks]
    have := writeMerged_two pos1 c ({ bsize := s, balloc := false } : Block) bs2 heapBase hspos
    simpa using this
  set h3 : Heap := { hB with
    blocks := bs1' ++ { bsize := c.bsize + s, balloc := false } :: bs2 } with hh3
  have h3sz : sizeAt h3 (heapBase + sumSizes bs1') = c.bsize + s := by
    have : blockAt h3.blocks heapBase (heapBase + sumSizes bs1')
        = some { bsize := c.bsize + s, balloc := false } := blockAt_decomp pos1 _ _ heapBase
    simp [sizeAt, this]
  have hmlt : getIndex (c.bsize + s) < 9 := by
    have := getIndex_le_eight (c.bsize + s)
    omega
  refine ⟨pushBucket h3 (getIndex (c.bsize + s)) (heapBase + sumSizes bs1'),
    ?_, ?_, rfl, ?_, ?_⟩
  · have hrelink1 : relink h2 (heapBase + sumSizes bs1' + c.bsize) none = hF := by
      apply relink_after_push
      · rw [hFlen]
        exact hklt
      · rw [← hh2, hsize]
    unfold coalesce
    rw [hsize, hLA, hRA]
    simp only [Bool.true_and, Bool.not_true, Bool.false_and, Bool.and_false, Bool.not_false,
      Bool.and_true, if_false, if_true, Bool.false_eq_true, reduceIte]
    rw [hleftOf]
    simp only
    rw [hrelink1, hfp]
    simp only [hrel, ← hhB, hBsz_la, hBsz_a, hmerge, ← hh3, h3sz]
  · have hW1lt : ∀ p ∈ withAddrs bs1' heapBase, p.1 < heapBase + sumSizes bs1' := by
      intro p hp
      have h1 := withAddrs_bound hp
      have h2 := mem_withAddrs_snd hp
      have := pos1 p.2 h2
      omega
    have hW2ge : ∀ p ∈ withAddrs bs2 (heapBase + sumSizes bs1' + c.bsize + s),
        heapBase + sumSizes bs1' + c.bsize + s ≤ p.1 := fun p hp => withAddrs_base_le hp
    have waA : withAddrs h3.blocks heapBase
        = withAddrs bs1' heapBase
            ++ (heapBase + sumSizes bs1', ({ bsize := c.bsize + s, balloc := false } : Block))
            :: withAddrs bs2 (heapBase + sumSizes bs1' + c.bsize + s) := by
      show withAddrs (bs1' ++ { bsize := c.bsize + s, balloc := false } :: bs2) heapBase = _
      rw [withAddrs_middle]
      have : heapBase + sumSizes bs1' + (c.bsize + s)
          = heapBase + sumSizes bs1' + c.bsize + s := by omega
      rw [this]
    have hfreeG : ∀ p, p ∈ withAddrs bs1' heapBase ∨
        p ∈ withAddrs bs2 (heapBase + sumSizes bs1' + c.bsize + s) →
        p ∈ withAddrs g.blocks heapBase := by
      rintro p (hp | hp)
      · rw [waG]
        exact List.mem_append_left _ hp
      · rw [waG]
        exact List.mem_append_right _ (List.mem_cons_of_mem _ (List.mem_cons_of_mem _ hp))
    have hq_cases : ∀ q ∈ withAddrs g.blocks heapBase, q.2.balloc = false →
        q.1 ≠ heapBase + sumSizes bs1' →
        (q ∈ withAddrs bs1' heapBase ∨
          q ∈ withAddrs bs2 (heapBase + sumSizes bs1' + c.bsize + s)) := by
      intro q hq hqfree hqne
      rw [waG] at hq
      rcases List.mem_append.mp hq with hq | hq
      · exact Or.inl hq
      · rcases List.mem_cons.mp hq with rfl | hq
        · exact absurd rfl hqne
        · rcases List.mem_cons.mp hq with rfl | hq
          · simp at hqfree
          · exact Or.inr hq
    have hmem_hB_of_g : ∀ i x, x ∈ bucketGet g i → x ≠ heapBase + sumSizes bs1' →
        x ∈ bucketGet hB i := by
      intro i x hx hne
      by_cases hij : i = getIndex c.bsize
      · subst hij
        rw [hBget_jc]
        rw [hbdec] at hx
        exact mem_middle_removed hx hne
      · rwa [hBget_ne i hij]
    have hBnodup : ∀ i < 9, (bucketGet hB i).Nodup := by
      intro i hi
      by_cases hij : i = getIndex c.bsize
      · subst hij
        rw [hBget_jc]
        apply nodup_middle_removed (x := heapBase + sumSizes bs1')
        rw [← hbdec]
        exact hnd _ hi
      · rw [hBget_ne i hij]
        exact hnd i hi
    have hmem_g_of_hB : ∀ i x, x ∈ bucketGet hB i → x ∈ bucketGet g i := by
      intro i x hx
      by_cases hij : i = getIndex c.bsize
      · subst hij
        rw [hBget_jc] at hx
        rw [hbdec]
        rcases List.mem_append.mp hx with hx | hx
        · exact List.mem_append_left _ hx
        · exact List.mem_append_right _ (List.mem_cons_of_mem _ hx)
      · rwa [hBget_ne i hij] at hx
    have hne_la_of_hB : ∀ i < 9, ∀ x ∈ bucketGet hB i, x ≠ heapBase + sumSizes bs1' := by
      intro i hi x hx hxeq
      subst hxeq
      by_cases hij : i = getIndex c.bsize
      · subst hij
        rw [hBget_jc] at hx
        rcases List.mem_append.mp hx with hx | hx
        · exact hnotin1 hx
        · exact hnotin2 hx
      · have hxg := hmem_g_of_hB _ _ hx
        obtain ⟨q, hq, hq1, hq2, hq3⟩ := hbok _ hi _ hxg
        have : q = (heapBase + sumSizes bs1', c) := by
          apply withAddrs_addr_inj posG hq
          · rw [waG]
            exact List.mem_append_right _ (List.mem_cons_self _ _)
          · rw [hq1]
        rw [this] at hq3
        exact hij hq3.symm
    have h'get_m : bucketGet (pushBucket h3 (getIndex (c.bsize + s)) (heapBase + sumSizes bs1'))
        (getIndex (c.bsize + s))
          = (heapBase + sumSizes bs1') :: bucketGet hB (getIndex (c.bsize + s)) := by
      apply bucketGet_push_self
      rw [show h3.buckets = hB.buckets from rfl, hBlen, hlen]
      exact hmlt
    have h'get_ne : ∀ i, i ≠ getIndex (c.bsize + s) →
        bucketGet (pushBucket h3 (getIndex (c.bsize + s)) (heapBase + sumSizes bs1')) i
          = bucketGet hB i := by
      intro i hi
      exact bucketGet_push_ne _ hi
    have h3lt : getIndex (c.bsize + s) < h3.buckets.length := by
      rw [show h3.buckets = hB.buckets from rfl, hBlen, hlen]
      exact hmlt
    refine ⟨?_, ?_, ?_, ?_, ?_, ?_⟩
    · rw [pushBucket_length]
      rw [show h3.buckets = hB.buckets from rfl, hBlen, hlen]
    · intro p hp
      rw [show (pushBucket h3 (getIndex (c.bsize + s)) (heapBase + sumSizes bs1')).blocks
          = h3.blocks from rfl, waA] at hp
      rcases List.mem_append.mp hp with hp | hp
      · exact hszs p (hfreeG p (Or.inl hp))
      · rcases List.mem_cons.mp hp with rfl | hp
        · constructor
          · have h1 := hcfacts.1
            have h2 := hsfacts.1
            simp only at h1 h2 ⊢
            omega
          · have := hcfacts.2
            simp only at this ⊢
            omega
        · exact hszs p (hfreeG p (Or.inr hp))
    · intro p hp hpfree
      rw [show (pushBucket h3 (getIndex (c.bsize + s)) (heapBase + sumSizes bs1')).blocks
          = h3.blocks from rfl, waA] at hp
      rcases List.mem_append.mp hp with hp | hp
      · have hmemg := hmemF p (hfreeG p (Or.inl hp)) hpfree
        have hne : p.1 ≠ heapBase + sumSizes bs1' := by
          have := hW1lt p hp
          omega
        exact mem_push h3lt (hmem_hB_of_g _ _ hmemg hne)
      · rcases List.mem_cons.mp hp with rfl | hp
        · rw [h'get_m]
          exact List.mem_cons_self _ _
        · have hmemg := hmemF p (hfreeG p (Or.inr hp)) hpfree
          have hne : p.1 ≠ heapBase + sumSizes bs1' := by
            have := hW2ge p hp
            omega
          exact mem_push h3lt (hmem_hB_of_g _ _ hmemg hne)
    · intro i hi x hx
      by_cases him : i = getIndex (c.bsize + s)
      · subst him
        rw [h'get_m] at hx
        rcases List.mem_cons.mp hx with rfl | hx
        · refine ⟨(heapBase + sumSizes bs1',
            ({ bsize := c.bsize + s, balloc := false } : Block)), ?_, rfl, rfl, rfl⟩
          rw [show (pushBucket h3 (getIndex (c.bsize + s)) (heapBase + sumSizes bs1')).blocks
              = h3.blocks from rfl, waA]
          exact List.mem_append_right _ (List.mem_cons_self _ _)
        · have hxg := hmem_g_of_hB _ _ hx
          obtain ⟨q, hq, hq1, hq2, hq3⟩ := hbok _ hi _ hxg
          have hqcase := hq_cases q hq hq2 (by
            rw [hq1]
            exact hne_la_of_hB _ hi _ hx)
          refine ⟨q, ?_, hq1, hq2, hq3⟩
          rw [show (pushBucket h3 (getIndex (c.bsize + s)) (heapBase + sumSizes bs1')).blocks
              = h3.blocks from rfl, waA]
          rcases hqcase with hq' | hq'
          · exact List.mem_append_left _ hq'
          · exact List.mem_append_right _ (List.mem_cons_of_mem _ hq')
      · rw [h'get_ne i him] at hx
        have hxg := hmem_g_of_hB _ _ hx
        obtain ⟨q, hq, hq1, hq2, hq3⟩ := hbok _ hi _ hxg
        have hqcase := hq_cases q hq hq2 (by
          rw [hq1]
          exact hne_la_of_hB _ hi _ hx)
        refine ⟨q, ?_, hq1, hq2, hq3⟩
        rw [show (pushBucket h3 (getIndex (c.bsize + s)) (heapBase + sumSizes bs1')).blocks
            = h3.blocks from rfl, waA]
        rcases hqcase with hq' | hq'
        · exact List.mem_append_left _ hq'
        · exact List.mem_append_right _ (List.mem_cons_of_mem _ hq')
    · intro i hi
      by_cases him : i = getIndex (c.bsize + s)
      · subst him
        rw [h'get_m]
        refine List.nodup_cons.mpr ⟨?_, hBnodup _ hi⟩
        intro hmem
        exact hne_la_of_hB _ hi _ hmem rfl
      · rw [h'get_ne i him]
        exact hBnodup i hi
    · show noAdjacentFree h3.blocks = true
      show noAdjacentFree (bs1' ++ { bsize := c.bsize + s, balloc := false } :: bs2) = true
      rw [hdec] at hnaf
      rw [naf_decomp] at hnaf ⊢
      simp only [Bool.and_eq_true, Bool.or_eq_true] at hnaf ⊢
      obtain ⟨⟨⟨hnaf1, hnafmid⟩, hbl⟩, -⟩ := hnaf
      have hnafmid' : noAdjacentFree (([] : List Block)
          ++ { bsize := s, balloc := true } :: bs2) = true := by
        simpa using hnafmid
      rw [naf_decomp] at hnafmid'
      simp only [Bool.and_eq_true, Bool.or_eq_true] at hnafmid'
      obtain ⟨⟨⟨-, hnaf2⟩, -⟩, -⟩ := hnafmid'
      have hlast : lastAlloc bs1' = true := by
        rcases hbl with hbl | hbl
        · exact hbl
        · rw [hcfree] at hbl
          simp at hbl
      exact ⟨⟨⟨hnaf1, hnaf2⟩, Or.inl hlast⟩, Or.inr hr⟩
  · intro x t hx
    have hxm := blockAt_mem_withAddrs hx
    have waBF2 : withAddrs (bs1' ++ c :: { bsize := s, balloc := false } :: bs2) heapBase
        = withAddrs bs1' heapBase
            ++ (heapBase + sumSizes bs1', c)
            :: (heapBase + sumSizes bs1' + c.bsize, ({ bsize := s, balloc := false } : Block))
            :: withAddrs bs2 (heapBase + sumSizes bs1' + c.bsize + s) := by
      rw [withAddrs_middle]
      simp [withAddrs]
    rw [waBF2] at hxm
    have posA : ∀ y ∈ bs1' ++ { bsize := c.bsize + s, balloc := false } :: bs2,
        0 < y.bsize := by
      intro y hy
      rcases List.mem_append.mp hy with hy | hy
      · exact pos1 y hy
      · rcases List.mem_cons.mp hy with rfl | hy
        · simp only
          omega
        · exact pos2 y hy
    have waA2 : withAddrs (bs1' ++ { bsize := c.bsize + s, balloc := false } :: bs2) heapBase
        = withAddrs bs1' heapBase
            ++ (heapBase + sumSizes bs1', ({ bsize := c.bsize + s, balloc := false } : Block))
            :: withAddrs bs2 (heapBase + sumSizes bs1' + c.bsize + s) := by
      rw [withAddrs_middle]
      have : heapBase + sumSizes bs1' + (c.bsize + s)
          = heapBase + sumSizes bs1' + c.bsize + s := by omega
      rw [this]
    show blockAt (bs1' ++ { bsize := c.bsize + s, balloc := false } :: bs2) heapBase x
        = some { bsize := t, balloc := true }
    apply withAddrs_mem_blockAt posA
    rw [waA2]
    rcases List.mem_append.mp hxm with hxm | hxm
    · exact List.mem_append_left _ hxm
    · rcases List.mem_cons.mp hxm with heq | hxm
      · exfalso
        have h1 := congrArg Prod.snd heq
        simp only at h1
        rw [← h1] at hcfree
        simp at hcfree
      · rcases List.mem_cons.mp hxm with heq | hxm
        · exfalso
          have := congrArg Prod.snd heq
          simp at this
        · exact List.mem_append_right _ (List.mem_cons_of_mem _ hxm)
  · intro t heq
    have hxm := blockAt_mem_withAddrs heq
    have waA2 : withAddrs (bs1' ++ { bsize := c.bsize + s, balloc := false } :: bs2) heapBase
        = withAddrs bs1' heapBase
            ++ (heapBase + sumSizes bs1', ({ bsize := c.bsize + s, balloc := false } : Block))
            :: withAddrs bs2 (heapBase + sumSizes bs1' + c.bsize + s) := by
      rw [withAddrs_middle]
      have : heapBase + sumSizes bs1' + (c.bsize + s)
          = heapBase + sumSizes bs1' + c.bsize + s := by omega
      rw [this]
    rw [show (pushBucket h3 (getIndex (c.bsize + s)) (heapBase + sumSizes bs1')).blocks
        = bs1' ++ { bsize := c.bsize + s, balloc := false } :: bs2 from rfl, waA2] at hxm
    rcases List.mem_append.mp hxm with hxm | hxm
    · have h1 := withAddrs_bound hxm
      have h2 := mem_withAddrs_snd hxm
      have := pos1 _ h2
      simp only at h1
      omega
    · rcases List.mem_cons.mp hxm with heq2 | hxm
      · have h1 := congrArg Prod.fst heq2
        simp only at h1
        omega
      · have h1 := withAddrs_base_le hxm
        simp only at h1
        omega

/-! ### Coalesce case 4: both neighbours free -/

theorem coalesce_case4 (g : Heap) (hI : Inv g) (bs1' : List Block) (c : Block) (s : Nat)
    (d : Block) (bs2'' : List Block)
    (hdec : g.blocks = bs1' ++ c :: { bsize := s, balloc := true } :: d :: bs2'')
    (hcfree : c.balloc = false) (hdfree : d.balloc = false) :
    ∃ h', coalesce
        (pushBucket
          { g with blocks := bs1' ++ c :: { bsize := s, balloc := false } :: d :: bs2'' }
          (getIndex s) (heapBase + sumSizes bs1' + c.bsize))
        (heapBase + sumSizes bs1' + c.bsize)
      = some h' ∧ Inv h' ∧
      h'.blocks = bs1' ++ { bsize := c.bsize + s + d.bsize, balloc := false } :: bs2'' ∧
      (∀ x t, blockAt (bs1' ++ c :: { bsize := s, balloc := false } :: d :: bs2'') heapBase x
          = some { bsize := t, balloc := true } →
        blockAt h'.blocks heapBase x = some { bsize := t, balloc := true }) ∧
      (∀ t, blockAt h'.blocks heapBase (heapBase + sumSizes bs1' + c.bsize)
          ≠ some { bsize := t, balloc := true }) := by
  obtain ⟨hlen, hszs, hmemF, hbok, hnd, hnaf⟩ := hI
  have posG : ∀ x ∈ g.blocks, 0 < x.bsize :=
    inv_pos_sizes ⟨hlen, hszs, hmemF, hbok, hnd, hnaf⟩
  have pos1 : ∀ x ∈ bs1', 0 < x.bsize := by
    intro x hx
    exact posG x (by rw [hdec]; exact List.mem_append_left _ hx)
  have pos2 : ∀ x ∈ bs2'', 0 < x.bsize := by
    intro x hx
    refine posG x ?_
    rw [hdec]
    exact List.mem_append_right _ (List.mem_cons_of_mem _
      (List.mem_cons_of_mem _ (List.mem_cons_of_mem _ hx)))
  have waG : withAddrs g.blocks heapBase
      = withAddrs bs1' heapBase
          ++ (heapBase + sumSizes bs1', c)
          :: (heapBase + sumSizes bs1' + c.bsize, ({ bsize := s, balloc := true } : Block))
          :: (heapBase + sumSizes bs1' + c.bsize + s, d)
          :: withAddrs bs2'' (heapBase + sumSizes bs1' + c.bsize + s + d.bsize) := by
    rw [hdec, withAddrs_middle]
    simp [withAddrs]
  have hcfacts := hszs (heapBase + sumSizes bs1', c)
    (by rw [waG]; exact List.mem_append_right _ (List.mem_cons_self _ _))
  have hcpos : 0 < c.bsize := by
    have := hcfacts.2
    simp only at this
    omega
  have hsfacts := hszs
    (heapBase + sumSizes bs1' + c.bsize, ({ bsize := s, balloc := true } : Block))
    (by rw [waG]
        exact List.mem_append_right _ (List.mem_cons_of_mem _ (List.mem_cons_self _ _)))
  have hspos : 0 < s := by
    have := hsfacts.2
    simp only at this
    omega
  have hdfacts := hszs (heapBase + sumSizes bs1' + c.bsize + s, d)
    (by rw [waG]
        exact List.mem_append_right _ (List.mem_cons_of_mem _
          (List.mem_cons_of_mem _ (List.mem_cons_self _ _))))
  have hdpos : 0 < d.bsize := by
    have := hdfacts.2
    simp only at this
    omega
  have pos1c : ∀ x ∈ bs1' ++ [c], 0 < x.bsize := by
    intro x hx
    rcases List.mem_append.mp hx with hx | hx
    · exact pos1 x hx
    · rcases List.mem_cons.mp hx with rfl | hx
      · exact hcpos
      · simp at hx
  have hklt : getIndex s < g.buckets.length := by
    rw [hlen]
    have := getIndex_le_eight s
    omega
  set hF : Heap :=
    { g with blocks := bs1' ++ c :: { bsize := s, balloc := false } :: d :: bs2'' } with hhF
  have hFblocks : hF.blocks = bs1' ++ c :: { bsize := s, balloc := false } :: d :: bs2'' := rfl
  have hFget : ∀ i, bucketGet hF i = bucketGet g i := fun i => rfl
  have hFlen : hF.buckets.length = g.buckets.length := rfl
  set h2 := pushBucket hF (getIndex s) (heapBase + sumSizes bs1' + c.bsize) with hh2
  have h2blocks : h2.blocks = bs1' ++ c :: { bsize := s, balloc := false } :: d :: bs2'' := rfl
  have haddr1 : heapBase + sumSizes (bs1' ++ [c]) = heapBase + sumSizes bs1' + c.bsize := by
    rw [sumSizes_append]
    simp only [sumSizes]
    omega
  have hkA : blockAt h2.blocks heapBase (heapBase + sumSizes bs1' + c.bsize)
      = some { bsize := s, balloc := false } := by
    have hmidrw : bs1' ++ c :: { bsize := s, balloc := false } :: d :: bs2''
        = (bs1' ++ [c]) ++ { bsize := s, balloc := false } :: d :: bs2'' := by simp
    rw [h2blocks, hmidrw, ← haddr1]
    exact blockAt_decomp pos1c _ _ heapBase
  have hsize : sizeAt h2 (heapBase + sumSizes bs1' + c.bsize) = s := by
    simp [sizeAt, hkA]
  have hleftOf : leftOf h2.blocks heapBase (heapBase + sumSizes bs1' + c.bsize)
      = some (heapBase + sumSizes bs1', c) := by
    rw [h2blocks]
    exact leftOf_decomp _ c _ heapBase pos1c
  have hLA : leftAllocOf h2 (heapBase + sumSizes bs1' + c.bsize) = false := by
    simp [leftAllocOf, hleftOf, hcfree]
  have hdAt : blockAt h2.blocks heapBase (heapBase + sumSizes bs1' + c.bsize + s)
      = some d := by
    have hrw : bs1' ++ c :: { bsize := s, balloc := false } :: d :: bs2''
        = (bs1' ++ c :: [{ bsize := s, balloc := false }]) ++ d :: bs2'' := by simp
    have haddr : heapBase + sumSizes (bs1' ++ c :: [{ bsize := s, balloc := false }])
        = heapBase + sumSizes bs1' + c.bsize + s := by
      rw [sumSizes_append]
      simp only [sumSizes]
      omega
    rw [h2blocks, hrw, ← haddr]
    apply blockAt_decomp
    intro x hx
    rcases List.mem_append.mp hx with hx | hx
    · exact pos1 x hx
    · rcases List.mem_cons.mp hx with rfl | hx
      · exact hcpos
      · rcases List.mem_cons.mp hx with rfl | hx
        · exact hspos
        · simp at hx
  have hRA : allocAt h2 (heapBase + sumSizes bs1' + c.bsize + s) = false := by
    simp [allocAt, hdAt, hdfree]
  -- unlink the right neighbour d
  have hdsz : sizeAt hF (heapBase + sumSizes bs1' + c.bsize + s) = d.bsize := by
    have : blockAt hF.blocks heapBase (heapBase + sumSizes bs1' + c.bsize + s) = some d :=
      hdAt
    simp [sizeAt, this]
  have hdmem : (heapBase + sumSizes bs1' + c.bsize + s) ∈ bucketGet hF (getIndex d.bsize) := by
    rw [hFget]
    refine hmemF (heapBase + sumSizes bs1' + c.bsize + s, d) ?_ hdfree
    rw [waG]
    exact List.mem_append_right _ (List.mem_cons_of_mem _
      (List.mem_cons_of_mem _ (List.mem_cons_self _ _)))
  have hjdlt : getIndex d.bsize < 9 := by
    have := getIndex_le_eight d.bsize
    omega
  obtain ⟨pr1, Ld1, Ld2, hbdecd, hdnotin1, hdnotin2, hndLd1, hfp1, hrel1, hpr1last⟩ :=
    unlink_step hF (heapBase + sumSizes bs1' + c.bsize + s) (getIndex d.bsize)
      (by rw [hdsz]) hdmem (by rw [hFget]; exact hnd _ hjdlt)
  rw [hFget] at hbdecd
  set hB1 := bucketSet hF (getIndex d.bsize) (Ld1 ++ Ld2) with hhB1
  have hB1blocks : hB1.blocks = bs1' ++ c :: { bsize := s, balloc := false } :: d :: bs2'' := rfl
  have hB1len : hB1.buckets.length = g.buckets.length := by
    simp [hhB1, bucketSet_length, hFlen]
  have hB1get_jd : bucketGet hB1 (getIndex d.bsize) = Ld1 ++ Ld2 := by
    apply bucketGet_set_self
    rw [hFlen, hlen]
    exact hjdlt
  have hB1get_ne : ∀ i, i ≠ getIndex d.bsize → bucketGet hB1 i = bucketGet g i := by
    intro i hi
    rw [hhB1, bucketGet_set_ne hi, hFget]
  -- unlink the left neighbour c
  have hcsz : sizeAt hB1 (heapBase + sumSizes bs1') = c.bsize := by
    have : blockAt hB1.blocks heapBase (heapBase + sumSizes bs1') = some c := by
      rw [hB1blocks]
      exact blockAt_decomp pos1 _ _ heapBase
    simp [sizeAt, this]
  have hlaltrb : heapBase + sumSizes bs1' < heapBase + sumSizes bs1' + c.bsize + s := by
    omega
  have hjclt : getIndex c.bsize < 9 := by
    have := getIndex_le_eight c.bsize
    omega
  have hcmemg : (heapBase + sumSizes bs1') ∈ bucketGet g (getIndex c.bsize) := by
    refine hmemF (heapBase + sumSizes bs1', c) ?_ hcfree
    rw [waG]
    exact List.mem_append_right _ (List.mem_cons_self _ _)
  have hcmem : (heapBase + sumSizes bs1') ∈ bucketGet hB1 (getIndex c.bsize) := by
    by_cases hij : getIndex c.bsize = getIndex d.bsize
    · rw [hij, hB1get_jd]
      rw [hij, hbdecd] at hcmemg
      exact mem_middle_removed hcmemg (by omega)
    · rwa [hB1get_ne _ hij]
  have hB1nodup : ∀ i < 9, (bucketGet hB1 i).Nodup := by
    intro i hi
    by_cases hij : i = getIndex d.bsize
    · subst hij
      rw [hB1get_jd]
      apply nodup_middle_removed (x := heapBase + sumSizes bs1' + c.bsize + s)
      rw [← hbdecd]
      exact hnd _ hi
    · rw [hB1get_ne i hij]
      exact hnd i hi
  obtain ⟨pr2, Lc1, Lc2, hbdecc, hcnotin1, hcnotin2, hndLc1, hfp2, hrel2, hpr2last⟩ :=
    unlink_step hB1 (heapBase + sumSizes bs1') (getIndex c.bsize)
      (by rw [hcsz]) hcmem (hB1nodup _ hjclt)
  set hB2 := bucketSet hB1 (getIndex c.bsize) (Lc1 ++ Lc2) with hhB2
  have hB2blocks : hB2.blocks = bs1' ++ c :: { bsize := s, balloc := false } :: d :: bs2'' := rfl
  have hB2len : hB2.buckets.length = g.buckets.length := by
    simp [hhB2, bucketSet_length, hB1len]
  have hB2get_jc : bucketGet hB2 (getIndex c.bsize) = Lc1 ++ Lc2 := by
    apply bucketGet_set_self
    rw [hB1len, hlen]
    exact hjclt
  have hB2get_ne : ∀ i, i ≠ getIndex c.bsize → bucketGet hB2 i = bucketGet hB1 i := by
    intro i hi
    rw [hhB2, bucketGet_set_ne hi]
  have hB2sz_rb : sizeAt hB2 (heapBase + sumSizes bs1' + c.bsize + s) = d.bsize := hdsz
  have hB2sz_a : sizeAt hB2 (heapBase + sumSizes bs1' + c.bsize) = s := by
    have : blockAt hB2.blocks heapBase (heapBase + sumSizes bs1' + c.bsize)
        = some { bsize := s, balloc := false } := hkA
    simp [sizeAt, this]
  have hB2sz_la : sizeAt hB2 (heapBase + sumSizes bs1') = c.bsize := hcsz
  have hmerge : writeMerged hB2.blocks heapBase (heapBase + sumSizes bs1')
      (d.bsize + s + c.bsize)
      = bs1' ++ { bsize := c.bsize + s + d.bsize, balloc := false } :: bs2'' := by
    rw [hB2blocks]
    have hcomm : d.bsize + s + c.bsize = c.bsize + s + d.bsize := by omega
    rw [hcomm]
    have := writeMerged_three pos1 c ({ bsize := s, balloc := false } : Block) d bs2''
      heapBase hspos hdpos
    simpa using this
  set h4 : Heap := { hB2 with
    blocks := bs1' ++ { bsize := c.bsize + s + d.bsize, balloc := false } :: bs2'' } with hh4
  have h4sz : sizeAt h4 (heapBase + sumSizes bs1') = c.bsize + s + d.bsize := by
    have : blockAt h4.blocks heapBase (heapBase + sumSizes bs1')
        = some { bsize := c.bsize + s + d.bsize, balloc := false } :=
      blockAt_decomp pos1 _ _ heapBase
    simp [sizeAt, this]
  have hmlt : getIndex (c.bsize + s + d.bsize) < 9 := by
    have := getIndex_le_eight (c.bsize + s + d.bsize)
    omega
  refine ⟨pushBucket h4 (getIndex (c.bsize + s + d.bsize)) (heapBase + sumSizes bs1'),
    ?_, ?_, rfl, ?_, ?_⟩
  · have hrelink1 : relink h2 (heapBase + sumSizes bs1' + c.bsize) none = hF := by
      apply relink_after_push
      · rw [hFlen]
        exact hklt
      · rw [← hh2, hsize]
    unfold coalesce
    rw [hsize, hLA, hRA]
    simp only [Bool.true_and, Bool.not_true, Bool.false_and, Bool.and_false, Bool.not_false,
      Bool.and_true, if_false, if_true, Bool.false_eq_true, reduceIte]
    rw [hleftOf]
    simp only
    rw [hrelink1, hfp1]
    simp only [hrel1, ← hhB1]
    rw [hfp2]
    simp only [hrel2, ← hhB2, hB2sz_rb, hB2sz_a, hB2sz_la, hmerge, ← hh4, h4sz]
  · have hW1lt : ∀ p ∈ withAddrs bs1' heapBase, p.1 < heapBase + sumSizes bs1' := by
      intro p hp
      have h1 := withAddrs_bound hp
      have h2 := mem_withAddrs_snd hp
      have := pos1 p.2 h2
      omega
    have hW2ge : ∀ p ∈ withAddrs bs2'' (heapBase + sumSizes bs1' + c.bsize + s + d.bsize),
        heapBase + sumSizes bs1' + c.bsize + s + d.bsize ≤ p.1 :=
      fun p hp => withAddrs_base_le hp
    have waA : withAddrs h4.blocks heapBase
        = withAddrs bs1' heapBase
            ++ (heapBase + sumSizes bs1',
                ({ bsize := c.bsize + s + d.bsize, balloc := false } : Block))
            :: withAddrs bs2'' (heapBase + sumSizes bs1' + c.bsize + s + d.bsize) := by
      show withAddrs (bs1' ++ { bsize := c.bsize + s + d.bsize, balloc := false } :: bs2'')
          heapBase = _
      rw [withAddrs_middle]
      have : heapBase + sumSizes bs1' + (c.bsize + s + d.bsize)
          = heapBase + sumSizes bs1' + c.bsize + s + d.bsize := by omega
      rw [this]
    have hfreeG : ∀ p, p ∈ withAddrs bs1' heapBase ∨
        p ∈ withAddrs bs2'' (heapBase + sumSizes bs1' + c.bsize + s + d.bsize) →
        p ∈ withAddrs g.blocks heapBase := by
      rintro p (hp | hp)
      · rw [waG]
        exact List.mem_append_left _ hp
      · rw [waG]
        exact List.mem_append_right _ (List.mem_cons_of_mem _
          (List.mem_cons_of_mem _ (List.mem_cons_of_mem _ hp)))
    have hq_cases : ∀ q ∈ withAddrs g.blocks heapBase, q.2.balloc = false →
        q.1 ≠ heapBase + sumSizes bs1' →
        q.1 ≠ heapBase + sumSizes bs1' + c.bsize + s →
        (q ∈ withAddrs bs1' heapBase ∨
          q ∈ withAddrs bs2'' (heapBase + sumSizes bs1' + c.bsize + s + d.bsize)) := by
      intro q hq hqfree hqne1 hqne2
      rw [waG] at hq
      rcases List.mem_append.mp hq with hq | hq
      · exact Or.inl hq
      · rcases List.mem_cons.mp hq with rfl | hq
        · exact absurd rfl hqne1
        · rcases List.mem_cons.mp hq with rfl | hq
          · simp at hqfree
          · rcases List.mem_cons.mp hq with rfl | hq
            · exact absurd rfl hqne2
            · exact Or.inr hq
    have hmem_hB2_of_g : ∀ i x, x ∈ bucketGet g i →
        x ≠ heapBase + sumSizes bs1' + c.bsize + s → x ≠ heapBase + sumSizes bs1' →
        x ∈ bucketGet hB2 i := by
      intro i x hx hne1 hne2
      have hstep1 : x ∈ bucketGet hB1 i := by
        by_cases hij : i = getIndex d.bsize
        · subst hij
          rw [hB1get_jd]
          rw [hbdecd] at hx
          exact mem_middle_removed hx hne1
        · rwa [hB1get_ne i hij]
      by_cases hij : i = getIndex c.bsize
      · subst hij
        rw [hB2get_jc]
        rw [hbdecc] at hstep1
        exact mem_middle_removed hstep1 hne2
      · rwa [hB2get_ne i hij]
    have hmem_g_of_hB1 : ∀ i x, x ∈ bucketGet hB1 i → x ∈ bucketGet g i := by
      intro i x hx
      by_cases hij : i = getIndex d.bsize
      · subst hij
        rw [hB1get_jd] at hx
        rw [hbdecd]
        rcases List.mem_append.mp hx with hx | hx
        · exact List.mem_append_left _ hx
        · exact List.mem_append_right _ (List.mem_cons_of_mem _ hx)
      · rwa [hB1get_ne i hij] at hx
    have hmem_g_of_hB2 : ∀ i x, x ∈ bucketGet hB2 i → x ∈ bucketGet g i := by
      intro i x hx
      refine hmem_g_of_hB1 i x ?_
      by_cases hij : i = getIndex c.bsize
      · subst hij
        rw [hB2get_jc] at hx
        rw [hbdecc]
        rcases List.mem_append.mp hx with hx | hx
        · exact List.mem_append_left _ hx
        · exact List.mem_append_right _ (List.mem_cons_of_mem _ hx)
      · rwa [hB2get_ne i hij] at hx
    have hB2nodup : ∀ i < 9, (bucketGet hB2 i).Nodup := by
      intro i hi
      by_cases hij : i = getIndex c.bsize
      · subst hij
        rw [hB2get_jc]
        apply nodup_middle_removed (x := heapBase + sumSizes bs1')
        rw [← hbdecc]
        exact hB1nodup _ hi
      · rw [hB2get_ne i hij]
        exact hB1nodup i hi
    have hne_la_of_hB2 : ∀ i < 9, ∀ x ∈ bucketGet hB2 i,
        x ≠ heapBase + sumSizes bs1' := by
      intro i hi x hx hxeq
      subst hxeq
      by_cases hij : i = getIndex c.bsize
      · subst hij
        rw [hB2get_jc] at hx
        rcases List.mem_append.mp hx with hx | hx
        · exact hcnotin1 hx
        · exact hcnotin2 hx
      · have hxg := hmem_g_of_hB2 _ _ hx
        obtain ⟨q, hq, hq1, hq2, hq3⟩ := hbok _ hi _ hxg
        have : q = (heapBase + sumSizes bs1', c) := by
          apply withAddrs_addr_inj posG hq
          · rw [waG]
            exact List.mem_append_right _ (List.mem_cons_self _ _)
          · rw [hq1]
        rw [this] at hq3
        exact hij hq3.symm
    have hne_rb_of_hB2 : ∀ i < 9, ∀ x ∈ bucketGet hB2 i,
        x ≠ heapBase + sumSizes bs1' + c.bsize + s := by
      intro i hi x hx hxeq
      have hx1 : x ∈ bucketGet hB1 i := by
        by_cases hij : i = getIndex c.bsize
        · subst hij
          rw [hB2get_jc] at hx
          rw [hbdecc]
          rcases List.mem_append.mp hx with hx | hx
          · exact List.mem_append_left _ hx
          · exact List.mem_append_right _ (List.mem_cons_of_mem _ hx)
        · rwa [hB2get_ne _ hij] at hx
      by_cases hij : i = getIndex d.bsize
      · subst hij
        rw [hB1get_jd] at hx1
        subst hxeq
        rcases List.mem_append.mp hx1 with hx1 | hx1
        · exact hdnotin1 hx1
        · exact hdnotin2 hx1
      · have hxg := hmem_g_of_hB1 _ _ hx1
        obtain ⟨q, hq, hq1, hq2, hq3⟩ := hbok _ hi _ hxg
        have : q = (heapBase + sumSizes bs1' + c.bsize + s, d) := by
          apply withAddrs_addr_inj posG hq
          · rw [waG]
            exact List.mem_append_right _ (List.mem_cons_of_mem _
              (List.mem_cons_of_mem _ (List.mem_cons_self _ _)))
          · rw [hq1, hxeq]
        rw [this] at hq3
        exact hij hq3.symm
    have h'get_m : bucketGet
        (pushBucket h4 (getIndex (c.bsize + s + d.bsize)) (heapBase + sumSizes bs1'))
        (getIndex (c.bsize + s + d.bsize))
          = (heapBase + sumSizes bs1') :: bucketGet hB2 (getIndex (c.bsize + s + d.bsize)) := by
      apply bucketGet_push_self
      rw [show h4.buckets = hB2.buckets from rfl, hB2len, hlen]
      exact hmlt
    have h'get_ne : ∀ i, i ≠ getIndex (c.bsize + s + d.bsize) →
        bucketGet (pushBucket h4 (getIndex (c.bsize + s + d.bsize))
          (heapBase + sumSizes bs1')) i = bucketGet hB2 i := by
      intro i hi
      exact bucketGet_push_ne _ hi
    have h4lt : getIndex (c.bsize + s + d.bsize) < h4.buckets.length := by
      rw [show h4.buckets = hB2.buckets from rfl, hB2len, hlen]
      exact hmlt
    refine ⟨?_, ?_, ?_, ?_, ?_, ?_⟩
    · rw [pushBucket_length]
      rw [show h4.buckets = hB2.buckets from rfl, hB2len, hlen]
    · intro p hp
      rw [show (pushBucket h4 (getIndex (c.bsize + s + d.bsize))
          (heapBase + sumSizes bs1')).blocks = h4.blocks from rfl, waA] at hp
      rcases List.mem_append.mp hp with hp | hp
      · exact hszs p (hfreeG p (Or.inl hp))
      · rcases List.mem_cons.mp hp with rfl | hp
        · constructor
          · have h1 := hcfacts.1
            have h2 := hsfacts.1
            have h3 := hdfacts.1
            simp only at h1 h2 h3 ⊢
            omega
          · have := hcfacts.2
            simp only at this ⊢
            omega
        · exact hszs p (hfreeG p (Or.inr hp))
    · intro p hp hpfree
      rw [show (pushBucket h4 (getIndex (c.bsize + s + d.bsize))
          (heapBase + sumSizes bs1')).blocks = h4.blocks from rfl, waA] at hp
      rcases List.mem_append.mp hp with hp | hp
      · have hmemg := hmemF p (hfreeG p (Or.inl hp)) hpfree
        have hlt := hW1lt p hp
        exact mem_push h4lt (hmem_hB2_of_g _ _ hmemg (by omega) (by omega))
      · rcases List.mem_cons.mp hp with rfl | hp
        · rw [h'get_m]
          exact List.mem_cons_self _ _
        · have hmemg := hmemF p (hfreeG p (Or.inr hp)) hpfree
          have hge := hW2ge p hp
          exact mem_push h4lt (hmem_hB2_of_g _ _ hmemg (by omega) (by omega))
    · intro i hi x hx
      by_cases him : i = getIndex (c.bsize + s + d.bsize)
      · subst him
        rw [h'get_m] at hx
        rcases List.mem_cons.mp hx with rfl | hx
        · refine ⟨(heapBase + sumSizes bs1',
            ({ bsize := c.bsize + s + d.bsize, balloc := false } : Block)), ?_, rfl, rfl, rfl⟩
          rw [show (pushBucket h4 (getIndex (c.bsize + s + d.bsize))
              (heapBase + sumSizes bs1')).blocks = h4.blocks from rfl, waA]
          exact List.mem_append_right _ (List.mem_cons_self _ _)
        · have hxg := hmem_g_of_hB2 _ _ hx
          obtain ⟨q, hq, hq1, hq2, hq3⟩ := hbok _ hi _ hxg
          have hqne2 : q.1 ≠ heapBase + sumSizes bs1' + c.bsize + s := by
            rw [hq1]
            exact hne_rb_of_hB2 _ hi _ hx
          have hqcase := hq_cases q hq hq2 (by
            rw [hq1]
            exact hne_la_of_hB2 _ hi _ hx) hqne2
          refine ⟨q, ?_, hq1, hq2, hq3⟩
          rw [show (pushBucket h4 (getIndex (c.bsize + s + d.bsize))
              (heapBase + sumSizes bs1')).blocks = h4.blocks from rfl, waA]
          rcases hqcase with hq' | hq'
          · exact List.mem_append_left _ hq'
          · exact List.mem_append_right _ (List.mem_cons_of_mem _ hq')
      · rw [h'get_ne i him] at hx
        have hxg := hmem_g_of_hB2 _ _ hx
        obtain ⟨q, hq, hq1, hq2, hq3⟩ := hbok _ hi _ hxg
        have hqne2 : q.1 ≠ heapBase + sumSizes bs1' + c.bsize + s := by
          rw [hq1]
          exact hne_rb_of_hB2 _ hi _ hx
        have hqcase := hq_cases q hq hq2 (by
          rw [hq1]
          exact hne_la_of_hB2 _ hi _ hx) hqne2
        refine ⟨q, ?_, hq1, hq2, hq3⟩
        rw [show (pushBucket h4 (getIndex (c.bsize + s + d.bsize))
            (heapBase + sumSizes bs1')).blocks = h4.blocks from rfl, waA]
        rcases hqcase with hq' | hq'
        · exact List.mem_append_left _ hq'
        · exact List.mem_append_right _ (List.mem_cons_of_mem _ hq')
    · intro i hi
      by_cases him : i = getIndex (c.bsize + s + d.bsize)
      · subst him
        rw [h'get_m]
        refine List.nodup_cons.mpr ⟨?_, hB2nodup _ hi⟩
        intro hmem
        exact hne_la_of_hB2 _ hi _ hmem rfl
      · rw [h'get_ne i him]
        exact hB2nodup i hi
    · show noAdjacentFree h4.blocks = true
      show noAdjacentFree
        (bs1' ++ { bsize := c.bsize + s + d.bsize, balloc := false } :: bs2'') = true
      rw [hdec] at hnaf
      rw [naf_decomp] at hnaf ⊢
      simp only [Bool.and_eq_true, Bool.or_eq_true] at hnaf ⊢
      obtain ⟨⟨⟨hnaf1, hnafmid⟩, hbl⟩, -⟩ := hnaf
      have hnafmid' : noAdjacentFree (([] : List Block)
          ++ { bsize := s, balloc := true } :: d :: bs2'') = true := by
        simpa using hnafmid
      rw [naf_decomp] at hnafmid'
      simp only [Bool.and_eq_true, Bool.or_eq_true] at hnafmid'
      obtain ⟨⟨⟨-, hnafd⟩, -⟩, -⟩ := hnafmid'
      have hnafd' : noAdjacentFree (([] : List Block) ++ d :: bs2'') = true := by
        simpa using hnafd
      rw [naf_decomp] at hnafd'
      simp only [Bool.and_eq_true, Bool.or_eq_true] at hnafd'
      obtain ⟨⟨⟨-, hnaf2⟩, -⟩, hdb⟩ := hnafd'
      have hlast : lastAlloc bs1' = true := by
        rcases hbl with hbl | hbl
        · exact hbl
        · rw [hcfree] at hbl
          simp at hbl
      refine ⟨⟨⟨hnaf1, hnaf2⟩, Or.inl hlast⟩, ?_⟩
      rcases hdb with hdb | hdb
      · rw [hdfree] at hdb
        simp at hdb
      · exact Or.inr hdb
  · intro x t hx
    have hxm := blockAt_mem_withAddrs hx
    have waBF2 : withAddrs (bs1' ++ c :: { bsize := s, balloc := false } :: d :: bs2'') heapBase
        = withAddrs bs1' heapBase
            ++ (heapBase + sumSizes bs1', c)
            :: (heapBase + sumSizes bs1' + c.bsize, ({ bsize := s, balloc := false } : Block))
            :: (heapBase + sumSizes bs1' + c.bsize + s, d)
            :: withAddrs bs2'' (heapBase + sumSizes bs1' + c.bsize + s + d.bsize) := by
      rw [withAddrs_middle]
      simp [withAddrs]
    rw [waBF2] at hxm
    have posA : ∀ y ∈ bs1' ++ { bsize := c.bsize + s + d.bsize, balloc := false } :: bs2'',
        0 < y.bsize := by
      intro y hy
      rcases List.mem_append.mp hy with hy | hy
      · exact pos1 y hy
      · rcases List.mem_cons.mp hy with rfl | hy
        · simp only
          omega
        · exact pos2 y hy
    have waA2 : withAddrs
        (bs1' ++ { bsize := c.bsize + s + d.bsize, balloc := false } :: bs2'') heapBase
        = withAddrs bs1' heapBase
            ++ (heapBase + sumSizes bs1',
                ({ bsize := c.bsize + s + d.bsize, balloc := false } : Block))
            :: withAddrs bs2'' (heapBase + sumSizes bs1' + c.bsize + s + d.bsize) := by
      rw [withAddrs_middle]
      have : heapBase + sumSizes bs1' + (c.bsize + s + d.bsize)
          = heapBase + sumSizes bs1' + c.bsize + s + d.bsize := by omega
      rw [this]
    show blockAt (bs1' ++ { bsize := c.bsize + s + d.bsize, balloc := false } :: bs2'')
        heapBase x = some { bsize := t, balloc := true }
    apply withAddrs_mem_blockAt posA
    rw [waA2]
    rcases List.mem_append.mp hxm with hxm | hxm
    · exact List.mem_append_left _ hxm
    · rcases List.mem_cons.mp hxm with heq | hxm
      · exfalso
        have h1 := congrArg Prod.snd heq
        simp only at h1
        rw [← h1] at hcfree
        simp at hcfree
      · rcases List.mem_cons.mp hxm with heq | hxm
        · exfalso
          have := congrArg Prod.snd heq
          simp at this
        · rcases List.mem_cons.mp hxm with heq | hxm
          · exfalso
            have h1 := congrArg Prod.snd heq
            simp only at h1
            rw [← h1] at hdfree
            simp at hdfree
          · exact List.mem_append_right _ (List.mem_cons_of_mem _ hxm)
  · intro t heq
    have hxm := blockAt_mem_withAddrs heq
    have waA2 : withAddrs
        (bs1' ++ { bsize := c.bsize + s + d.bsize, balloc := false } :: bs2'') heapBase
        = withAddrs bs1' heapBase
            ++ (heapBase + sumSizes bs1',
                ({ bsize := c.bsize + s + d.bsize, balloc := false } : Block))
            :: withAddrs bs2'' (heapBase + sumSizes bs1' + c.bsize + s + d.bsize) := by
      rw [withAddrs_middle]
      have : heapBase + sumSizes bs1' + (c.bsize + s + d.bsize)
          = heapBase + sumSizes bs1' + c.bsize + s + d.bsize := by omega
      rw [this]
    rw [show (pushBucket h4 (getIndex (c.bsize + s + d.bsize))
        (heapBase + sumSizes bs1')).blocks
        = bs1' ++ { bsize := c.bsize + s + d.bsize, balloc := false } :: bs2'' from rfl,
      waA2] at hxm
    rcases List.mem_append.mp hxm with hxm | hxm
    · have h1 := withAddrs_bound hxm
      have h2 := mem_withAddrs_snd hxm
      have := pos1 _ h2
      simp only at h1
      omega
    · rcases List.mem_cons.mp hxm with heq2 | hxm
      · have h1 := congrArg Prod.fst heq2
        simp only at h1
        omega
      · have h1 := withAddrs_base_le hxm
        simp only at h1
        omega

/-! ### free_core: the freed-and-pushed block always coalesces successfully -/

theorem free_core (g : Heap) (hI : Inv g) (bs1 bs2 : List Block) (s : Nat)
    (hdec : g.blocks = bs1 ++ { bsize := s, balloc := true } :: bs2) :
    ∃ h', coalesce
        (pushBucket { g with blocks := bs1 ++ { bsize := s, balloc := false } :: bs2 }
          (getIndex s) (heapBase + sumSizes bs1)) (heapBase + sumSizes bs1)
      = some h' ∧ Inv h' ∧
      (∀ x t, blockAt (bs1 ++ { bsize := s, balloc := false } :: bs2) heapBase x
          = some { bsize := t, balloc := true } →
        blockAt h'.blocks heapBase x = some { bsize := t, balloc := true }) ∧
      (∀ t, blockAt h'.blocks heapBase (heapBase + sumSizes bs1)
          ≠ some { bsize := t, balloc := true }) := by
  cases bs2 with
  | nil =>
    rcases List.eq_nil_or_concat bs1 with rfl | ⟨bs1', c, hc⟩
    · obtain ⟨heval, hinv, hC, hD⟩ := coalesce_case1 g hI [] [] s hdec rfl rfl
      exact ⟨_, heval, hinv, hC, hD⟩
    · simp only [List.concat_eq_append] at hc
      subst hc
      cases hcb : c.balloc with
      | true =>
        obtain ⟨heval, hinv, hC, hD⟩ := coalesce_case1 g hI (bs1' ++ [c]) [] s hdec
          (by rw [lastAlloc_concat]; exact hcb) rfl
        exact ⟨_, heval, hinv, hC, hD⟩
      | false =>
        have e1 : (bs1' ++ [c]) ++ ({ bsize := s, balloc := false } : Block) :: ([] : List Block)
            = bs1' ++ c :: { bsize := s, balloc := false } :: ([] : List Block) := by simp
        have e2 : heapBase + sumSizes (bs1' ++ [c]) = heapBase + sumSizes bs1' + c.bsize := by
          rw [sumSizes_append]
          simp only [sumSizes]
          omega
        rw [e1, e2]
        have hdec2 : g.blocks = bs1' ++ c :: { bsize := s, balloc := true } :: ([] : List Block) := by
          rw [hdec]
          simp
        obtain ⟨h', heval, hinv, hbk, hC, hD⟩ :=
          coalesce_case2 g hI bs1' c s [] hdec2 hcb rfl
        exact ⟨h', heval, hinv, hC, hD⟩
  | cons d bs2' =>
    cases hdb : d.balloc with
    | true =>
      rcases List.eq_nil_or_concat bs1 with rfl | ⟨bs1', c, hc⟩
      · obtain ⟨heval, hinv, hC, hD⟩ := coalesce_case1 g hI [] (d :: bs2') s hdec rfl
          (by rw [headAlloc_cons]; exact hdb)
        exact ⟨_, heval, hinv, hC, hD⟩
      · simp only [List.concat_eq_append] at hc
        subst hc
        cases hcb : c.balloc with
        | true =>
          obtain ⟨heval, hinv, hC, hD⟩ := coalesce_case1 g hI (bs1' ++ [c]) (d :: bs2') s hdec
            (by rw [lastAlloc_concat]; exact hcb) (by rw [headAlloc_cons]; exact hdb)
          exact ⟨_, heval, hinv, hC, hD⟩
        | false =>
          have e1 : (bs1' ++ [c]) ++ ({ bsize := s, balloc := false } : Block) :: d :: bs2'
              = bs1' ++ c :: { bsize := s, balloc := false } :: d :: bs2' := by simp
          have e2 : heapBase + sumSizes (bs1' ++ [c]) = heapBase + sumSizes bs1' + c.bsize := by
            rw [sumSizes_append]
            simp only [sumSizes]
            omega
          rw [e1, e2]
          have hdec2 : g.blocks = bs1' ++ c :: { bsize := s, balloc := true } :: d :: bs2' := by
            rw [hdec]
            simp
          obtain ⟨h', heval, hinv, hbk, hC, hD⟩ :=
            coalesce_case2 g hI bs1' c s (d :: bs2') hdec2 hcb
              (by rw [headAlloc_cons]; exact hdb)
          exact ⟨h', heval, hinv, hC, hD⟩
    | false =>
      rcases List.eq_nil_or_concat bs1 with rfl | ⟨bs1', c, hc⟩
      · obtain ⟨h', heval, hinv, hbk, hC, hD⟩ :=
          coalesce_case3 g hI [] s d bs2' hdec rfl hdb
        exact ⟨h', heval, hinv, hC, hD⟩
      · simp only [List.concat_eq_append] at hc
        subst hc
        cases hcb : c.balloc with
        | true =>
          obtain ⟨h', heval, hinv, hbk, hC, hD⟩ :=
            coalesce_case3 g hI (bs1' ++ [c]) s d bs2' hdec
              (by rw [lastAlloc_concat]; exact hcb) hdb
          exact ⟨h', heval, hinv, hC, hD⟩
        | false =>
          have e1 : (bs1' ++ [c]) ++ ({ bsize := s, balloc := false } : Block) :: d :: bs2'
              = bs1' ++ c :: { bsize := s, balloc := false } :: d :: bs2' := by simp
          have e2 : heapBase + sumSizes (bs1' ++ [c]) = heapBase + sumSizes bs1' + c.bsize := by
            rw [sumSizes_append]
            simp only [sumSizes]
            omega
          rw [e1, e2]
          have hdec4 : g.blocks = bs1' ++ c :: { bsize := s, balloc := true } :: d :: bs2' := by
            rw [hdec]
            simp
          obtain ⟨h', heval, hinv, hbk, hC, hD⟩ :=
            coalesce_case4 g hI bs1' c s d bs2' hdec4 hcb hdb
          exact ⟨h', heval, hinv, hC, hD⟩

/-! ### first_fit characterization lemmas -/

theorem getD_drop {α : Type} (l : List α) (n k : Nat) (d : α) :
    (l.drop n).getD k d = l.getD (n + k) d := by
  induction l generalizing n with
  | nil => simp [List.getD]
  | cons x t ih =>
    cases n with
    | zero => simp
    | succ m =>
      have := ih m
      simpa [List.drop, List.getD, Nat.succ_add] using this

theorem getD_take {α : Type} (l : List α) (n k : Nat) (d : α) (h : k < n) :
    (l.take n).getD k d = l.getD k d := by
  induction l generalizing n k with
  | nil => simp [List.getD]
  | cons x t ih =>
    cases n with
    | zero => omega
    | succ m =>
      cases k with
      | zero => rfl
      | succ k' => simpa [List.take, List.getD] using ih m k' (by omega)

theorem getD_mem {α : Type} (l : List α) (k : Nat) (d : α) (h : k < l.length) :
    l.getD k d ∈ l := by
  induction l generalizing k with
  | nil => simp at h
  | cons x t ih =>
    cases k with
    | zero => simp [List.getD]
    | succ k' =>
      simp only [List.getD_cons_succ]
      exact List.mem_cons_of_mem _ (ih k' (by simpa using h))

theorem forall_eq_nil_iff_getD (l : List (List Nat)) :
    (∀ x ∈ l, x = []) ↔ ∀ k < l.length, l.getD k [] = [] := by
  constructor
  · intro hall k hk
    exact hall _ (getD_mem l k [] hk)
  · intro hall x hx
    obtain ⟨k, hk, rfl⟩ := List.mem_iff_getElem.mp hx
    have := hall k hk
    rwa [List.getD_eq_getElem l [] hk] at this

theorem fneh_none_iff (ls : List (List Nat)) :
    firstNonEmptyHead ls = none ↔ ∀ l ∈ ls, l = [] := by
  induction ls with
  | nil => simp [firstNonEmptyHead]
  | cons l rest ih =>
    cases l with
    | nil => simp [firstNonEmptyHead, ih]
    | cons p t => simp [firstNonEmptyHead]

theorem fneh_some {ls : List (List Nat)} {bp : Nat}
    (h : firstNonEmptyHead ls = some bp) :
    ∃ k rest, k < ls.length ∧ ls.getD k [] = bp :: rest ∧
      ∀ k' < k, ls.getD k' [] = [] := by
  induction ls with
  | nil => simp [firstNonEmptyHead] at h
  | cons l rest ih =>
    cases l with
    | nil =>
      simp only [firstNonEmptyHead] at h
      obtain ⟨k, r, hk, hget, hprev⟩ := ih h
      refine ⟨k + 1, r, by simpa using hk, by simpa [List.getD] using hget, ?_⟩
      intro k' hk'
      cases k' with
      | zero => rfl
      | succ k'' => simpa [List.getD] using hprev k'' (by omega)
    | cons p t =>
      simp only [firstNonEmptyHead, Option.some.injEq] at h
      exact ⟨0, t, by simp, by simp [List.getD, h], by omega⟩

theorem ffScan_none_iff (h : Heap) (asize : Nat) (l : List Nat) (pr : Option Nat) :
    ffScan h asize l pr = none ↔ ∀ a ∈ l, sizeAt h a < asize := by
  induction l generalizing pr with
  | nil => simp [ffScan]
  | cons p rest ih =>
    simp only [ffScan]
    by_cases hp : asize ≤ sizeAt h p
    · simp only [if_pos hp]
      simp
      omega
    · simp only [if_neg hp]
      rw [ih (some p)]
      constructor
      · intro hall a ha
        rcases List.mem_cons.mp ha with rfl | ha
        · omega
        · exact hall a ha
      · intro hall a ha
        exact hall a (List.mem_cons_of_mem _ ha)

theorem ffScan_some {h : Heap} {asize : Nat} {l : List Nat} {pr : Option Nat}
    {bp : Nat} {prev : Option Nat} (hs : ffScan h asize l pr = some (bp, prev)) :
    ∃ L1 L2, l = L1 ++ bp :: L2 ∧ asize ≤ sizeAt h bp ∧
      (∀ a ∈ L1, sizeAt h a < asize) ∧ prev = lastOr pr L1 := by
  induction l generalizing pr with
  | nil => simp [ffScan] at hs
  | cons p rest ih =>
    simp only [ffScan] at hs
    by_cases hp : asize ≤ sizeAt h p
    · rw [if_pos hp] at hs
      obtain ⟨rfl, rfl⟩ := Prod.mk.injEq .. ▸ Option.some.injEq .. ▸ hs
      exact ⟨[], rest, rfl, hp, by simp, rfl⟩
    · rw [if_neg hp] at hs
      obtain ⟨L1, L2, rfl, hfit, hlt, hprev⟩ := ih hs
      refine ⟨p :: L1, L2, rfl, hfit, ?_, by simpa [lastOr] using hprev⟩
      intro a ha
      rcases List.mem_cons.mp ha with rfl | ha
      · omega
      · exact hlt a ha

/-! ### Toward the malloc specification -/

theorem relink_removes (h : Heap) (x j : Nat) (hj : getIndex (sizeAt h x) = j)
    (L1 L2 : List Nat) (hdec : bucketGet h j = L1 ++ x :: L2)
    (h1 : x ∉ L1) (hnd1 : L1.Nodup) :
    relink h x (lastOr none L1) = bucketSet h j (L1 ++ L2) := by
  have hcr := chain_remove L2 h1 hnd1
  cases hpr : lastOr none L1 with
  | none =>
    rw [hpr] at hcr
    simp only [relink, hj, hdec]
    exact congrArg (bucketSet h j) hcr
  | some p =>
    rw [hpr] at hcr
    simp only [relink, hj, hdec]
    exact congrArg (bucketSet h j) hcr

set_option maxHeartbeats 1000000 in
theorem getIndex_mono {a b : Nat} (h : a ≤ b) : getIndex a ≤ getIndex b := by
  unfold getIndex
  split_ifs <;> omega

theorem lt_of_getIndex_lt {a b : Nat} (h : getIndex a < getIndex b) : a < b := by
  by_contra hab
  have hba : b ≤ a := Nat.le_of_not_lt hab
  have := getIndex_mono hba
  omega

theorem sumSizes_mod (bs : List Block) (h : ∀ x ∈ bs, x.bsize % 8 = 0) :
    sumSizes bs % 8 = 0 := by
  induction bs with
  | nil => rfl
  | cons b t ih =>
    have hb := h b (List.mem_cons_self _ _)
    have ht := ih (fun x hx => h x (List.mem_cons_of_mem _ hx))
    simp only [sumSizes]
    omega

/-- What a successful first_fit guarantees about its result: the block is a
member of some bucket from the natural class upward, the tracked
predecessor is the chain prefix's last node, and escalated hits are bucket
heads. -/
theorem first_fit_sound (g : Heap) (asize : Nat) (hlen : g.buckets.length = 9)
    {bp : Nat} {prev : Option Nat}
    (hff : first_fit g asize (getIndex asize) = some (bp, prev)) :
    ∃ i L1 L2, i < 9 ∧ getIndex asize ≤ i ∧ bucketGet g i = L1 ++ bp :: L2 ∧
      prev = lastOr none L1 ∧
      (i = getIndex asize → asize ≤ sizeAt g bp) := by
  have hidx8 : getIndex asize ≤ 8 := getIndex_le_eight asize
  cases hscan : ffScan g asize (bucketGet g (getIndex asize)) none with
  | some r =>
    simp only [first_fit, hscan, Option.some.injEq] at hff
    subst hff
    obtain ⟨L1, L2, hdec, hfit, _, hprev⟩ := ffScan_some hscan
    exact ⟨getIndex asize, L1, L2, by omega, le_refl _, hdec, hprev, fun _ => hfit⟩
  | none =>
    simp only [first_fit, hscan] at hff
    cases hf : firstNonEmptyHead
        ((g.buckets.drop (getIndex asize + 1)).take (8 - getIndex asize)) with
    | none =>
      rw [hf] at hff
      simp at hff
    | some q =>
      rw [hf] at hff
      simp only [Option.map_some', Option.some.injEq, Prod.mk.injEq] at hff
      obtain ⟨rfl, rfl⟩ := hff
      obtain ⟨k, rest, hk, hget, -⟩ := fneh_some hf
      have hseglen :
          ((g.buckets.drop (getIndex asize + 1)).take (8 - getIndex asize)).length
            = 8 - getIndex asize := by
        rw [List.length_take, List.length_drop, hlen]
        omega
      rw [hseglen] at hk
      have hbr : bucketGet g (getIndex asize + 1 + k) = q :: rest := by
        have hb : bucketGet g (getIndex asize + 1 + k)
            = ((g.buckets.drop (getIndex asize + 1)).take (8 - getIndex asize)).getD k [] := by
          rw [getD_take _ _ _ _ (by omega), getD_drop]
          rfl
        rw [hb, hget]
      exact ⟨getIndex asize + 1 + k, [], rest, by omega, by omega, hbr, rfl,
        fun heq => absurd heq (by omega)⟩

/-- Replacing the middle block by one of equal size does not change the tag
decoded at any other header address. -/
theorem blockAt_retag_ne (bs1 bs2 : List Block) (b b' : Block)
    (hb : b.bsize = b'.bsize) (base x : Nat) (hne : x ≠ base + sumSizes bs1) :
    blockAt (bs1 ++ b' :: bs2) base x = blockAt (bs1 ++ b :: bs2) base x := by
  induction bs1 generalizing base with
  | nil =>
    simp only [sumSizes] at hne
    simp only [List.nil_append, blockAt]
    rw [if_neg (by omega), if_neg (by omega), hb]
  | cons c cs ih =>
    simp only [List.cons_append, blockAt]
    by_cases hbx : base = x
    · simp [hbx]
    · rw [if_neg hbx, if_neg hbx]
      exact ih (base + c.bsize) (by simp only [sumSizes] at hne ⊢; omega)

/-- A header decoded inside a prefix still decodes the same after appending
more blocks. -/
theorem blockAt_append_left {bs : List Block} {base x : Nat} {b : Block}
    (h : blockAt bs base x = some b) (cs : List Block) :
    blockAt (bs ++ cs) base x = some b := by
  induction bs generalizing base with
  | nil => simp [blockAt] at h
  | cons c t ih =>
    simp only [blockAt] at h
    simp only [List.cons_append, blockAt]
    by_cases hbx : base = x
    · rw [if_pos hbx] at h ⊢
      exact h
    · rw [if_neg hbx] at h ⊢
      exact ih h

/-- Decoding past an entire leading segment of positive-size blocks skips
it. -/
theorem blockAt_skip_list (M bs2 : List Block) (base x : Nat)
    (hpos : ∀ y ∈ M, 0 < y.bsize) (hx : base + sumSizes M ≤ x) :
    blockAt (M ++ bs2) base x = blockAt bs2 (base + sumSizes M) x := by
  induction M generalizing base with
  | nil => simp [sumSizes]
  | cons m ms ih =>
    have hm : 0 < m.bsize := hpos m (List.mem_cons_self _ _)
    simp only [sumSizes] at hx
    simp only [List.cons_append, blockAt, List.append_eq]
    rw [if_neg (by omega),
      ih (base + m.bsize) (fun y hy => hpos y (List.mem_cons_of_mem _ hy)) (by omega)]
    congr 1
    simp only [sumSizes]
    omega

/-- A header strictly inside a common positive-size prefix decodes the same
whatever follows the prefix. -/
theorem blockAt_append_lt (bs1 A B : List Block) (base x : Nat)
    (hpos : ∀ y ∈ bs1, 0 < y.bsize) (hx : x < base + sumSizes bs1) :
    blockAt (bs1 ++ A) base x = blockAt (bs1 ++ B) base x := by
  induction bs1 generalizing base with
  | nil =>
    simp only [sumSizes] at hx
    rw [List.nil_append, List.nil_append, blockAt_lt_none (by omega),
      blockAt_lt_none (by omega)]
  | cons c cs ih =>
    simp only [List.cons_append, blockAt]
    by_cases hbx : base = x
    · simp [hbx]
    · rw [if_neg hbx, if_neg hbx]
      exact ih (base + c.bsize) (fun y hy => hpos y (List.mem_cons_of_mem _ hy))
        (by simp only [sumSizes] at hx; omega)

/-- The predecessor accumulator seeded with a value never comes back
empty. -/
theorem lastOr_isSome (x : Nat) (l : List Nat) : lastOr (some x) l ≠ none := by
  induction l generalizing x with
  | nil => simp [lastOr]
  | cons y ys ih => simpa [lastOr] using ih y

/-- The tracked predecessor is NULL exactly when the found node led the
chain. -/
theorem lastOr_none_iff (l : List Nat) : lastOr none l = none ↔ l = [] := by
  cases l with
  | nil => simp [lastOr]
  | cons x xs =>
    simp only [lastOr]
    constructor
    · intro h
      exact absurd h (lastOr_isSome x xs)
    · intro h
      exact absurd h (List.cons_ne_nil x xs)

/-! ### The free specification -/

/-- mm_free on the payload pointer of an allocated block: the setTagAt /
pushBucket prelude evaluates and the coalesce case analysis applies.
The freed operation succeeds, preserves the invariant and every other
allocated block, and leaves no allocated block at the freed header. -/
theorem mm_free_alloc (g : Heap) (hI : Inv g) (bs1 bs2 : List Block) (s : Nat)
    (hdec : g.blocks = bs1 ++ { bsize := s, balloc := true } :: bs2) :
    ∃ h', mm_free g (.addr (heapBase + sumSizes bs1 + 4)) = some h' ∧ Inv h' ∧
      (∀ x t, blockAt g.blocks heapBase x = some { bsize := t, balloc := true } →
        x ≠ heapBase + sumSizes bs1 →
        blockAt h'.blocks heapBase x = some { bsize := t, balloc := true }) ∧
      (∀ t, blockAt h'.blocks heapBase (heapBase + sumSizes bs1)
          ≠ some { bsize := t, balloc := true }) := by
  have hpos : ∀ x ∈ g.blocks, 0 < x.bsize := inv_pos_sizes hI
  have hpos1 : ∀ x ∈ bs1, 0 < x.bsize := fun x hx =>
    hpos x (by rw [hdec]; exact List.mem_append_left _ hx)
  obtain ⟨h', heval, hinv, hC, hD⟩ := free_core g hI bs1 bs2 s hdec
  refine ⟨h', ?_, hinv, ?_, hD⟩
  · have hbp : heapBase + sumSizes bs1 + 4 - 4 = heapBase + sumSizes bs1 := by omega
    have hset : setTagAt g.blocks heapBase (heapBase + sumSizes bs1) false
        = bs1 ++ { bsize := s, balloc := false } :: bs2 := by
      rw [hdec]
      exact setTagAt_decomp hpos1 _ bs2 heapBase false
    have hsz : sizeAt { g with blocks := bs1 ++ ({ bsize := s, balloc := false } : Block) :: bs2 }
        (heapBase + sumSizes bs1) = s := by
      show (blockAt (bs1 ++ ({ bsize := s, balloc := false } : Block) :: bs2) heapBase
          (heapBase + sumSizes bs1)).elim 0 Block.bsize = s
      rw [blockAt_decomp hpos1]
      rfl
    simp only [mm_free, hbp, hset, hsz]
    exact heval
  · intro x t hx hne
    apply hC x t
    rw [hdec] at hx
    rw [blockAt_retag_ne bs1 bs2 { bsize := s, balloc := true }
      { bsize := s, balloc := false } rfl heapBase x hne]
    exact hx

/-- free on any legitimate argument (NULL or the payload pointer of an
allocated block) succeeds and preserves the invariant. -/
theorem mm_free_spec (g : Heap) (p : PtrV) (hI : Inv g) (hv : ValidFreeArg g p) :
    ∃ h', mm_free g p = some h' ∧ Inv h' := by
  rcases hv with rfl | ⟨a, s, rfl, hb⟩
  · exact ⟨g, rfl, hI⟩
  · obtain ⟨W1, W2, hW⟩ := List.append_of_mem (blockAt_mem_withAddrs hb)
    obtain ⟨bs1, bs2, hdec, -, ha, -⟩ := withAddrs_decomp hW
    subst ha
    obtain ⟨h', heval, hinv, -, -⟩ := mm_free_alloc g hI bs1 bs2 s hdec
    exact ⟨h', heval, hinv⟩

/-! ### The place specification -/

/-- Unlinking a free block from its bucket while overwriting its extent
with allocated blocks of the same total size preserves the invariant
(provided the rewritten arena is free of adjacent free blocks, which the
callers establish for their concrete replacements). -/
theorem inv_unlink_mark (g : Heap) (hI : Inv g) (bs1 bs2 : List Block) (csize : Nat)
    (hdec : g.blocks = bs1 ++ { bsize := csize, balloc := false } :: bs2)
    (L1 L2 : List Nat)
    (hbuck : bucketGet g (getIndex csize) = L1 ++ (heapBase + sumSizes bs1) :: L2)
    (M : List Block) (hsum : sumSizes M = csize)
    (hM : ∀ x ∈ M, x.balloc = true ∧ x.bsize % 8 = 0 ∧ 16 ≤ x.bsize)
    (hnafM : noAdjacentFree (bs1 ++ (M ++ bs2)) = true) :
    Inv { buckets := (bucketSet g (getIndex csize) (L1 ++ L2)).buckets,
          blocks := bs1 ++ (M ++ bs2) } := by
  obtain ⟨hlen, hszs, hmemF, hbok, hnd, hnaf⟩ := hI
  have hIg : Inv g := ⟨hlen, hszs, hmemF, hbok, hnd, hnaf⟩
  have hilt9 : getIndex csize < 9 := by
    have := getIndex_le_eight csize
    omega
  have hiltL : getIndex csize < g.buckets.length := by
    rw [hlen]
    exact hilt9
  have waG : withAddrs g.blocks heapBase
      = withAddrs bs1 heapBase
          ++ (heapBase + sumSizes bs1, ({ bsize := csize, balloc := false } : Block))
          :: withAddrs bs2 (heapBase + sumSizes bs1 + csize) := by
    rw [hdec, withAddrs_middle]
  have hmid : (heapBase + sumSizes bs1, ({ bsize := csize, balloc := false } : Block))
      ∈ withAddrs g.blocks heapBase := by
    rw [waG]
    exact List.mem_append_right _ (List.mem_cons_self _ _)
  have hcs16 : 16 ≤ csize := by
    have := (hszs _ hmid).2
    simpa using this
  have waN : withAddrs (bs1 ++ (M ++ bs2)) heapBase
      = withAddrs bs1 heapBase
          ++ (withAddrs M (heapBase + sumSizes bs1)
              ++ withAddrs bs2 (heapBase + sumSizes bs1 + csize)) := by
    rw [withAddrs_append, withAddrs_append, hsum]
  have hleft_ne : ∀ q ∈ withAddrs bs1 heapBase, q.1 < heapBase + sumSizes bs1 := by
    intro q hq
    have hb := withAddrs_bound hq
    have hqG : q ∈ withAddrs g.blocks heapBase := by
      rw [waG]
      exact List.mem_append_left _ hq
    have := (hszs q hqG).2
    omega
  have hright_ne : ∀ q ∈ withAddrs bs2 (heapBase + sumSizes bs1 + csize),
      heapBase + sumSizes bs1 < q.1 := by
    intro q hq
    have := withAddrs_base_le hq
    omega
  have hndI := hnd (getIndex csize) hilt9
  rw [hbuck, List.nodup_append] at hndI
  obtain ⟨hnd1, hnd2, hdisj⟩ := hndI
  have hbpL1 : (heapBase + sumSizes bs1) ∉ L1 := fun hm => hdisj hm (List.mem_cons_self _ _)
  have hbpL2 : (heapBase + sumSizes bs1) ∉ L2 := (List.nodup_cons.mp hnd2).1
  have hbgN : ∀ j, bucketGet
      ({ buckets := (bucketSet g (getIndex csize) (L1 ++ L2)).buckets,
         blocks := bs1 ++ (M ++ bs2) } : Heap) j
      = bucketGet (bucketSet g (getIndex csize) (L1 ++ L2)) j :=
    fun _ => rfl
  have hside : ∀ q, (q ∈ withAddrs bs1 heapBase ∨
        q ∈ withAddrs bs2 (heapBase + sumSizes bs1 + csize)) →
      q ∈ withAddrs g.blocks heapBase ∧ q ∈ withAddrs (bs1 ++ (M ++ bs2)) heapBase := by
    intro q hq
    constructor
    · rw [waG]
      rcases hq with h | h
      · exact List.mem_append_left _ h
      · exact List.mem_append_right _ (List.mem_cons_of_mem _ h)
    · rw [waN]
      rcases hq with h | h
      · exact List.mem_append_left _ h
      · exact List.mem_append_right _ (List.mem_append_right _ h)
  refine ⟨?_, ?_, ?_, ?_, ?_, hnafM⟩
  · show (g.buckets.set (getIndex csize) (L1 ++ L2)).length = 9
    rw [List.length_set]
    exact hlen
  · intro p hp
    have hp' : p ∈ withAddrs (bs1 ++ (M ++ bs2)) heapBase := hp
    rw [waN] at hp'
    rcases List.mem_append.mp hp' with h1 | h12
    · exact hszs p ((hside p (Or.inl h1)).1)
    · rcases List.mem_append.mp h12 with hM' | h2
      · have := hM p.2 (mem_withAddrs_snd hM')
        exact ⟨this.2.1, this.2.2⟩
      · exact hszs p ((hside p (Or.inr h2)).1)
  · intro p hp hfree
    have hp' : p ∈ withAddrs (bs1 ++ (M ++ bs2)) heapBase := hp
    rw [waN] at hp'
    have hkey : p ∈ withAddrs g.blocks heapBase ∧ p.1 ≠ heapBase + sumSizes bs1 := by
      rcases List.mem_append.mp hp' with h1 | h12
      · refine ⟨(hside p (Or.inl h1)).1, ?_⟩
        have := hleft_ne p h1
        omega
      · rcases List.mem_append.mp h12 with hM' | h2
        · have := (hM p.2 (mem_withAddrs_snd hM')).1
          rw [hfree] at this
          cases this
        · refine ⟨(hside p (Or.inr h2)).1, ?_⟩
          have := hright_ne p h2
          omega
    obtain ⟨hpG, hpne⟩ := hkey
    have hmemB := hmemF p hpG hfree
    rw [hbgN]
    by_cases hji : getIndex p.2.bsize = getIndex csize
    · rw [hji, bucketGet_set_self hiltL]
      rw [hji, hbuck] at hmemB
      exact mem_middle_removed hmemB hpne
    · rw [bucketGet_set_ne hji]
      exact hmemB
  · intro j hj a hain
    rw [hbgN] at hain
    by_cases hji : j = getIndex csize
    · subst hji
      rw [bucketGet_set_self hiltL] at hain
      have hainG : a ∈ bucketGet g (getIndex csize) := by
        rw [hbuck]
        rcases List.mem_append.mp hain with h | h
        · exact List.mem_append_left _ h
        · exact List.mem_append_right _ (List.mem_cons_of_mem _ h)
      have hane : a ≠ heapBase + sumSizes bs1 := by
        intro heq
        subst heq
        rcases List.mem_append.mp hain with h | h
        · exact hbpL1 h
        · exact hbpL2 h
      obtain ⟨q, hq, hq1, hq2, hq3⟩ := hbok _ hj a hainG
      have hqside : q ∈ withAddrs bs1 heapBase ∨
          q ∈ withAddrs bs2 (heapBase + sumSizes bs1 + csize) := by
        rw [waG] at hq
        rcases List.mem_append.mp hq with h | h
        · exact Or.inl h
        · rcases List.mem_cons.mp h with heq | h
          · exfalso
            apply hane
            rw [← hq1, heq]
          · exact Or.inr h
      exact ⟨q, (hside q hqside).2, hq1, hq2, hq3⟩
    · rw [bucketGet_set_ne hji] at hain
      obtain ⟨q, hq, hq1, hq2, hq3⟩ := hbok j hj a hain
      have hqside : q ∈ withAddrs bs1 heapBase ∨
          q ∈ withAddrs bs2 (heapBase + sumSizes bs1 + csize) := by
        rw [waG] at hq
        rcases List.mem_append.mp hq with h | h
        · exact Or.inl h
        · rcases List.mem_cons.mp h with heq | h
          · exfalso
            apply hji
            rw [← hq3, heq]
          · exact Or.inr h
      exact ⟨q, (hside q hqside).2, hq1, hq2, hq3⟩
  · intro j hj
    rw [hbgN]
    by_cases hji : j = getIndex csize
    · subst hji
      rw [bucketGet_set_self hiltL]
      refine nodup_middle_removed (x := heapBase + sumSizes bs1) ?_
      rw [← hbuck]
      exact hnd _ hj
    · rw [bucketGet_set_ne hji]
      exact hnd j hj

/-- A free block allocated in place keeps its right neighbour intact:
prefixing an all-allocated cons in front preserves no-adjacent-free. -/
theorem naf_cons_alloc (x : Block) (hx : x.balloc = true) (B : List Block) :
    noAdjacentFree (x :: B) = noAdjacentFree B := by
  cases B with
  | nil => simp [noAdjacentFree]
  | cons b t => simp [noAdjacentFree, hx]

/-- place on a free candidate block found in its bucket: the block is
unlinked from the bucket indexed by its pre-split size csize; when the
leftover csize - asize (as C ints) exceeds 16 the head is written
allocated with size asize and the remainder becomes a free block handed to
free (whose coalesce finds both neighbours allocated and leaves it as a
standalone bucket entry); otherwise the whole block is tagged allocated
with its size unchanged.  The returned payload is bp + 4. -/
theorem place_ok (g : Heap) (hI : Inv g) (bs1 bs2 : List Block) (csize asize : Nat)
    (hdec : g.blocks = bs1 ++ { bsize := csize, balloc := false } :: bs2)
    (L1 L2 : List Nat)
    (hbuck : bucketGet g (getIndex csize) = L1 ++ (heapBase + sumSizes bs1) :: L2)
    (hasz8 : asize % 8 = 0) (hasz16 : 16 ≤ asize) :
    ∃ h', place g asize (heapBase + sumSizes bs1) (lastOr none L1)
        = some (heapBase + sumSizes bs1 + 4, h') ∧ Inv h' ∧
      (∀ x t, blockAt g.blocks heapBase x = some { bsize := t, balloc := true } →
        blockAt h'.blocks heapBase x = some { bsize := t, balloc := true }) ∧
      ((16 : Int) < (csize : Int) - (asize : Int) →
        h'.blocks = bs1 ++ { bsize := asize, balloc := true }
            :: { bsize := csize - asize, balloc := false } :: bs2 ∧
        h'.buckets = (pushBucket (bucketSet g (getIndex csize) (L1 ++ L2))
            (getIndex (csize - asize)) (heapBase + sumSizes bs1 + asize)).buckets) ∧
      (¬ (16 : Int) < (csize : Int) - (asize : Int) →
        h'.blocks = bs1 ++ { bsize := csize, balloc := true } :: bs2 ∧
        h'.buckets = (bucketSet g (getIndex csize) (L1 ++ L2)).buckets) := by
  obtain ⟨hlen, hszs, hmemF, hbok, hnd, hnaf⟩ := hI
  have hIg : Inv g := ⟨hlen, hszs, hmemF, hbok, hnd, hnaf⟩
  have hposG : ∀ x ∈ g.blocks, 0 < x.bsize := inv_pos_sizes hIg
  have hpos1 : ∀ x ∈ bs1, 0 < x.bsize := fun x hx =>
    hposG x (by rw [hdec]; exact List.mem_append_left _ hx)
  have waG : withAddrs g.blocks heapBase
      = withAddrs bs1 heapBase
          ++ (heapBase + sumSizes bs1, ({ bsize := csize, balloc := false } : Block))
          :: withAddrs bs2 (heapBase + sumSizes bs1 + csize) := by
    rw [hdec, withAddrs_middle]
  have hmid : (heapBase + sumSizes bs1, ({ bsize := csize, balloc := false } : Block))
      ∈ withAddrs g.blocks heapBase := by
    rw [waG]
    exact List.mem_append_right _ (List.mem_cons_self _ _)
  have hcs16 : 16 ≤ csize := by
    have := (hszs _ hmid).2
    simpa using this
  have hcs8 : csize % 8 = 0 := by
    have := (hszs _ hmid).1
    simpa using this
  have hcszAt : sizeAt g (heapBase + sumSizes bs1) = csize := by
    show (blockAt g.blocks heapBase (heapBase + sumSizes bs1)).elim 0 Block.bsize = csize
    rw [hdec, blockAt_decomp hpos1]
    rfl
  have hbpAt : blockAt g.blocks heapBase (heapBase + sumSizes bs1)
      = some { bsize := csize, balloc := false } := by
    rw [hdec]
    exact blockAt_decomp hpos1 _ bs2 heapBase
  have hnafd := hnaf
  rw [hdec, naf_decomp] at hnafd
  simp only [Bool.or_false, Bool.false_or, Bool.and_eq_true] at hnafd
  obtain ⟨⟨⟨hnaf1, hnaf2⟩, hlA⟩, hhA⟩ := hnafd
  have hndI := hnd (getIndex csize) (by have := getIndex_le_eight csize; omega)
  rw [hbuck, List.nodup_append] at hndI
  obtain ⟨hnd1, hnd2, hdisj⟩ := hndI
  have hbpL1 : (heapBase + sumSizes bs1) ∉ L1 := fun hm => hdisj hm (List.mem_cons_self _ _)
  simp only [place, hcszAt]
  by_cases hsplit : (16 : Int) < (csize : Int) - (asize : Int)
  · -- split branch
    rw [if_pos hsplit]
    have hlt : asize + 16 < csize := by omega
    have hrel : relink g (heapBase + sumSizes bs1) (lastOr none L1)
        = bucketSet g (getIndex csize) (L1 ++ L2) :=
      relink_removes g _ _ (by rw [hcszAt]) L1 L2 hbuck hbpL1 hnd1
    have hsp : splitBlockAt (bucketSet g (getIndex csize) (L1 ++ L2)).blocks heapBase
        (heapBase + sumSizes bs1) asize
        = bs1 ++ { bsize := asize, balloc := true }
            :: { bsize := csize - asize, balloc := false } :: bs2 := by
      show splitBlockAt g.blocks heapBase (heapBase + sumSizes bs1) asize = _
      rw [hdec]
      exact splitBlockAt_decomp hpos1 _ bs2 heapBase asize
    have hpos1' : ∀ x ∈ bs1 ++ [({ bsize := asize, balloc := true } : Block)], 0 < x.bsize := by
      intro x hx
      rcases List.mem_append.mp hx with h | h
      · exact hpos1 x h
      · rcases List.mem_cons.mp h with rfl | h
        · simpa using (by omega : 0 < asize)
        · cases h
    have e2 : heapBase + sumSizes (bs1 ++ [({ bsize := asize, balloc := true } : Block)])
        = heapBase + sumSizes bs1 + asize := by
      rw [sumSizes_append]
      simp only [sumSizes]
      omega
    have hInvM : Inv
        ({ buckets := (bucketSet g (getIndex csize) (L1 ++ L2)).buckets,
           blocks := bs1 ++ ([{ bsize := asize, balloc := true },
             { bsize := csize - asize, balloc := true }] ++ bs2) } : Heap) := by
      apply inv_unlink_mark g hIg bs1 bs2 csize hdec L1 L2 hbuck
      · simp only [sumSizes]
        omega
      · intro x hx
        rcases List.mem_cons.mp hx with rfl | hx
        · exact ⟨rfl, hasz8, hasz16⟩
        · rcases List.mem_cons.mp hx with rfl | hx
          · refine ⟨rfl, ?_, ?_⟩
            · show (csize - asize) % 8 = 0
              omega
            · show 16 ≤ csize - asize
              omega
          · cases hx
      · have e : bs1 ++ ([({ bsize := asize, balloc := true } : Block),
            { bsize := csize - asize, balloc := true }] ++ bs2)
            = bs1 ++ ({ bsize := asize, balloc := true } : Block)
              :: { bsize := csize - asize, balloc := true } :: bs2 := by
          simp
        rw [e, naf_decomp, naf_cons_alloc _ rfl bs2]
        simp [hnaf1, hnaf2]
    have hdecM : ({ buckets := (bucketSet g (getIndex csize) (L1 ++ L2)).buckets,
                    blocks := bs1 ++ ([{ bsize := asize, balloc := true },
                      { bsize := csize - asize, balloc := true }] ++ bs2) } : Heap).blocks
        = (bs1 ++ [({ bsize := asize, balloc := true } : Block)])
            ++ { bsize := csize - asize, balloc := true } :: bs2 := by
      show bs1 ++ ([({ bsize := asize, balloc := true } : Block),
          { bsize := csize - asize, balloc := true }] ++ bs2) = _
      simp
    have hl : lastAlloc (bs1 ++ [({ bsize := asize, balloc := true } : Block)]) = true := by
      rw [lastAlloc_concat]
    obtain ⟨heval, hinvF, hCF, hDF⟩ := coalesce_case1
      ({ buckets := (bucketSet g (getIndex csize) (L1 ++ L2)).buckets,
         blocks := bs1 ++ ([{ bsize := asize, balloc := true },
           { bsize := csize - asize, balloc := true }] ++ bs2) } : Heap)
      hInvM (bs1 ++ [{ bsize := asize, balloc := true }]) bs2 (csize - asize) hdecM hl hhA
    rw [e2] at heval hinvF hCF hDF
    refine ⟨_, ?_, hinvF, ?_, ?_, ?_⟩
    · -- evaluation
      rw [hrel, hsp]
      have hbpv : heapBase + sumSizes bs1 + asize + 4 - 4
          = heapBase + sumSizes bs1 + asize := by
        omega
      have e6 : bs1 ++ ({ bsize := asize, balloc := true } : Block)
          :: { bsize := csize - asize, balloc := false } :: bs2
          = (bs1 ++ [({ bsize := asize, balloc := true } : Block)])
              ++ { bsize := csize - asize, balloc := false } :: bs2 := by
        simp
      have hsetT2 : setTagAt (bs1 ++ ({ bsize := asize, balloc := true } : Block)
            :: { bsize := csize - asize, balloc := false } :: bs2) heapBase
          (heapBase + sumSizes bs1 + asize) false
          = (bs1 ++ [({ bsize := asize, balloc := true } : Block)])
              ++ { bsize := csize - asize, balloc := false } :: bs2 := by
        rw [e6, ← e2]
        exact setTagAt_decomp hpos1' _ bs2 heapBase false
      have hblockR : blockAt ((bs1 ++ [({ bsize := asize, balloc := true } : Block)])
            ++ ({ bsize := csize - asize, balloc := false } : Block) :: bs2)
          heapBase (heapBase + sumSizes bs1 + asize)
          = some { bsize := csize - asize, balloc := false } := by
        rw [← e2]
        exact blockAt_decomp hpos1' _ bs2 heapBase
      simp only [mm_free, hbpv, hsetT2, sizeAt, hblockR, Option.elim]
      rw [heval]
      rfl
    · -- allocated blocks elsewhere survive
      intro x t hx
      have hmemX := blockAt_mem_withAddrs hx
      rw [waG] at hmemX
      have hCF' := hCF x t
      rcases List.mem_append.mp hmemX with hL | hMR
      · -- x lies in bs1
        have hb := withAddrs_bound hL
        have ht16 : 16 ≤ t := by
          have := (hszs _ ((by rw [waG]; exact List.mem_append_left _ hL :
            (x, ({ bsize := t, balloc := true } : Block)) ∈ withAddrs g.blocks heapBase))).2
          simpa using this
        apply hCF'
        have e7 : (bs1 ++ [({ bsize := asize, balloc := true } : Block)])
            ++ ({ bsize := csize - asize, balloc := false } : Block) :: bs2
            = bs1 ++ ({ bsize := asize, balloc := true } : Block)
                :: { bsize := csize - asize, balloc := false } :: bs2 := by
          simp
        rw [e7, blockAt_append_lt bs1 _ (({ bsize := csize, balloc := false } : Block) :: bs2)
          heapBase x hpos1 (by simp only at hb; omega), ← hdec]
        exact hx
      · rcases List.mem_cons.mp hMR with heqm | hR
        · -- x is the candidate itself: impossible, it is free in g
          exfalso
          have : ({ bsize := csize, balloc := false } : Block)
              = { bsize := t, balloc := true } := congrArg Prod.snd heqm.symm
          simpa using congrArg Block.balloc this
        · -- x lies in bs2
          have hxge : heapBase + sumSizes bs1 + csize ≤ x := withAddrs_base_le hR
          apply hCF'
          have e8 : (bs1 ++ [({ bsize := asize, balloc := true } : Block)])
              ++ ({ bsize := csize - asize, balloc := false } : Block) :: bs2
              = (bs1 ++ [({ bsize := asize, balloc := true } : Block),
                  { bsize := csize - asize, balloc := false }]) ++ bs2 := by
            simp
          have e9 : g.blocks
              = (bs1 ++ [({ bsize := csize, balloc := false } : Block)]) ++ bs2 := by
            rw [hdec]
            simp
          have esum1 : sumSizes (bs1 ++ [({ bsize := asize, balloc := true } : Block),
              { bsize := csize - asize, balloc := false }]) = sumSizes bs1 + csize := by
            rw [sumSizes_append]
            simp only [sumSizes]
            omega
          have esum2 : sumSizes (bs1 ++ [({ bsize := csize, balloc := false } : Block)])
              = sumSizes bs1 + csize := by
            rw [sumSizes_append]
            simp only [sumSizes]
            omega
          have hposP1 : ∀ y ∈ bs1 ++ [({ bsize := asize, balloc := true } : Block),
              { bsize := csize - asize, balloc := false }], 0 < y.bsize := by
            intro y hy
            rcases List.mem_append.mp hy with h | h
            · exact hpos1 y h
            · rcases List.mem_cons.mp h with rfl | h
              · simpa using (by omega : 0 < asize)
              · rcases List.mem_cons.mp h with rfl | h
                · simpa using (by omega : 0 < csize - asize)
                · cases h
          have hposP2 : ∀ y ∈ bs1 ++ [({ bsize := csize, balloc := false } : Block)],
              0 < y.bsize := by
            intro y hy
            rcases List.mem_append.mp hy with h | h
            · exact hpos1 y h
            · rcases List.mem_cons.mp h with rfl | h
              · simpa using (by omega : 0 < csize)
              · cases h
          rw [e8, blockAt_skip_list _ _ _ _ hposP1 (by rw [esum1]; omega), esum1]
          rw [e9, blockAt_skip_list _ _ _ _ hposP2 (by rw [esum2]; omega), esum2] at hx
          exact hx
    · -- split-branch description
      intro _
      constructor
      · show (bs1 ++ [({ bsize := asize, balloc := true } : Block)])
            ++ { bsize := csize - asize, balloc := false } :: bs2 = _
        simp
      · rfl
    · intro h
      exact absurd hsplit h
  · -- no-split branch
    rw [if_neg hsplit]
    have hsetT : setTagAt g.blocks heapBase (heapBase + sumSizes bs1) true
        = bs1 ++ { bsize := csize, balloc := true } :: bs2 := by
      rw [hdec]
      exact setTagAt_decomp hpos1 _ bs2 heapBase true
    have hszAt1 : sizeAt ({ g with
          blocks := bs1 ++ ({ bsize := csize, balloc := true } : Block) :: bs2 })
        (heapBase + sumSizes bs1) = csize := by
      show (blockAt (bs1 ++ ({ bsize := csize, balloc := true } : Block) :: bs2) heapBase
          (heapBase + sumSizes bs1)).elim 0 Block.bsize = csize
      rw [blockAt_decomp hpos1]
      rfl
    have hrel1 : relink ({ g with
          blocks := bs1 ++ ({ bsize := csize, balloc := true } : Block) :: bs2 })
        (heapBase + sumSizes bs1) (lastOr none L1)
        = bucketSet ({ g with
            blocks := bs1 ++ ({ bsize := csize, balloc := true } : Block) :: bs2 })
          (getIndex csize) (L1 ++ L2) :=
      relink_removes _ _ _ (by rw [hszAt1]) L1 L2 hbuck hbpL1 hnd1
    have hInvNS : Inv
        ({ buckets := (bucketSet g (getIndex csize) (L1 ++ L2)).buckets,
           blocks := bs1 ++ ([{ bsize := csize, balloc := true }] ++ bs2) } : Heap) := by
      apply inv_unlink_mark g hIg bs1 bs2 csize hdec L1 L2 hbuck
      · simp only [sumSizes]
        omega
      · intro x hx
        rcases List.mem_cons.mp hx with rfl | hx
        · exact ⟨rfl, hcs8, hcs16⟩
        · cases hx
      · have e : bs1 ++ ([({ bsize := csize, balloc := true } : Block)] ++ bs2)
            = bs1 ++ ({ bsize := csize, balloc := true } : Block) :: bs2 := by
          simp
        rw [e, naf_decomp]
        simp [hnaf1, hnaf2]
    refine ⟨_, ?_, hInvNS, ?_, ?_, ?_⟩
    · rw [hsetT, hrel1]
      rfl
    · intro x t hx
      have hne : x ≠ heapBase + sumSizes bs1 := by
        intro heq
        rw [heq, hbpAt] at hx
        simp at hx
      show blockAt (bs1 ++ ([({ bsize := csize, balloc := true } : Block)] ++ bs2))
          heapBase x = some { bsize := t, balloc := true }
      have e : bs1 ++ ([({ bsize := csize, balloc := true } : Block)] ++ bs2)
          = bs1 ++ ({ bsize := csize, balloc := true } : Block) :: bs2 := by
        simp
      rw [e, blockAt_retag_ne bs1 bs2 { bsize := csize, balloc := false }
        { bsize := csize, balloc := true } rfl heapBase x hne, ← hdec]
      exact hx
    · intro h
      exact absurd h hsplit
    · intro _
      exact ⟨by simp, rfl⟩

/-! ### The malloc specification -/

/-- Appending a fresh allocated block at the end of the arena (the success
case of extend_heap) preserves the invariant. -/
theorem inv_extend (g : Heap) (hI : Inv g) (size : Nat)
    (h8 : size % 8 = 0) (h16 : 16 ≤ size) :
    Inv { g with blocks := g.blocks ++ [{ bsize := size, balloc := true }] } := by
  obtain ⟨hlen, hszs, hmemF, hbok, hnd, hnaf⟩ := hI
  have wa : withAddrs (g.blocks ++ [({ bsize := size, balloc := true } : Block)]) heapBase
      = withAddrs g.blocks heapBase
          ++ [(heapBase + sumSizes g.blocks, ({ bsize := size, balloc := true } : Block))] := by
    rw [withAddrs_append]
    rfl
  refine ⟨hlen, ?_, ?_, ?_, hnd, ?_⟩
  · intro p hp
    have hp' : p ∈ withAddrs (g.blocks ++ [({ bsize := size, balloc := true } : Block)])
        heapBase := hp
    rw [wa] at hp'
    rcases List.mem_append.mp hp' with h | h
    · exact hszs p h
    · rcases List.mem_cons.mp h with rfl | h
      · exact ⟨h8, h16⟩
      · cases h
  · intro p hp hfree
    have hp' : p ∈ withAddrs (g.blocks ++ [({ bsize := size, balloc := true } : Block)])
        heapBase := hp
    rw [wa] at hp'
    rcases List.mem_append.mp hp' with h | h
    · exact hmemF p h hfree
    · rcases List.mem_cons.mp h with rfl | h
      · simp at hfree
      · cases h
  · intro j hj a ha
    obtain ⟨q, hq, hq1, hq2, hq3⟩ := hbok j hj a ha
    refine ⟨q, ?_, hq1, hq2, hq3⟩
    show q ∈ withAddrs (g.blocks ++ [({ bsize := size, balloc := true } : Block)]) heapBase
    rw [wa]
    exact List.mem_append_left _ hq
  · show noAdjacentFree (g.blocks ++ [({ bsize := size, balloc := true } : Block)]) = true
    rw [naf_append, boundaryOk_last]
    simp [hnaf, noAdjacentFree]

/-- The full behaviour of malloc under the invariant: the call always
evaluates; the invariant is preserved; previously allocated blocks keep
their tags; NULL is returned only for a zero request and the mem_sbrk
failure sentinel only when growth fails, both leaving the heap unchanged;
and a returned address is 8-aligned and sits 4 past an allocated block
header whose address was previously free or past the old arena end. -/
theorem mm_malloc_spec (growOk : Bool) (g : Heap) (sz : Nat) (hI : Inv g) :
    ∃ r h', mm_malloc growOk g sz = some (r, h') ∧ Inv h' ∧
      (∀ x t, blockAt g.blocks heapBase x = some { bsize := t, balloc := true } →
        blockAt h'.blocks heapBase x = some { bsize := t, balloc := true }) ∧
      ((r = PtrV.null ∨ r = PtrV.sbrkFail) → h' = g) ∧
      (r = PtrV.null → sz = 0) ∧
      (r = PtrV.sbrkFail → growOk = false) ∧
      (∀ p, r = PtrV.addr p → p % 8 = 0 ∧
        (∃ t, 16 ≤ t ∧ blockAt h'.blocks heapBase (p - 4)
            = some { bsize := t, balloc := true }) ∧
        (blockAt g.blocks heapBase (p - 4) = none ∨
          ∃ u, blockAt g.blocks heapBase (p - 4) = some { bsize := u, balloc := false })) := by
  by_cases hsz : sz = 0
  · subst hsz
    refine ⟨.null, g, by simp [mm_malloc], hI, fun x t hx => hx, fun _ => rfl,
      fun _ => rfl, ?_, ?_⟩
    · intro h
      cases h
    · intro p hp
      cases hp
  · cases hff : first_fit g (asizeOf sz) (getIndex (asizeOf sz)) with
    | none =>
      cases growOk with
      | false =>
        refine ⟨.sbrkFail, g, ?_, hI, fun x t hx => hx, fun _ => rfl, ?_,
          fun _ => rfl, ?_⟩
        · simp only [mm_malloc, if_neg hsz, hff]
          rfl
        · intro h
          cases h
        · intro p hp
          cases hp
      | true =>
        have h16 := asizeOf_min sz (by omega)
        have h8 := asizeOf_mod sz
        have hmod : sumSizes g.blocks % 8 = 0 := by
          apply sumSizes_mod
          intro x hx
          obtain ⟨a, ha⟩ := mem_withAddrs_of_mem heapBase hx
          exact (hI.2.1 (a, x) ha).1
        have hposG := inv_pos_sizes hI
        refine ⟨.addr (80 + sumSizes g.blocks),
          { g with blocks := g.blocks ++ [{ bsize := asizeOf sz, balloc := true }] },
          ?_, inv_extend g hI _ h8 h16, ?_, ?_, ?_, ?_, ?_⟩
        · simp only [mm_malloc, if_neg hsz, hff, extend_heap]
          rfl
        · intro x t hx
          exact blockAt_append_left hx _
        · intro h
          rcases h with h | h <;> cases h
        · intro h
          cases h
        · intro h
          cases h
        · intro p hp
          injection hp with hp
          subst hp
          have e : 80 + sumSizes g.blocks - 4 = heapBase + sumSizes g.blocks := by
            simp only [heapBase]
            omega
          refine ⟨by omega, ⟨asizeOf sz, h16, ?_⟩, Or.inl ?_⟩
          · rw [e]
            show blockAt (g.blocks ++ { bsize := asizeOf sz, balloc := true } :: []) heapBase
              (heapBase + sumSizes g.blocks) = _
            exact blockAt_decomp hposG _ [] heapBase
          · rw [e]
            exact blockAt_ge_none hposG (le_refl _)
    | some pr =>
      obtain ⟨bp0, prev⟩ := pr
      obtain ⟨i, L1, L2, hilt, hge, hbuckdec, hprev, hfit⟩ := first_fit_sound g _ hI.1 hff
      have hmem : bp0 ∈ bucketGet g i := by
        rw [hbuckdec]
        exact List.mem_append_right _ (List.mem_cons_self _ _)
      obtain ⟨q, hq, hq1, hq2, hq3⟩ := hI.2.2.2.1 i hilt bp0 hmem
      obtain ⟨qa, qb⟩ := q
      simp only at hq1 hq2 hq3
      subst hq1
      have hqb : qb = { bsize := qb.bsize, balloc := false } := by
        rw [← hq2]
      obtain ⟨W1, W2, hW⟩ := List.append_of_mem hq
      obtain ⟨bs1, bs2, hdecq, -, ha, -⟩ := withAddrs_decomp hW
      have hdec2 : g.blocks = bs1 ++ { bsize := qb.bsize, balloc := false } :: bs2 := by
        rw [hdecq, ← hqb]
      have hpos1 : ∀ x ∈ bs1, 0 < x.bsize := fun x hx =>
        inv_pos_sizes hI x (by rw [hdec2]; exact List.mem_append_left _ hx)
      have hbuck' : bucketGet g (getIndex qb.bsize)
          = L1 ++ (heapBase + sumSizes bs1) :: L2 := by
        rw [hq3, ← ha]
        exact hbuckdec
      have h16 := asizeOf_min sz (by omega)
      have h8 := asizeOf_mod sz
      obtain ⟨h', heval, hinv, hpres, hspl, hnspl⟩ :=
        place_ok g hI bs1 bs2 qb.bsize (asizeOf sz) hdec2 L1 L2 hbuck' h8 h16
      refine ⟨.addr (heapBase + sumSizes bs1 + 4), h', ?_, hinv, hpres, ?_, ?_, ?_, ?_⟩
      · simp only [mm_malloc, if_neg hsz, hff]
        rw [hprev, ha, heval]
        rfl
      · intro h
        rcases h with h | h <;> cases h
      · intro h
        cases h
      · intro h
        cases h
      · intro p hp
        injection hp with hp
        subst hp
        have e : heapBase + sumSizes bs1 + 4 - 4 = heapBase + sumSizes bs1 := by
          omega
        have hmod4 : qa % 8 = 4 := by
          have := inv_addr_mod hI (qa, qb) hq
          simpa using this
        have hbfree : blockAt g.blocks heapBase (heapBase + sumSizes bs1)
            = some { bsize := qb.bsize, balloc := false } := by
          rw [hdec2]
          exact blockAt_decomp hpos1 _ bs2 heapBase
        refine ⟨by omega, ?_, Or.inr ⟨qb.bsize, by rw [e]; exact hbfree⟩⟩
        rw [e]
        by_cases hc : (16 : Int) < (qb.bsize : Int) - (asizeOf sz : Int)
        · obtain ⟨hbl, -⟩ := hspl hc
          refine ⟨asizeOf sz, h16, ?_⟩
          rw [hbl]
          exact blockAt_decomp hpos1 _ _ heapBase
        · obtain ⟨hbl, -⟩ := hnspl hc
          have h16c : 16 ≤ qb.bsize := by
            have := (hI.2.1 (qa, qb) hq).2
            simpa using this
          refine ⟨qb.bsize, h16c, ?_⟩
          rw [hbl]
          exact blockAt_decomp hpos1 _ bs2 heapBase

/-! ### Claim theorems -/

/-- C1: the claim states malloc(size) is null exactly when size = 0 or heap
growth failed, growth failure being reported as a null result.  The code
instead forwards mem_sbrk's (void * )-1 sentinel: on a fresh heap with all
free lists empty, malloc(1) with a failing growth primitive returns the
sentinel, which is not the null pointer.  (malloc's miss path returns
extend_heap's result unchanged, and extend_heap returns mem_sbrk's failure
value directly, src/mm.c lines 121-124 and 261-263.) -/
theorem c1_growth_failure_returns_sentinel :
    mm_malloc false initHeap 1 = some (.sbrkFail, initHeap) ∧
    PtrV.sbrkFail ≠ PtrV.null := by
  exact ⟨by decide, by decide⟩

/-- C4: the claim states calloc returns a null result when the underlying
allocation fails.  In the code, a failed heap growth makes malloc return
the (void * )-1 sentinel; calloc performs no null check and passes that
sentinel straight to memset(ptr, 0, bytes), writing through (void * )-1 --
a crash, modelled as `none` -- instead of returning null.  Evaluated at the
failing input calloc(1, 1) on a fresh heap with a failing growth
primitive. -/
theorem c4_calloc_growth_failure_crashes :
    (mm_calloc false initHeap (fun _ => 0) 1 1).isNone = true := by
  decide

/-- C9: the round-trip scenario.  On a freshly initialized heap,
allocate(24) carves a block of total size 32 from heap growth (asize =
24 + 8 = 32) and returns payload 80; deallocating it re-enters header 76
into bucket 0 (getIndex 32 = 0); an immediately following allocate(24)
is served from bucket 0 and returns the same block with the arena
unchanged -- no heap growth. -/
theorem c9_round_trip :
    mm_malloc true initHeap 24
      = some (.addr 80,
          { buckets := List.replicate 9 [], blocks := [{ bsize := 32, balloc := true }] }) ∧
    mm_free ({ buckets := List.replicate 9 [], blocks := [{ bsize := 32, balloc := true }] })
        (.addr 80)
      = some { buckets := [[76], [], [], [], [], [], [], [], []],
               blocks := [{ bsize := 32, balloc := false }] } ∧
    getIndex 32 = 0 ∧
    (76 : Nat) ∈ bucketGet
        ({ buckets := [[76], [], [], [], [], [], [], [], []],
           blocks := [{ bsize := 32, balloc := false }] }) 0 ∧
    mm_malloc true
        ({ buckets := [[76], [], [], [], [], [], [], [], []],
           blocks := [{ bsize := 32, balloc := false }] }) 24
      = some (.addr 80,
          { buckets := [[], [], [], [], [], [], [], [], []],
            blocks := [{ bsize := 32, balloc := true }] }) := by
  exact ⟨by decide, by decide, by decide, by decide, by decide⟩

/-- C5: on a first_fit miss for a non-zero request, malloc grows the heap
by exactly the required size asize = (sz + 8 rounded up to a multiple of
8): the returned pointer is the old break, the arena gains exactly one
block of exactly asize bytes already tagged allocated, and the free-list
buckets are returned unchanged -- the new block never enters any bucket
and the search is not retried. -/
theorem c5_miss_exact_growth (h : Heap) (sz : Nat) (hsz : sz ≠ 0)
    (hmiss : first_fit h (asizeOf sz) (getIndex (asizeOf sz)) = none) :
    mm_malloc true h sz
      = some (.addr (80 + sumSizes h.blocks),
          { h with blocks := h.blocks ++ [{ bsize := asizeOf sz, balloc := true }] }) ∧
    asizeOf sz = ((sz + 8 + 7) / 8) * 8 ∧ asizeOf sz % 8 = 0 := by
  refine ⟨?_, asizeOf_round sz, asizeOf_mod sz⟩
  simp only [mm_malloc, if_neg hsz, asizeOf, extend_heap] at hmiss ⊢
  rw [hmiss]
  simp

/-- Witness for C5 at the concrete input of Scenario A: allocate(24) on the
fresh heap misses and grows by exactly 32 bytes. -/
theorem c5_miss_exact_growth_witness :
    mm_malloc true initHeap 24
      = some (.addr (80 + sumSizes initHeap.blocks),
          { initHeap with
            blocks := initHeap.blocks ++ [{ bsize := asizeOf 24, balloc := true }] }) :=
  (c5_miss_exact_growth initHeap 24 (by decide) (by decide)).1

/-- C6 counterexample: the claim says first_fit returns null exactly when
every bucket from the natural class through bucket 8 is empty.  In the
state below -- a legal allocator state, as witnessed by the invariant
conjunct -- bucket 0 (the natural bucket of asize 32) is non-empty, holding
a free block of size 24, yet the search returns null because that block is
too small and all higher buckets are empty.  So "returns null" does not
imply "every bucket from the natural class up is empty". -/
theorem c6_counterexample :
    first_fit
        ({ buckets := [[76], [], [], [], [], [], [], [], []],
           blocks := [{ bsize := 24, balloc := false }] }) 32 (getIndex 32) = none ∧
    bucketGet
        ({ buckets := [[76], [], [], [], [], [], [], [], []],
           blocks := [{ bsize := 24, balloc := false }] }) (getIndex 32) ≠ [] ∧
    Inv
        ({ buckets := [[76], [], [], [], [], [], [], [], []],
           blocks := [{ bsize := 24, balloc := false }] }) := by
  exact ⟨by decide, by decide, by decide⟩

/-- C3 counterexample: the claim says realloc copies exactly the lesser of
the old block's usable (payload) size and the new requested size.  The code
copies min(GET_SIZE(old), size) where GET_SIZE is the old block's TOTAL
size (src/mm.c line 377).  Start from the reachable state after
allocate(24) (one allocated block of total size 32, payload 80, usable
size specUsableSize 32 = 24) with payload byte at offset 24 (address 104)
equal to 7.  realloc(80, 28) returns the new payload 112 and copies
min(32, 28) = 28 bytes, so the new block's byte at offset 24 (address 136)
becomes 7; a copy of the claimed length min(usable 24, 28) = 24 would have
left that byte at its prior value 0 (third conjunct).  Hence the claim's
copy length is wrong; only min(total, new) matches the code. -/
theorem c3_counterexample :
    (mm_realloc true
        ({ buckets := List.replicate 9 [], blocks := [{ bsize := 32, balloc := true }] })
        (fun a => if a = 104 then 7 else 0) (.addr 80) 28).map
        (fun r => (r.1, r.2.2 136)) = some (.addr 112, 7) ∧
    specUsableSize 32 = 24 ∧
    memcpy (fun a => if a = 104 then 7 else 0) 112 80 (min (specUsableSize 32) 28) 136 = 0 := by
  refine ⟨by decide, by decide, ?_⟩
  decide

/-- C6 (amended): characterization of first_fit for a required size and its
natural bucket, over any 9-bucket state.  (1) The search returns null
exactly when the natural bucket contains no block of sufficient size AND
every higher bucket through index 8 is empty (the claim's original "exactly
when every bucket from the natural class through 8 is empty" is refuted by
the counterexample theorem).  (2) On a hit, either the natural bucket
yielded its first fitting block, with the tracked predecessor being the
node just before it (null when it is the head), or -- when the natural
bucket had no fit -- the result is the head block of the first non-empty
higher bucket, taken unconditionally with no size check, with a null
predecessor. -/
theorem c6_first_fit_spec (h : Heap) (asize : Nat) (hlen : h.buckets.length = 9) :
    (first_fit h asize (getIndex asize) = none ↔
      (∀ a ∈ bucketGet h (getIndex asize), sizeAt h a < asize) ∧
      (∀ j < 9, getIndex asize < j → bucketGet h j = [])) ∧
    (∀ bp prev, first_fit h asize (getIndex asize) = some (bp, prev) →
      (∃ L1 L2, bucketGet h (getIndex asize) = L1 ++ bp :: L2 ∧ asize ≤ sizeAt h bp ∧
          (∀ a ∈ L1, sizeAt h a < asize) ∧ prev = lastOr none L1) ∨
      ((∀ a ∈ bucketGet h (getIndex asize), sizeAt h a < asize) ∧ prev = none ∧
        ∃ j, getIndex asize < j ∧ j < 9 ∧ (∃ rest, bucketGet h j = bp :: rest) ∧
          ∀ k < j, getIndex asize < k → bucketGet h k = [])) := by
  have hidx : getIndex asize ≤ 8 := getIndex_le_eight asize
  have hseglen :
      ((h.buckets.drop (getIndex asize + 1)).take (8 - getIndex asize)).length
        = 8 - getIndex asize := by
    rw [List.length_take, List.length_drop, hlen]
    omega
  have hbridge : ∀ j, getIndex asize < j → j < 9 →
      bucketGet h j
        = ((h.buckets.drop (getIndex asize + 1)).take (8 - getIndex asize)).getD
            (j - getIndex asize - 1) [] := by
    intro j h1 h2
    rw [getD_take _ _ _ _ (by omega), getD_drop]
    have harith : getIndex asize + 1 + (j - getIndex asize - 1) = j := by omega
    rw [harith]
    rfl
  constructor
  · cases hscan : ffScan h asize (bucketGet h (getIndex asize)) none with
    | some r =>
      obtain ⟨L1, L2, hdec, hfit, _, _⟩ := ffScan_some hscan
      constructor
      · intro hnone
        simp only [first_fit, hscan] at hnone
        exact absurd hnone (Option.some_ne_none r)
      · rintro ⟨hall, -⟩
        have := hall r.1 (by rw [hdec]; exact List.mem_append_right _ (List.mem_cons_self _ _))
        omega
    | none =>
      simp only [first_fit, hscan]
      rw [Option.map_eq_none', fneh_none_iff, forall_eq_nil_iff_getD, hseglen]
      constructor
      · intro hall
        refine ⟨(ffScan_none_iff h asize _ none).mp hscan, ?_⟩
        intro j h2 h1
        rw [hbridge j h1 h2]
        exact hall (j - getIndex asize - 1) (by omega)
      · rintro ⟨-, hbuck⟩ k hk
        have hb := hbuck (getIndex asize + 1 + k) (by omega) (by omega)
        rw [hbridge (getIndex asize + 1 + k) (by omega) (by omega)] at hb
        have harith : getIndex asize + 1 + k - getIndex asize - 1 = k := by omega
        rwa [harith] at hb
  · intro bp prev hsome
    cases hscan : ffScan h asize (bucketGet h (getIndex asize)) none with
    | some r =>
      left
      simp only [first_fit, hscan, Option.some.injEq] at hsome
      subst hsome
      exact ffScan_some hscan
    | none =>
      right
      simp only [first_fit, hscan] at hsome
      cases hf : firstNonEmptyHead
          ((h.buckets.drop (getIndex asize + 1)).take (8 - getIndex asize)) with
      | none => rw [hf] at hsome; simp at hsome
      | some q =>
        rw [hf] at hsome
        simp only [Option.map_some', Option.some.injEq, Prod.mk.injEq] at hsome
        obtain ⟨rfl, rfl⟩ := hsome
        obtain ⟨k, rest, hk, hget, hprev⟩ := fneh_some hf
        rw [hseglen] at hk
        refine ⟨(ffScan_none_iff h asize _ none).mp hscan, rfl,
          getIndex asize + 1 + k, by omega, by omega, ⟨rest, ?_⟩, ?_⟩
        · rw [hbridge (getIndex asize + 1 + k) (by omega) (by omega)]
          have harith : getIndex asize + 1 + k - getIndex asize - 1 = k := by omega
          rw [harith, hget]
        · intro k' hk' hk'2
          rw [hbridge k' hk'2 (by omega)]
          exact hprev (k' - getIndex asize - 1) (by omega)

/-- Witness for C6's amended characterization: on the counterexample state
(bucket 0 holds one 24-byte free block, all other buckets empty) with
request 32, the iff direction produces the null result. -/
theorem c6_first_fit_spec_witness :
    first_fit
        ({ buckets := [[76], [], [], [], [], [], [], [], []],
           blocks := [{ bsize := 24, balloc := false }] }) 32 (getIndex 32) = none :=
  ((c6_first_fit_spec
      ({ buckets := [[76], [], [], [], [], [], [], [], []],
         blocks := [{ bsize := 24, balloc := false }] }) 32 (by decide)).1).mpr
    ⟨by decide, by decide⟩

/-- C7: for a candidate free block of pre-split size csize handed to place
with required size asize, the block is first unlinked from the bucket
indexed by csize (relink reads GET_SIZE before any tag is rewritten); when
csize - asize, computed in C ints, strictly exceeds 16 = 2*DSIZE the head
portion is written allocated with size asize, the remainder becomes a
standalone free block with fresh header/footer reinserted via the free
path (its bucket push is visible in the resulting bucket state); otherwise
the whole block is tagged allocated with its size unchanged and only the
unlink is visible in the buckets. -/
theorem c7_place_unlink_split (g : Heap) (bs1 bs2 : List Block) (csize asize : Nat)
    (L1 L2 : List Nat) (hI : Inv g)
    (hdec : g.blocks = bs1 ++ { bsize := csize, balloc := false } :: bs2)
    (hbuck : bucketGet g (getIndex csize) = L1 ++ (heapBase + sumSizes bs1) :: L2)
    (hasz8 : asize % 8 = 0) (hasz16 : 16 ≤ asize) :
    ∃ h', place g asize (heapBase + sumSizes bs1) (lastOr none L1)
        = some (heapBase + sumSizes bs1 + 4, h') ∧ Inv h' ∧
      ((16 : Int) < (csize : Int) - (asize : Int) →
        h'.blocks = bs1 ++ { bsize := asize, balloc := true }
            :: { bsize := csize - asize, balloc := false } :: bs2 ∧
        h'.buckets = (pushBucket (bucketSet g (getIndex csize) (L1 ++ L2))
            (getIndex (csize - asize)) (heapBase + sumSizes bs1 + asize)).buckets) ∧
      (¬ (16 : Int) < (csize : Int) - (asize : Int) →
        h'.blocks = bs1 ++ { bsize := csize, balloc := true } :: bs2 ∧
        h'.buckets = (bucketSet g (getIndex csize) (L1 ++ L2)).buckets) := by
  obtain ⟨h', heval, hinv, -, hspl, hnspl⟩ :=
    place_ok g hI bs1 bs2 csize asize hdec L1 L2 hbuck hasz8 hasz16
  exact ⟨h', heval, hinv, hspl, hnspl⟩

/-- Witness for C7 at a concrete split scenario: one free block of size 48
in bucket 1, request asize 24; the leftover 24 exceeds 16, so place splits
and the remainder enters bucket getIndex 24 = 0. -/
theorem c7_place_unlink_split_witness :
    Inv ({ buckets := [[], [76], [], [], [], [], [], [], []],
           blocks := [{ bsize := 48, balloc := false }] }) ∧
    (∃ h', place
        ({ buckets := [[], [76], [], [], [], [], [], [], []],
           blocks := [{ bsize := 48, balloc := false }] }) 24
          (heapBase + sumSizes []) (lastOr none [])
        = some (heapBase + sumSizes [] + 4, h') ∧ Inv h' ∧
      ((16 : Int) < (48 : Int) - (24 : Int) →
        h'.blocks = [] ++ { bsize := 24, balloc := true }
            :: { bsize := 48 - 24, balloc := false } :: [] ∧
        h'.buckets = (pushBucket
            (bucketSet
              ({ buckets := [[], [76], [], [], [], [], [], [], []],
                 blocks := [{ bsize := 48, balloc := false }] }) (getIndex 48) ([] ++ []))
            (getIndex (48 - 24)) (heapBase + sumSizes [] + 24)).buckets) ∧
      (¬ (16 : Int) < (48 : Int) - (24 : Int) →
        h'.blocks = [] ++ { bsize := 48, balloc := true } :: [] ∧
        h'.buckets = (bucketSet
            ({ buckets := [[], [76], [], [], [], [], [], [], []],
               blocks := [{ bsize := 48, balloc := false }] })
            (getIndex 48) ([] ++ [])).buckets)) :=
  ⟨by decide,
    c7_place_unlink_split
      ({ buckets := [[], [76], [], [], [], [], [], [], []],
         blocks := [{ bsize := 48, balloc := false }] }) [] [] 48 24 [] []
      (by decide) (by decide) (by decide) (by decide) (by decide)⟩

/-- C8: every successful allocation, whether served from a free list via
place or from heap growth, returns a payload address that is a multiple of
8: block header addresses are congruent to 4 mod 8 by the mm_init layout
(76 plus a sum of 8-multiples) and the returned payload is header + 4,
while the heap-growth pointer 80 + arena bytes is likewise a multiple
of 8. -/
theorem c8_payload_alignment (growOk : Bool) (g : Heap) (sz p : Nat) (h' : Heap)
    (hI : Inv g) (hm : mm_malloc growOk g sz = some (PtrV.addr p, h')) :
    p % 8 = 0 := by
  obtain ⟨r0, h0, hm0, -, -, -, -, -, haddr⟩ := mm_malloc_spec growOk g sz hI
  rw [hm0] at hm
  simp only [Option.some.injEq, Prod.mk.injEq] at hm
  obtain ⟨h1, -⟩ := hm
  exact (haddr p h1).1

/-- Witness for C8: allocate(24) on the fresh heap returns payload 80, a
multiple of 8. -/
theorem c8_payload_alignment_witness :
    Inv initHeap ∧
    mm_malloc true initHeap 24
      = some (PtrV.addr 80,
          { buckets := List.replicate 9 [], blocks := [{ bsize := 32, balloc := true }] }) ∧
    80 % 8 = 0 :=
  ⟨by decide, by decide,
    c8_payload_alignment true initHeap 24 80
      ({ buckets := List.replicate 9 [], blocks := [{ bsize := 32, balloc := true }] })
      (by decide) (by decide)⟩

/-- C10: under the invariant, whenever coalesce is about to unlink a free
neighbour block, that block's header address is present in the free list of
the bucket indexed by its size (the invariant's free-membership conjunct),
so find_prev's scan -- whose C loop has no null check and would dereference
a null next pointer on a miss, modelled as the none outcome -- terminates
at the block and returns its list predecessor, NULL exactly when the block
heads its bucket. -/
theorem c10_find_prev_terminates (g : Heap) (a s : Nat) (hI : Inv g)
    (hb : blockAt g.blocks heapBase a = some { bsize := s, balloc := false }) :
    ∃ pr L1 L2, find_prev g a = some pr ∧
      bucketGet g (getIndex (sizeAt g a)) = L1 ++ a :: L2 ∧
      pr = lastOr none L1 ∧ (pr = none ↔ L1 = []) := by
  have hmem : (a, ({ bsize := s, balloc := false } : Block)) ∈ withAddrs g.blocks heapBase :=
    blockAt_mem_withAddrs hb
  have hsz : sizeAt g a = s := by
    show (blockAt g.blocks heapBase a).elim 0 Block.bsize = s
    rw [hb]
    rfl
  have hin : a ∈ bucketGet g (getIndex s) := hI.2.2.1 _ hmem rfl
  have hj : getIndex (sizeAt g a) = getIndex s := by rw [hsz]
  have hnd := hI.2.2.2.2.1 (getIndex s) (by have := getIndex_le_eight s; omega)
  obtain ⟨pr, L1, L2, hdec, -, -, -, hfp, -, hpr⟩ := unlink_step g a (getIndex s) hj hin hnd
  refine ⟨pr, L1, L2, hfp, ?_, hpr, ?_⟩
  · rw [hj]
    exact hdec
  · rw [hpr]
    exact lastOr_none_iff L1

/-- Witness for C10: the free 32-byte block at header 76 heads bucket 0, so
find_prev returns some NULL (predecessor NULL, no crash). -/
theorem c10_find_prev_terminates_witness :
    Inv ({ buckets := [[76], [], [], [], [], [], [], [], []],
           blocks := [{ bsize := 32, balloc := false }] }) ∧
    (∃ pr L1 L2, find_prev
        ({ buckets := [[76], [], [], [], [], [], [], [], []],
           blocks := [{ bsize := 32, balloc := false }] }) 76 = some pr ∧
      bucketGet
        ({ buckets := [[76], [], [], [], [], [], [], [], []],
           blocks := [{ bsize := 32, balloc := false }] })
        (getIndex (sizeAt
          ({ buckets := [[76], [], [], [], [], [], [], [], []],
             blocks := [{ bsize := 32, balloc := false }] }) 76)) = L1 ++ 76 :: L2 ∧
      pr = lastOr none L1 ∧ (pr = none ↔ L1 = [])) :=
  ⟨by decide,
    c10_find_prev_terminates
      ({ buckets := [[76], [], [], [], [], [], [], [], []],
         blocks := [{ bsize := 32, balloc := false }] }) 76 32 (by decide) (by decide)⟩

/-- C2: after each public operation that completes (malloc with any
request, free on a legitimate argument, realloc and calloc built on them),
scanning the arena never finds two directly adjacent free blocks.  Every
operation preserves the full allocator invariant, whose last conjunct is
exactly the no-adjacent-free scan; free establishes it by eager coalescing
in all four neighbour cases (the coalesce case analysis behind the free
specification). -/
theorem c2_no_adjacent_free (growOk : Bool) (g : Heap) (m : Mem) (sz n : Nat) (p : PtrV)
    (hI : Inv g) (hv : ValidFreeArg g p) :
    (∀ r h', mm_malloc growOk g sz = some (r, h') → noAdjacentFree h'.blocks = true) ∧
    (∀ h', mm_free g p = some h' → noAdjacentFree h'.blocks = true) ∧
    (∀ r h' m', mm_realloc growOk g m p sz = some (r, h', m') →
      noAdjacentFree h'.blocks = true) ∧
    (∀ r h' m', mm_calloc growOk g m n sz = some (r, h', m') →
      noAdjacentFree h'.blocks = true) := by
  refine ⟨?_, ?_, ?_, ?_⟩
  · intro r h' heq
    obtain ⟨r0, h0, hm0, hI0, -⟩ := mm_malloc_spec growOk g sz hI
    rw [hm0] at heq
    simp only [Option.some.injEq, Prod.mk.injEq] at heq
    obtain ⟨-, rfl⟩ := heq
    exact hI0.2.2.2.2.2
  · intro h' heq
    obtain ⟨h0, hf0, hI0⟩ := mm_free_spec g p hI hv
    rw [hf0] at heq
    simp only [Option.some.injEq] at heq
    subst heq
    exact hI0.2.2.2.2.2
  · intro r h' m' heq
    rcases hv with rfl | ⟨a, s, rfl, hb⟩
    · obtain ⟨r0, h0, hm0, hI0, -⟩ := mm_malloc_spec growOk g sz hI
      simp only [mm_realloc, if_pos rfl, hm0, Option.map_some', Option.some.injEq,
        Prod.mk.injEq] at heq
      obtain ⟨-, rfl, -⟩ := heq
      exact hI0.2.2.2.2.2
    · by_cases hsz0 : sz = 0
      · subst hsz0
        have hvv : ValidFreeArg g (.addr (a + 4)) := Or.inr ⟨a, s, rfl, hb⟩
        obtain ⟨h0, hf0, hI0⟩ := mm_free_spec g _ hI hvv
        simp only [mm_realloc, reduceCtorEq, if_false, if_pos rfl, hf0,
          Option.map_some', Option.some.injEq, Prod.mk.injEq] at heq
        obtain ⟨-, rfl, -⟩ := heq
        exact hI0.2.2.2.2.2
      · obtain ⟨r0, h0, hm0, hI0, hpres, -, hnull, -, -⟩ := mm_malloc_spec growOk g sz hI
        cases r0 with
        | null => exact absurd (hnull rfl) hsz0
        | sbrkFail =>
          simp only [mm_realloc, reduceCtorEq, if_false, if_neg hsz0, hm0] at heq
          simp at heq
        | addr bp =>
          have hb0 : blockAt h0.blocks heapBase a = some { bsize := s, balloc := true } :=
            hpres a s hb
          have hvv : ValidFreeArg h0 (.addr (a + 4)) := Or.inr ⟨a, s, rfl, hb0⟩
          obtain ⟨h1, hf1, hI1⟩ := mm_free_spec h0 _ hI0 hvv
          simp only [mm_realloc, reduceCtorEq, if_false, if_neg hsz0, hm0,
            Option.some_bind, hf1, Option.map_some', Option.some.injEq,
            Prod.mk.injEq] at heq
          obtain ⟨-, rfl, -⟩ := heq
          exact hI1.2.2.2.2.2
  · intro r h' m' heq
    obtain ⟨r0, h0, hm0, hI0, -⟩ := mm_malloc_spec growOk g ((n * sz) % 2 ^ 64) hI
    cases r0 with
    | null =>
      simp only [mm_calloc, hm0, Option.some_bind, Option.some.injEq,
        Prod.mk.injEq] at heq
      obtain ⟨-, rfl, -⟩ := heq
      exact hI0.2.2.2.2.2
    | sbrkFail =>
      simp only [mm_calloc, hm0, Option.some_bind] at heq
      exact Option.noConfusion heq
    | addr q =>
      simp only [mm_calloc, hm0, Option.some_bind, Option.some.injEq,
        Prod.mk.injEq] at heq
      obtain ⟨-, rfl, -⟩ := heq
      exact hI0.2.2.2.2.2

/-- Witness for C2 on the fresh heap with a NULL free argument: all four
operations evaluate and keep the arena free of adjacent free blocks. -/
theorem c2_no_adjacent_free_witness :
    Inv initHeap ∧ ValidFreeArg initHeap PtrV.null ∧
    ((∀ r h', mm_malloc true initHeap 24 = some (r, h') →
        noAdjacentFree h'.blocks = true) ∧
     (∀ h', mm_free initHeap PtrV.null = some h' → noAdjacentFree h'.blocks = true) ∧
     (∀ r h' m', mm_realloc true initHeap (fun _ => 0) PtrV.null 24 = some (r, h', m') →
        noAdjacentFree h'.blocks = true) ∧
     (∀ r h' m', mm_calloc true initHeap (fun _ => 0) 1 24 = some (r, h', m') →
        noAdjacentFree h'.blocks = true)) :=
  ⟨by decide, Or.inl rfl,
    c2_no_adjacent_free true initHeap (fun _ => 0) 24 1 PtrV.null (by decide) (Or.inl rfl)⟩

/-- C3 (amended): for a non-null pointer to an allocated block and a
non-zero size, with reliable heap growth, realloc allocates a brand-new
block -- the returned payload always differs from the old pointer, since
malloc only hands out addresses that were free or past the old arena end
while the old block is allocated -- copies min(old TOTAL size, requested
size) bytes, the code's copy length being GET_SIZE of the old header (the
total block size including the 8 header/footer bytes), not the claim's
usable size (refuted by the counterexample theorem); then frees the old
block and returns the new pointer.  Since the total exceeds the usable
size, the claim's data-preservation consequence still holds a fortiori:
every payload byte below min(old total, new size) is copied. -/
theorem c3_realloc_copies_total_min (g : Heap) (m : Mem) (a s sz : Nat) (hI : Inv g)
    (hb : blockAt g.blocks heapBase a = some { bsize := s, balloc := true })
    (hsz : sz ≠ 0) :
    ∃ bp h' m', mm_realloc true g m (PtrV.addr (a + 4)) sz = some (PtrV.addr bp, h', m') ∧
      bp ≠ a + 4 ∧
      (∀ k, k < min s sz → m' (bp + k) = m (a + 4 + k)) ∧
      (∀ t, blockAt h'.blocks heapBase a ≠ some { bsize := t, balloc := true }) := by
  obtain ⟨r0, h0, hm0, hI0, hpres, -, hnull, hsbrk, haddr⟩ := mm_malloc_spec true g sz hI
  cases r0 with
  | null => exact absurd (hnull rfl) hsz
  | sbrkFail => exact absurd (hsbrk rfl) (by simp)
  | addr bp =>
    obtain ⟨-, -, hold⟩ := haddr bp rfl
    have hbpne : bp ≠ a + 4 := by
      intro heq
      rw [heq, show a + 4 - 4 = a by omega] at hold
      rcases hold with h | ⟨u, h⟩
      · rw [h] at hb
        cases hb
      · rw [h] at hb
        simp at hb
    have hb0 : blockAt h0.blocks heapBase a = some { bsize := s, balloc := true } :=
      hpres a s hb
    obtain ⟨W1, W2, hW⟩ := List.append_of_mem (blockAt_mem_withAddrs hb0)
    obtain ⟨bs1, bs2, hdec0, -, ha0, -⟩ := withAddrs_decomp hW
    obtain ⟨h1, hf1, hI1, hC1, hD1⟩ := mm_free_alloc h0 hI0 bs1 bs2 s hdec0
    rw [← ha0] at hf1 hD1
    have hsize0 : sizeAt h0 (a + 4 - 4) = s := by
      rw [show a + 4 - 4 = a by omega]
      show (blockAt h0.blocks heapBase a).elim 0 Block.bsize = s
      rw [hb0]
      rfl
    have hminEq : (if s > sz then sz else s) = min s sz := by
      split <;> omega
    refine ⟨bp, h1, memcpy m bp (a + 4) (if s > sz then sz else s), ?_, hbpne, ?_, hD1⟩
    · simp only [mm_realloc, reduceCtorEq, if_false, if_neg hsz, hm0,
        Option.some_bind, hsize0, hf1, Option.map_some']
    · intro k hk
      show (if bp ≤ bp + k ∧ bp + k < bp + (if s > sz then sz else s) then
          m (a + 4 + (bp + k - bp)) else m (bp + k)) = m (a + 4 + k)
      rw [hminEq, if_pos ⟨Nat.le_add_right _ _, by omega⟩]
      congr 1
      omega

/-- Witness for C3's amended statement on the reachable one-block state
after allocate(24) (total size 32): realloc(80, 28) returns a fresh
pointer, copies min(32, 28) = 28 bytes and leaves no allocated block at
the old header. -/
theorem c3_realloc_copies_total_min_witness :
    Inv ({ buckets := List.replicate 9 [],
           blocks := [{ bsize := 32, balloc := true }] }) ∧
    blockAt [{ bsize := 32, balloc := true }] heapBase 76
      = some { bsize := 32, balloc := true } ∧
    (∃ bp h' m', mm_realloc true
        ({ buckets := List.replicate 9 [],
           blocks := [{ bsize := 32, balloc := true }] })
        (fun x => x) (PtrV.addr (76 + 4)) 28 = some (PtrV.addr bp, h', m') ∧
      bp ≠ 76 + 4 ∧
      (∀ k, k < min 32 28 → m' (bp + k) = (fun x => x) (76 + 4 + k)) ∧
      (∀ t, blockAt h'.blocks heapBase 76 ≠ some { bsize := t, balloc := true })) :=
  ⟨by decide, by decide,
    c3_realloc_copies_total_min
      ({ buckets := List.replicate 9 [],
         blocks := [{ bsize := 32, balloc := true }] })
      (fun x => x) 76 32 28 (by decide) (by decide) (by decide)⟩

end MM
